import Mathlib

/-!
# Category roll-up of the "Where the Money Goes / Comes From / Summary" report

A shallow embedding of `mmReportCategoryExpenses::AppendData`,
`mmReportCategoryExpenses::RefreshData` and the totals of
`mmReportCategoryExpenses::getHTMLText` (`src/reports/categexp.cpp`), followed by
theorems about the sequence of rows they leave in `data_` and about the totals.

Conventions of the embedding

* The category table of `Model_Category` is a list of records; the two queries the
  report uses (`find(PARENTID(-1))` and `sub_category`) are filters over that list.
* The member `data_` (a `std::vector`) is a list that is threaded through the calls;
  `data_.insert(data_.begin(), row)` is `row :: data_`.
* `AppendData` recurses through the table, and on a table with a cycle in the parent
  relation the source does not terminate.  The embedding takes a recursion budget
  (`fuel`) and returns `none` when the budget is used up.
* Monetary amounts are `double` in the source.  The methods are embedded twice.  In the
  namespace `MMEX` the amounts are exact integers (`Int`): this embedding carries the
  statements that are about exact arithmetic and the statements that do not depend on
  the rounding of a sum (the order of the rows, their identifiers, levels and signs,
  the rows of categories whose amounts are all zero).
  In the namespace `MMEX.Binary64` the amounts are IEEE 754 double-precision numbers
  with the rounding of every addition: this embedding carries the statements in which
  the value of a `double` sum decides which rows there are and what the totals are.
-/

set_option exponentiation.threshold 2200

set_option maxRecDepth 8000

namespace MMEX

/-! ## Data model -/

/-- Modelled from the spec: a record of `Model_Category::Data` (the class is not part
of the sources at hand): identifier, display name and parent identifier, with `-1`
as the parent of a top-level category. -/
structure Category where
  CATEGID : Int
  CATEGNAME : String
  PARENTID : Int
deriving DecidableEq, Repr

/-- Modelled from the spec: the enumeration `mmReportCategoryExpenses::TYPE` of
`categexp.h` (not part of the sources at hand); the four constants are the ones
`categexp.cpp` uses.  `GOES` is "expenses only", `COME` is "income only", the other
two pass amounts through. -/
inductive TYPE where
  | SUMMARY
  | GOES
  | COME
  | MONTHLY
deriving DecidableEq, Repr

/-- Modelled from the spec: the row type `mmReportCategoryExpenses::data_holder` of
`categexp.h` (not part of the sources at hand), with the fields in the order of the
brace initialisers of `categexp.cpp`:
`{ catID, subCatID, name, amount, categs, level }`. -/
structure data_holder where
  catID : Int
  subCatID : Int
  name : String
  amount : Int
  categs : Int
  level : Nat
deriving DecidableEq, Repr

/-- The amount index `std::map<int, std::map<int, double>>`: category identifier to
(period to amount), as association lists.  A key has at most one meaning: the first
binding. -/
abbrev CategoryStats := List (Int × List (Int × Int))

/-- The expression `categoryStats[id][period]`: `operator[]` of `std::map` returns a
value-initialised (zero) entry for an absent key. -/
def statAt (categoryStats : CategoryStats) (id period : Int) : Int :=
  match categoryStats.lookup id with
  | none => 0
  | some periods =>
    match periods.lookup period with
    | none => 0
    | some v => v

/-! ## Collaborators of the report -/

/-- Modelled from the spec: the comparator `SorterByCATEGNAME` (declared with the
data model, not part of the sources at hand): the default, case-respecting, order of
the display names, `x.CATEGNAME < y.CATEGNAME`.  The order of `String` is by
definition the lexicographic order of the character lists, which is the form that
evaluates. -/
def SorterByCATEGNAME (x y : Category) : Bool :=
  decide (x.CATEGNAME.data < y.CATEGNAME.data)

/-- The library routine `std::stable_sort(first, last, comp)`: the sorted arrangement in
which elements that `comp` does not separate keep their relative order. -/
def stable_sort {α : Type} (comp : α → α → Bool) (l : List α) : List α :=
  l.insertionSort (fun a b => comp b a = false)

/-- Modelled from the spec: `Model_Category::instance().find(PARENTID(id))` (the model
class is not part of the sources at hand): the records of the table whose parent
identifier is `id`, in table order. -/
def find_PARENTID (cats : List Category) (id : Int) : List Category :=
  cats.filter (fun c => c.PARENTID == id)

/-- Modelled from the spec: `Model_Category::sub_category(category)` (the model class
is not part of the sources at hand): a category's children are exactly those
categories whose parent identifier equals its identifier. -/
def sub_category (cats : List Category) (category : Category) : List Category :=
  find_PARENTID cats category.CATEGID

/-! ## The report -/

/-- Lines 45-47 of `AppendData`, and again lines 79-81 of `RefreshData`:
```
amt = categoryStats[category.CATEGID][0];
if (type_ == COME && amt < 0.0) amt = 0;
if (type_ == GOES && amt > 0.0) amt = 0;
```
-/
def ownAmount (type_ : TYPE) (categoryStats : CategoryStats) (category : Category) : Int :=
  let amt := statAt categoryStats category.CATEGID 0
  let amt := if type_ = TYPE.COME ∧ amt < 0 then 0 else amt
  let amt := if type_ = TYPE.GOES ∧ amt > 0 then 0 else amt
  amt

/-- The `for` loop of `AppendData` (lines 52-56) over the remaining subcategories,
from the loop state `(subamount, data_)`; `call data_ subcategory` is the recursive
call of line 53. -/
def appendLoop (call : List data_holder → Category → Option (Int × List data_holder))
    (category : Category) (groupID : Int) (level : Nat) :
    List Category → Int × List data_holder → Option (Int × List data_holder)
  | [], st => some st
  | subcategory :: rest, (subamount, data_) =>
    match call data_ subcategory with
    | none => none
    | some (amount, data_) =>
      let data_ :=
        if amount ≠ 0 then
          { catID := category.CATEGID, subCatID := subcategory.CATEGID,
            name := category.CATEGNAME, amount := amount, categs := groupID,
            level := level } :: data_
        else data_
      appendLoop call category groupID level rest (subamount + amount, data_)

/-- The method `mmReportCategoryExpenses::AppendData` (lines 44-59).  The result is the
returned `double` together with the new contents of the member `data_`; `none` when
the recursion budget `fuel` is used up.  The first parameter of the source, the vector
`data` passed by value, is never read: the body reads and writes the member `data_`,
which is the argument `data_` here.  The amount index is passed by value, so the zero
entries `operator[]` adds to it are not seen by the caller. -/
def AppendData : Nat → List Category → TYPE → List data_holder → CategoryStats →
    Category → Int → Nat → Option (Int × List data_holder)
  | 0, _, _, _, _, _, _, _ => none
  | fuel + 1, cats, type_, data_, categoryStats, category, groupID, level =>
    let amt := ownAmount type_ categoryStats category
    let subcategories :=
      (stable_sort SorterByCATEGNAME (sub_category cats category)).reverse
    match appendLoop
        (fun d subcategory =>
          AppendData fuel cats type_ d categoryStats subcategory groupID (level + 1))
        category groupID level subcategories (0, data_) with
    | none => none
    | some (subamount, data_) =>
      let data_ :=
        if amt ≠ 0 ∨ subamount ≠ 0 then
          { catID := category.CATEGID, subCatID := -1, name := category.CATEGNAME,
            amount := amt, categs := groupID, level := level } :: data_
        else data_
      some (amt + subamount, data_)

/-- The inner `for` loop of `RefreshData` (lines 87-92) over the remaining
subcategories of the top-level `category`, from the loop state `(subamount, data_)`. -/
def refreshSubLoop (fuel : Nat) (cats : List Category) (type_ : TYPE)
    (categoryStats : CategoryStats) (category : Category) :
    List Category → Int × List data_holder → Option (Int × List data_holder)
  | [], st => some st
  | sub_category :: rest, (subamount, data_) =>
    match AppendData fuel cats type_ data_ categoryStats sub_category category.CATEGID 1 with
    | none => none
    | some (amount, data_) =>
      let data_ :=
        if amount ≠ 0 then
          { catID := category.CATEGID, subCatID := sub_category.CATEGID,
            name := category.CATEGNAME, amount := amount, categs := category.CATEGID,
            level := 0 } :: data_
        else data_
      refreshSubLoop fuel cats type_ categoryStats category rest (subamount + amount, data_)

/-- The outer `for` loop of `RefreshData` (lines 77-96) over the remaining top-level
categories, from the contents `data_`.  (The counter `groupID` of line 95 is written
and never read.) -/
def refreshLoop (fuel : Nat) (cats : List Category) (type_ : TYPE)
    (categoryStats : CategoryStats) : List Category → List data_holder →
    Option (List data_holder)
  | [], data_ => some data_
  | category :: rest, data_ =>
    let amt := ownAmount type_ categoryStats category
    let subcategories :=
      (stable_sort SorterByCATEGNAME (sub_category cats category)).reverse
    match refreshSubLoop fuel cats type_ categoryStats category subcategories (0, data_) with
    | none => none
    | some (subamount, data_) =>
      let data_ :=
        if amt ≠ 0 ∨ subamount ≠ 0 then
          { catID := category.CATEGID, subCatID := -1, name := category.CATEGNAME,
            amount := amt, categs := category.CATEGID, level := 0 } :: data_
        else data_
      refreshLoop fuel cats type_ categoryStats rest data_

/-- The library routine `std::vector::clear()`: whatever the contents, the vector is
empty afterwards. -/
def clear (_data : List data_holder) : List data_holder := []

/-- The method `mmReportCategoryExpenses::RefreshData` (lines 61-97): the new contents
of the member `data_`, from its old contents `data_`, the category table and the
amount index that `getCategoryStats` delivers; `none` when a call of `AppendData`
uses up the recursion budget. -/
def RefreshData (fuel : Nat) (cats : List Category) (type_ : TYPE)
    (data_ : List data_holder) (categoryStats : CategoryStats) :
    Option (List data_holder) :=
  let data_ := clear data_
  let categories := (stable_sort SorterByCATEGNAME (find_PARENTID cats (-1))).reverse
  refreshLoop fuel cats type_ categoryStats categories data_

/-! ## Notions the statements use -/

/-- The category table is a forest: identifiers are unique, none is the sentinel `-1`,
the parent of every category is `-1` or a category of the table, and the parent
relation is acyclic (some height function puts every category strictly below its
parent). -/
structure Forest (cats : List Category) : Prop where
  ids_nodup : (cats.map (fun c => c.CATEGID)).Nodup
  ids_ne : ∀ c ∈ cats, c.CATEGID ≠ -1
  parent_mem : ∀ c ∈ cats, c.PARENTID = -1 ∨ ∃ p ∈ cats, p.CATEGID = c.PARENTID
  acyclic : ∃ height : Int → Nat, ∀ c ∈ cats, ∀ p ∈ cats,
    c.PARENTID = p.CATEGID → height c.CATEGID < height p.CATEGID

/-- A top-level category of the table: one whose parent is the sentinel `-1`. -/
def TopLevel (cats : List Category) (c : Category) : Prop :=
  c ∈ cats ∧ c.PARENTID = -1

/-- The relation `Path cats a c k`: `c` is `a` itself (`k = 0`) or a descendant of `a`,
`k` generations below it. -/
inductive Path (cats : List Category) : Category → Category → Nat → Prop where
  | self (a : Category) : Path cats a a 0
  | child {a p c : Category} {k : Nat} :
      Path cats a p k → c ∈ cats → c.PARENTID = p.CATEGID → Path cats a c (k + 1)

/-- The depth of a category in the forest: `0` for a top-level category, the depth of
the parent plus one otherwise. -/
inductive Depth (cats : List Category) : Category → Nat → Prop where
  | top {c : Category} : TopLevel cats c → Depth cats c 0
  | child {p c : Category} {k : Nat} :
      Depth cats p k → c ∈ cats → c.PARENTID = p.CATEGID → Depth cats c (k + 1)

/-- The category `c` is `a` or a descendant of `a`. -/
def Descends (cats : List Category) (a c : Category) : Prop :=
  ∃ k, Path cats a c k

/-- The subtree amount of the glossary: a category's own (mode-filtered) amount plus the
subtree amounts of all its subcategories, to the depth `n`. -/
def subtreeAmount (cats : List Category) (type_ : TYPE) (categoryStats : CategoryStats) :
    Nat → Category → Int
  | 0, _ => 0
  | n + 1, c =>
    ownAmount type_ categoryStats c +
      ((sub_category cats c).map (subtreeAmount cats type_ categoryStats n)).sum

/-- The subtree amount of a category of a forest: no branch of a forest is deeper than
the number of its categories. -/
def subtreeTotal (cats : List Category) (type_ : TYPE) (categoryStats : CategoryStats)
    (c : Category) : Int :=
  subtreeAmount cats type_ categoryStats cats.length c

/-- The sum of the subtree amounts of the direct subcategories of `c`. -/
def subcategoriesTotal (cats : List Category) (type_ : TYPE)
    (categoryStats : CategoryStats) (c : Category) : Int :=
  ((sub_category cats c).map (subtreeTotal cats type_ categoryStats)).sum

/-- The categories of the subtree of `c`, to the depth `n`: `c`, then the subtrees of
its subcategories. -/
def subtree (cats : List Category) : Nat → Category → List Category
  | 0, _ => []
  | n + 1, c => c :: (sub_category cats c).flatMap (subtree cats n)

/-- The sum of the mode-filtered own amounts of `c` and of all its descendants. -/
def flatTotal (cats : List Category) (type_ : TYPE) (categoryStats : CategoryStats)
    (c : Category) : Int :=
  ((subtree cats cats.length c).map (ownAmount type_ categoryStats)).sum

/-- The own row of a category: `subCatID = -1`, the category's name and own amount. -/
def ownRow (type_ : TYPE) (categoryStats : CategoryStats) (c : Category) (groupID : Int)
    (level : Nat) : data_holder :=
  { catID := c.CATEGID, subCatID := -1, name := c.CATEGNAME,
    amount := ownAmount type_ categoryStats c, categs := groupID, level := level }

/-- The contribution row of the subcategory `s` on the line of its parent `c`. -/
def contributionRow (c s : Category) (amount : Int) (groupID : Int) (level : Nat) :
    data_holder :=
  { catID := c.CATEGID, subCatID := s.CATEGID, name := c.CATEGNAME, amount := amount,
    categs := groupID, level := level }

/-- The rows on the line of the category `c`: its own row, when its own amount or the
total of its subcategories is not zero, then the contribution rows of its subcategories
with a non-zero subtree amount, in ascending name order. -/
def lineRows (cats : List Category) (type_ : TYPE) (categoryStats : CategoryStats)
    (groupID : Int) (c : Category) (level : Nat) : List data_holder :=
  (if ownAmount type_ categoryStats c ≠ 0 ∨ subcategoriesTotal cats type_ categoryStats c ≠ 0
    then [ownRow type_ categoryStats c groupID level] else []) ++
  (stable_sort SorterByCATEGNAME (sub_category cats c)).flatMap (fun s =>
    if subtreeTotal cats type_ categoryStats s ≠ 0
      then [contributionRow c s (subtreeTotal cats type_ categoryStats s) groupID level]
      else [])

/-- The rows one call of `AppendData` for `c` puts in front of `data_`, in their final
order, as a function of the subtree of `c` to the depth `n`: the own row of `c`, then for
each subcategory in ascending name order its contribution row and its own rows. -/
def rowsOf (cats : List Category) (type_ : TYPE) (categoryStats : CategoryStats)
    (groupID : Int) : Nat → Category → Nat → List data_holder
  | 0, _, _ => []
  | n + 1, c, level =>
    (if ownAmount type_ categoryStats c ≠ 0 ∨
        ((sub_category cats c).map (subtreeAmount cats type_ categoryStats n)).sum ≠ 0
      then [ownRow type_ categoryStats c groupID level] else []) ++
    (stable_sort SorterByCATEGNAME (sub_category cats c)).flatMap (fun s =>
      (if subtreeAmount cats type_ categoryStats n s ≠ 0
        then [contributionRow c s (subtreeAmount cats type_ categoryStats n s) groupID level]
        else []) ++
      rowsOf cats type_ categoryStats groupID n s (level + 1))

/-- The sequence `RefreshData` leaves in `data_` for a forest: the rows of the top-level
categories in ascending name order. -/
def report (cats : List Category) (type_ : TYPE) (categoryStats : CategoryStats) :
    List data_holder :=
  (stable_sort SorterByCATEGNAME (find_PARENTID cats (-1))).flatMap (fun c =>
    rowsOf cats type_ categoryStats c.CATEGID (cats.length + 1) c 0)

/-- The amount of the own row of the category `id` in the sequence `out`, `0` when
there is no such row. -/
def ownRowAmount (id : Int) (out : List data_holder) : Int :=
  match out.find? (fun r => r.catID == id && r.subCatID == -1) with
  | some r => r.amount
  | none => 0

/-- The sum of the amounts of the contribution rows attributed to the category `id` in
the sequence `out`. -/
def contributionsSum (id : Int) (out : List data_holder) : Int :=
  ((out.filter (fun r => r.catID == id && r.subCatID != -1)).map (fun r => r.amount)).sum

/-- The row `a` occurs in `l` somewhere before an occurrence of the row `b`. -/
def appearsBefore (a b : data_holder) (l : List data_holder) : Prop :=
  List.Sublist [a, b] l

instance (a b : data_holder) (l : List data_holder) : Decidable (appearsBefore a b l) :=
  inferInstanceAs (Decidable (List.Sublist [a, b] l))

/-- The top-level category of the worked example. -/
def food : Category := ⟨1, "Food", -1⟩

/-- The first subcategory of `Food` in the worked example. -/
def groceries : Category := ⟨2, "Groceries", 1⟩

/-- The second subcategory of `Food` in the worked example. -/
def dining : Category := ⟨3, "Dining", 1⟩

/-- The table of the worked example: `Food` with the subcategories `Groceries` and
`Dining`. -/
def foodTable : List Category :=
  [food, groceries, dining]

/-- The amounts of the worked example: `Food = -10`, `Groceries = -50`, `Dining = -20`. -/
def foodStats : CategoryStats :=
  [(1, [(0, -10)]), (2, [(0, -50)]), (3, [(0, -20)])]

/-! ## The same traversal with every row added at the back -/

/-- The loop of `AppendData` when a row is added at the back of the sequence instead of
being inserted at its front (`data_.push_back(row)` for `data_.insert(data_.begin(), row)`). -/
def appendLoopBack (call : List data_holder → Category → Option (Int × List data_holder))
    (category : Category) (groupID : Int) (level : Nat) :
    List Category → Int × List data_holder → Option (Int × List data_holder)
  | [], st => some st
  | subcategory :: rest, (subamount, data_) =>
    match call data_ subcategory with
    | none => none
    | some (amount, data_) =>
      let data_ :=
        if amount ≠ 0 then
          data_.concat
            { catID := category.CATEGID,
              subCatID := subcategory.CATEGID,
              name := category.CATEGNAME,
              amount := amount,
              categs := groupID,
              level := level }
        else data_
      appendLoopBack call category groupID level rest (subamount + amount, data_)

/-- The traversal of `AppendData` when every row is added at the back of the
sequence. -/
def AppendDataBack : Nat → List Category → TYPE → List data_holder → CategoryStats →
    Category → Int → Nat → Option (Int × List data_holder)
  | 0, _, _, _, _, _, _, _ => none
  | fuel + 1, cats, type_, data_, categoryStats, category, groupID, level =>
    let amt := ownAmount type_ categoryStats category
    let subcategories :=
      (stable_sort SorterByCATEGNAME (sub_category cats category)).reverse
    match appendLoopBack
        (fun d subcategory =>
          AppendDataBack fuel cats type_ d categoryStats subcategory groupID (level + 1))
        category groupID level subcategories (0, data_) with
    | none => none
    | some (subamount, data_) =>
      let data_ :=
        if amt ≠ 0 ∨ subamount ≠ 0 then
          data_.concat
            { catID := category.CATEGID,
              subCatID := -1,
              name := category.CATEGNAME,
              amount := amt,
              categs := groupID,
              level := level }
        else data_
      some (amt + subamount, data_)

/-- The inner loop of `RefreshData` when every row is added at the back of the
sequence. -/
def refreshSubLoopBack (fuel : Nat) (cats : List Category) (type_ : TYPE)
    (categoryStats : CategoryStats) (category : Category) :
    List Category → Int × List data_holder → Option (Int × List data_holder)
  | [], st => some st
  | sub_category :: rest, (subamount, data_) =>
    match AppendDataBack fuel cats type_ data_ categoryStats sub_category
        category.CATEGID 1 with
    | none => none
    | some (amount, data_) =>
      let data_ :=
        if amount ≠ 0 then
          data_.concat
            { catID := category.CATEGID,
              subCatID := sub_category.CATEGID,
              name := category.CATEGNAME,
              amount := amount,
              categs := category.CATEGID,
              level := 0 }
        else data_
      refreshSubLoopBack fuel cats type_ categoryStats category rest
        (subamount + amount, data_)

/-- The outer loop of `RefreshData` when every row is added at the back of the
sequence. -/
def refreshLoopBack (fuel : Nat) (cats : List Category) (type_ : TYPE)
    (categoryStats : CategoryStats) : List Category → List data_holder →
    Option (List data_holder)
  | [], data_ => some data_
  | category :: rest, data_ =>
    let amt := ownAmount type_ categoryStats category
    let subcategories :=
      (stable_sort SorterByCATEGNAME (sub_category cats category)).reverse
    match refreshSubLoopBack fuel cats type_ categoryStats category subcategories
        (0, data_) with
    | none => none
    | some (subamount, data_) =>
      let data_ :=
        if amt ≠ 0 ∨ subamount ≠ 0 then
          data_.concat
            { catID := category.CATEGID,
              subCatID := -1,
              name := category.CATEGNAME,
              amount := amt,
              categs := category.CATEGID,
              level := 0 }
        else data_
      refreshLoopBack fuel cats type_ categoryStats rest data_

/-- The traversal of `RefreshData` when every row is added at the back of the sequence:
the rows in the order in which they are produced. -/
def RefreshDataBack (fuel : Nat) (cats : List Category) (type_ : TYPE)
    (data_ : List data_holder) (categoryStats : CategoryStats) :
    Option (List data_holder) :=
  let data_ := clear data_
  let categories := (stable_sort SorterByCATEGNAME (find_PARENTID cats (-1))).reverse
  refreshLoopBack fuel cats type_ categoryStats categories data_

/-- The reversal of the sequence in a result of `AppendData`. -/
def reverseRows (r : Int × List data_holder) : Int × List data_holder :=
  (r.1, r.2.reverse)

/-- A table whose only category is its own parent: the parent relation has a cycle. -/
def loopTable : List Category := [⟨1, "Loop", 1⟩]

/-! ## The tag dialog (`src/tagdialog.cpp`) -/

/-- The constant `wxNOT_FOUND` of the widget library. -/
def wxNOT_FOUND : Int := -1

/-- The library routine `wxString::Find(ch)`: the position of the first occurrence of the
character, `wxNOT_FOUND` when there is none. -/
def Find (s : String) (ch : Char) : Int :=
  if s.data.indexOf ch < s.data.length then (s.data.indexOf ch : Int) else wxNOT_FOUND

/-- The method `mmTagDialog::validateName` (lines 180-200): the returned `bool`.  The
message box shown before `return false` is not part of the result. -/
def validateName (name : String) : Bool :=
  if Find name ' ' ≠ wxNOT_FOUND then
    false
  else if name = "&" ∨ name = "|" then
    false
  else
    true

/-- Modelled from the spec: a record of `Model_Tag::Data` (the class is an external
collaborator, not part of the sources at hand), with the fields `tagdialog.cpp` uses. -/
structure Tag where
  TAGID : Int
  TAGNAME : String
  ACTIVE : Int
deriving DecidableEq, Repr

/-- The state `mmTagDialog::OnDelete` reads and writes: the table of `Model_Tag`, the
members `tagList_`, `selectedTags_` and `refreshRequested_`, and the rest of the database
(tag links, transactions, splits) as `env`. -/
structure TagDialog (Env : Type) where
  env : Env
  tags : List Tag
  tagList_ : List String
  selectedTags_ : List String
  refreshRequested_ : Bool

/-- The collaborators of `OnDelete` that are not part of the sources at hand, taken as
parameters: `is_used env id` is the result of `Model_Tag::instance().is_used(id)` in the
database state `env`, `purge env id` is the database state after lines 319-325 removed
the transactions linked to the tag `id`, and `confirm tag` tells whether the user answers
the confirmation dialog for `tag` with "yes". -/
structure TagCollaborators (Env : Type) where
  is_used : Env → Int → Int
  purge : Env → Int → Env
  confirm : Tag → Bool

/-- Modelled from the spec: `Model_Tag::instance().get(name)` (the class is an external
collaborator, not part of the sources at hand): the record with that name, a null pointer
(`none`) when there is none. -/
def Model_Tag_get (tags : List Tag) (name : String) : Option Tag :=
  tags.find? (fun t => t.TAGNAME == name)

/-- Modelled from the spec: `Model_Tag::instance().remove(id)` (the class is an external
collaborator, not part of the sources at hand): the table without the record `id`. -/
def Model_Tag_remove (tags : List Tag) (id : Int) : List Tag :=
  tags.filter (fun t => t.TAGID != id)

/-- The library routine `wxArrayString::Remove(s)`, and `Index(s)` followed by
`RemoveAt(index)` when the index is found: the array without the first occurrence of `s`. -/
def wxArrayString_Remove (a : List String) (s : String) : List String :=
  a.erase s

/-- The body of the `for` loop of `OnDelete` (lines 305-331) for one selected name;
`none` when `get` returns a null pointer, which line 306 dereferences. -/
def deleteSelection {Env : Type} (m : TagCollaborators Env) (st : TagDialog Env)
    (selection : String) : Option (TagDialog Env) :=
  match Model_Tag_get st.tags selection with
  | none => none
  | some tag =>
    let tag_used := m.is_used st.env tag.TAGID
    if tag_used = 1 then
      some st
    else if tag_used = 0 ∨ (tag_used = -1 ∧ m.confirm tag = true) then
      some { st with
        env := m.purge st.env tag.TAGID
        tags := Model_Tag_remove st.tags tag.TAGID
        tagList_ := wxArrayString_Remove st.tagList_ selection
        selectedTags_ := wxArrayString_Remove st.selectedTags_ selection }
    else
      some st

/-- The `for` loop of `OnDelete` (lines 303-332) over the remaining selected names. -/
def deleteLoop {Env : Type} (m : TagCollaborators Env) :
    List String → TagDialog Env → Option (TagDialog Env)
  | [], st => some st
  | selection :: rest, st =>
    match deleteSelection m st selection with
    | none => none
    | some st => deleteLoop m rest st

/-- The method `mmTagDialog::OnDelete` (lines 279-339) for the names `stringSelections`
that are selected in the list box.  The savepoints and the refresh of the list box
(`fillControls`) leave the state as it is. -/
def OnDelete {Env : Type} (m : TagCollaborators Env) (st : TagDialog Env)
    (stringSelections : List String) : Option (TagDialog Env) :=
  if stringSelections.isEmpty then
    some st
  else
    match deleteLoop m stringSelections st with
    | none => none
    | some st => some { st with refreshRequested_ := true }

/-- Two tags for the examples: one in use, one not. -/
def tagTable : List Tag := [⟨1, "home", 1⟩, ⟨2, "work", 1⟩]

/-- Collaborators for the examples: the tag `1` is in use, no tag else is; the database
state is not modelled. -/
def tagCollaborators : TagCollaborators Unit :=
  { is_used := fun _ id => if id = 1 then 1 else 0
    purge := fun e _ => e
    confirm := fun _ => false }

/-- A state of the tag dialog for the examples: both tags listed and selected. -/
def tagDialogBefore : TagDialog Unit :=
  { env := (), tags := tagTable, tagList_ := ["home", "work"],
    selectedTags_ := ["home", "work"], refreshRequested_ := false }

/-- The state after `OnDelete` for both names: the tag in use is still there. -/
def tagDialogAfter : TagDialog Unit :=
  { env := (), tags := [⟨1, "home", 1⟩], tagList_ := ["home"],
    selectedTags_ := ["home"], refreshRequested_ := true }

/-- The table of the cancellation example: `Misc` with the subcategories `Refund` and
`Fee`. -/
def miscTable : List Category :=
  [⟨1, "Misc", -1⟩, ⟨2, "Refund", 1⟩, ⟨3, "Fee", 1⟩]

/-! ## The top level as calls of the recursive step -/

/-- The outer loop of `RefreshData` when its body is replaced by one call of the
recursive step, `AppendData(category, groupID = category.CATEGID, level = 0)`, whose
returned amount is not used. -/
def recursiveLoop (fuel : Nat) (cats : List Category) (type_ : TYPE)
    (categoryStats : CategoryStats) : List Category → List data_holder →
    Option (List data_holder)
  | [], data_ => some data_
  | category :: rest, data_ =>
    match AppendData fuel cats type_ data_ categoryStats category category.CATEGID 0 with
    | none => none
    | some (_, data_) => recursiveLoop fuel cats type_ categoryStats rest data_

/-- The roll-up as "clear the buffer, then call the recursive step on every top-level
category in iteration order". -/
def RefreshDataRecursive (fuel : Nat) (cats : List Category) (type_ : TYPE)
    (data_ : List data_holder) (categoryStats : CategoryStats) :
    Option (List data_holder) :=
  let data_ := clear data_
  let categories := (stable_sort SorterByCATEGNAME (find_PARENTID cats (-1))).reverse
  recursiveLoop fuel cats type_ categoryStats categories data_

/-! ## Rows next to each other -/

/-- The row `b` comes directly after the row `a` in `l`. -/
def directlyFollowedBy (a b : data_holder) (l : List data_holder) : Prop :=
  List.IsInfix [a, b] l

/-- A table with three top-level categories, not in the order of their names: `Food`
(with the subcategory `Groceries`), `Auto` and `Bills`. -/
def householdTable : List Category :=
  [⟨1, "Food", -1⟩, ⟨2, "Groceries", 1⟩, ⟨3, "Auto", -1⟩, ⟨4, "Bills", -1⟩]

/-- The amounts for `householdTable`: `Food = -10`, `Groceries = -50`, `Auto = -30`,
`Bills = -70`. -/
def householdStats : CategoryStats :=
  [(1, [(0, -10)]), (2, [(0, -50)]), (3, [(0, -30)]), (4, [(0, -70)])]

/-- The amounts of the worked example without an entry for `Dining`:
`Food = -10`, `Groceries = -50`. -/
def foodStatsWithoutDining : CategoryStats :=
  [(1, [(0, -10)]), (2, [(0, -50)])]

/-! ## The amounts as IEEE 754 double-precision numbers -/

namespace Binary64

/-- A value of the C++ type `double` (IEEE 754 binary64).  Every finite `double` is an
integer multiple of `2^-1074`: `finite k` is the number `k * 2^-1074`.  The two zeros
`+0.0` and `-0.0` are the one value `finite 0`: they compare equal, and `!=`, `<`, `>`
and the value of a sum do not tell them apart. -/
inductive double where
  | finite (units : Int)
  | inf (negative : Bool)
  | nan
deriving DecidableEq, Repr

/-- The literal `0` (`0.0`). -/
instance : Zero double := ⟨double.finite 0⟩

/-- The number of low bits a magnitude `m` loses when it is cut to 53 significant bits:
the least `s` with `m / 2^s < 2^53`, found in at most `fuel` halvings. -/
def shiftOf : Nat → Nat → Nat
  | 0, _ => 0
  | fuel + 1, m => if m < 2 ^ 53 then 0 else shiftOf fuel (m / 2) + 1

/-- Rounding of a magnitude `m` (in units of `2^-1074`) to 53 significant bits, to the
nearest, a tie to the even significand (the default rounding mode).  The 2100 halvings
cover every magnitude below `2^2153`, so every sum of two finite `double`s. -/
def roundMagnitude (m : Nat) : Nat :=
  let s := shiftOf 2100 m
  let q := m / 2 ^ s
  let r := m % 2 ^ s
  if 2 * r < 2 ^ s ∨ (2 * r = 2 ^ s ∧ q % 2 = 0) then q * 2 ^ s else (q + 1) * 2 ^ s

/-- The `double` nearest to the number `n * 2^-1074`; a rounded magnitude of `2^1024`
(`2^2098` units) or more overflows to an infinity. -/
def roundToNearestEven (n : Int) : double :=
  let m := roundMagnitude n.natAbs
  if 2 ^ 2098 ≤ m then double.inf (decide (n < 0))
  else double.finite (if n < 0 then -(m : Int) else (m : Int))

/-- The operator `+` of `double`: the exact sum, rounded; an infinity absorbs a finite
number, the two infinities add up to a NaN, and a NaN operand gives a NaN. -/
def add : double → double → double
  | double.nan, _ => double.nan
  | _, double.nan => double.nan
  | double.inf a, double.inf b => if a = b then double.inf a else double.nan
  | double.inf a, double.finite _ => double.inf a
  | double.finite _, double.inf b => double.inf b
  | double.finite a, double.finite b => roundToNearestEven (a + b)

instance : Add double := ⟨add⟩

/-- The operator `<` of `double`: false when an operand is a NaN. -/
def lt : double → double → Bool
  | double.nan, _ => false
  | _, double.nan => false
  | double.finite a, double.finite b => decide (a < b)
  | double.finite _, double.inf b => !b
  | double.inf a, double.finite _ => a
  | double.inf a, double.inf b => a && !b

instance : LT double := ⟨fun a b => lt a b = true⟩

instance (a b : double) : Decidable (a < b) :=
  inferInstanceAs (Decidable (lt a b = true))

/-- The `double` whose value is the integer `n` (exact for `|n| ≤ 2^53`). -/
def ofInt (n : Int) : double := double.finite (n * ((2 ^ 1074 : Nat) : Int))

/-- The row type `mmReportCategoryExpenses::data_holder`, with the amount a `double`:
`{ catID, subCatID, name, amount, categs, level }`. -/
structure data_holder where
  catID : Int
  subCatID : Int
  name : String
  amount : double
  categs : Int
  level : Nat
deriving DecidableEq, Repr

/-- The amount index `std::map<int, std::map<int, double>>`, as association lists. -/
abbrev CategoryStats := List (Int × List (Int × double))

/-- The expression `categoryStats[id][period]`: `operator[]` of `std::map` returns a
value-initialised (zero) entry for an absent key. -/
def statAt (categoryStats : CategoryStats) (id period : Int) : double :=
  match categoryStats.lookup id with
  | none => 0
  | some periods =>
    match periods.lookup period with
    | none => 0
    | some v => v

/-- Lines 45-47 of `AppendData`, and again lines 79-81 of `RefreshData`:
```
amt = categoryStats[category.CATEGID][0];
if (type_ == COME && amt < 0.0) amt = 0;
if (type_ == GOES && amt > 0.0) amt = 0;
```
-/
def ownAmount (type_ : TYPE) (categoryStats : CategoryStats) (category : Category) :
    double :=
  let amt := statAt categoryStats category.CATEGID 0
  let amt := if type_ = TYPE.COME ∧ amt < 0 then 0 else amt
  let amt := if type_ = TYPE.GOES ∧ amt > 0 then 0 else amt
  amt

/-- The `for` loop of `AppendData` (lines 52-56) over the remaining subcategories,
from the loop state `(subamount, data_)`; `call data_ subcategory` is the recursive
call of line 53. -/
def appendLoop (call : List data_holder → Category → Option (double × List data_holder))
    (category : Category) (groupID : Int) (level : Nat) :
    List Category → double × List data_holder → Option (double × List data_holder)
  | [], st => some st
  | subcategory :: rest, (subamount, data_) =>
    match call data_ subcategory with
    | none => none
    | some (amount, data_) =>
      let data_ :=
        if amount ≠ 0 then
          { catID := category.CATEGID, subCatID := subcategory.CATEGID,
            name := category.CATEGNAME, amount := amount, categs := groupID,
            level := level } :: data_
        else data_
      appendLoop call category groupID level rest (subamount + amount, data_)

/-- The method `mmReportCategoryExpenses::AppendData` (lines 44-59), with `double`
amounts.  The result is the returned `double` together with the new contents of the
member `data_`; `none` when the recursion budget `fuel` is used up. -/
def AppendData : Nat → List Category → TYPE → List data_holder → CategoryStats →
    Category → Int → Nat → Option (double × List data_holder)
  | 0, _, _, _, _, _, _, _ => none
  | fuel + 1, cats, type_, data_, categoryStats, category, groupID, level =>
    let amt := ownAmount type_ categoryStats category
    let subcategories :=
      (stable_sort SorterByCATEGNAME (sub_category cats category)).reverse
    match appendLoop
        (fun d subcategory =>
          AppendData fuel cats type_ d categoryStats subcategory groupID (level + 1))
        category groupID level subcategories (0, data_) with
    | none => none
    | some (subamount, data_) =>
      let data_ :=
        if amt ≠ 0 ∨ subamount ≠ 0 then
          { catID := category.CATEGID, subCatID := -1, name := category.CATEGNAME,
            amount := amt, categs := groupID, level := level } :: data_
        else data_
      some (amt + subamount, data_)

/-- The inner `for` loop of `RefreshData` (lines 87-92) over the remaining
subcategories of the top-level `category`, from the loop state `(subamount, data_)`. -/
def refreshSubLoop (fuel : Nat) (cats : List Category) (type_ : TYPE)
    (categoryStats : CategoryStats) (category : Category) :
    List Category → double × List data_holder → Option (double × List data_holder)
  | [], st => some st
  | sub_category :: rest, (subamount, data_) =>
    match AppendData fuel cats type_ data_ categoryStats sub_category category.CATEGID 1 with
    | none => none
    | some (amount, data_) =>
      let data_ :=
        if amount ≠ 0 then
          { catID := category.CATEGID, subCatID := sub_category.CATEGID,
            name := category.CATEGNAME, amount := amount, categs := category.CATEGID,
            level := 0 } :: data_
        else data_
      refreshSubLoop fuel cats type_ categoryStats category rest (subamount + amount, data_)

/-- The outer `for` loop of `RefreshData` (lines 77-96) over the remaining top-level
categories, from the contents `data_`. -/
def refreshLoop (fuel : Nat) (cats : List Category) (type_ : TYPE)
    (categoryStats : CategoryStats) : List Category → List data_holder →
    Option (List data_holder)
  | [], data_ => some data_
  | category :: rest, data_ =>
    let amt := ownAmount type_ categoryStats category
    let subcategories :=
      (stable_sort SorterByCATEGNAME (sub_category cats category)).reverse
    match refreshSubLoop fuel cats type_ categoryStats category subcategories (0, data_) with
    | none => none
    | some (subamount, data_) =>
      let data_ :=
        if amt ≠ 0 ∨ subamount ≠ 0 then
          { catID := category.CATEGID, subCatID := -1, name := category.CATEGNAME,
            amount := amt, categs := category.CATEGID, level := 0 } :: data_
        else data_
      refreshLoop fuel cats type_ categoryStats rest data_

/-- The library routine `std::vector::clear()`. -/
def clear (_data : List data_holder) : List data_holder := []

/-- The method `mmReportCategoryExpenses::RefreshData` (lines 61-97), with `double`
amounts: the new contents of the member `data_`; `none` when a call of `AppendData`
uses up the recursion budget. -/
def RefreshData (fuel : Nat) (cats : List Category) (type_ : TYPE)
    (data_ : List data_holder) (categoryStats : CategoryStats) :
    Option (List data_holder) :=
  let data_ := clear data_
  let categories := (stable_sort SorterByCATEGNAME (find_PARENTID cats (-1))).reverse
  refreshLoop fuel cats type_ categoryStats categories data_

/-! ### The totals of `getHTMLText` -/

/-- The map `std::map<int, std::map<int, double>> group_total` of `getHTMLText`; an
absent key reads as the value-initialised `0`. -/
abbrev GroupTotal := Int → Int → double

/-- The statement `group_total[g][k] += v`. -/
def addTo (group_total : GroupTotal) (g k : Int) (v : double) : GroupTotal :=
  fun g' k' => if g' = g ∧ k' = k then group_total g' k' + v else group_total g' k'

/-- The statements of the loop body of `getHTMLText` that write `group_total`
(lines 124-127):
```
group_total[entry.categs][entry.catID] += entry.amount;
if (entry.subCatID == -1) {
    group_total[-1][0] += entry.amount < 0 ? entry.amount : 0;
    group_total[-2][0] += entry.amount > 0 ? entry.amount : 0;
```
-/
def accumulateEntry (group_total : GroupTotal) (entry : data_holder) : GroupTotal :=
  let group_total := addTo group_total entry.categs entry.catID entry.amount
  if entry.subCatID = -1 then
    let group_total := addTo group_total (-1) 0 (if entry.amount < 0 then entry.amount else 0)
    let group_total := addTo group_total (-2) 0 (if entry.amount > 0 then entry.amount else 0)
    group_total
  else group_total

/-- The loop of `getHTMLText` over `sortedData` (lines 121-143), as far as it writes
`group_total`. -/
def group_total (sortedData : List data_holder) : GroupTotal :=
  sortedData.foldl accumulateEntry (fun _ _ => 0)

/-- The start of `getHTMLText` (lines 109-143): `RefreshData()`, the copy of `data_` to
`sortedData`, and the loop that fills `group_total`; `none` when `RefreshData` does not
return. -/
def getHTMLText_group_total (fuel : Nat) (cats : List Category) (type_ : TYPE)
    (data_ : List data_holder) (categoryStats : CategoryStats) : Option GroupTotal :=
  match RefreshData fuel cats type_ data_ categoryStats with
  | none => none
  | some data_ =>
    let sortedData := data_
    some (group_total sortedData)

/-- The footer value "Total Expenses" (line 267). -/
def totalExpenses (group_total : GroupTotal) : double := group_total (-1) 0

/-- The footer value "Total Income" (line 268). -/
def totalIncome (group_total : GroupTotal) : double := group_total (-2) 0

/-- The footer value "Grand Total" (line 270). -/
def grandTotal (group_total : GroupTotal) : double := group_total (-1) 0 + group_total (-2) 0

/-! ### The sequence `RefreshData` produces, as a function of the table -/

/-- The local `subcategories` of `AppendData` and `RefreshData` after the sort and the
reversal (lines 48-50 and 83-85): the subcategories in the order in which the loop
visits them. -/
def subcategories (cats : List Category) (category : Category) : List Category :=
  (stable_sort SorterByCATEGNAME (sub_category cats category)).reverse

/-- The value of the local `subamount` after a loop over `l` that adds `A s` for every
`s`: the `double` sum `((0 + A s₁) + A s₂) + ...`, in the order of `l`. -/
def sumInOrder (l : List Category) (A : Category → double) : double :=
  l.foldl (fun subamount s => subamount + A s) 0

/-- The subtree amount of a category as the code computes it, to the depth `n`: the
`double` that `AppendData` returns, `amt + subamount`, where `subamount` is the sum of
the subtree amounts of the subcategories in the order of the loop. -/
def subtreeAmount (cats : List Category) (type_ : TYPE) (categoryStats : CategoryStats) :
    Nat → Category → double
  | 0, _ => 0
  | n + 1, c =>
    ownAmount type_ categoryStats c +
      sumInOrder (subcategories cats c) (subtreeAmount cats type_ categoryStats n)

/-- The subtree amount of a category of a forest, as the code computes it. -/
def subtreeTotal (cats : List Category) (type_ : TYPE) (categoryStats : CategoryStats)
    (c : Category) : double :=
  subtreeAmount cats type_ categoryStats cats.length c

/-- The sum of the subtree amounts of the direct subcategories of `c`, as the code
computes it: the local `subamount` after the loop. -/
def subcategoriesTotal (cats : List Category) (type_ : TYPE)
    (categoryStats : CategoryStats) (c : Category) : double :=
  sumInOrder (subcategories cats c) (subtreeTotal cats type_ categoryStats)

/-- The own row of a category: `subCatID = -1`, the category's name and own amount. -/
def ownRow (type_ : TYPE) (categoryStats : CategoryStats) (c : Category) (groupID : Int)
    (level : Nat) : data_holder :=
  { catID := c.CATEGID, subCatID := -1, name := c.CATEGNAME,
    amount := ownAmount type_ categoryStats c, categs := groupID, level := level }

/-- The contribution row of the subcategory `s` on the line of its parent `c`. -/
def contributionRow (c s : Category) (amount : double) (groupID : Int) (level : Nat) :
    data_holder :=
  { catID := c.CATEGID, subCatID := s.CATEGID, name := c.CATEGNAME, amount := amount,
    categs := groupID, level := level }

/-- The rows on the line of the category `c`: its own row, when its own amount or the
total of its subcategories is not zero, then the contribution rows of its subcategories
with a non-zero subtree amount, in ascending name order. -/
def lineRows (cats : List Category) (type_ : TYPE) (categoryStats : CategoryStats)
    (groupID : Int) (c : Category) (level : Nat) : List data_holder :=
  (if ownAmount type_ categoryStats c ≠ 0 ∨ subcategoriesTotal cats type_ categoryStats c ≠ 0
    then [ownRow type_ categoryStats c groupID level] else []) ++
  (stable_sort SorterByCATEGNAME (sub_category cats c)).flatMap (fun s =>
    if subtreeTotal cats type_ categoryStats s ≠ 0
      then [contributionRow c s (subtreeTotal cats type_ categoryStats s) groupID level]
      else [])

/-- The rows one call of `AppendData` for `c` puts in front of `data_`, in their final
order, as a function of the subtree of `c` to the depth `n`: the own row of `c`, then for
each subcategory in ascending name order its contribution row and its own rows. -/
def rowsOf (cats : List Category) (type_ : TYPE) (categoryStats : CategoryStats)
    (groupID : Int) : Nat → Category → Nat → List data_holder
  | 0, _, _ => []
  | n + 1, c, level =>
    (if ownAmount type_ categoryStats c ≠ 0 ∨
        sumInOrder (subcategories cats c) (subtreeAmount cats type_ categoryStats n) ≠ 0
      then [ownRow type_ categoryStats c groupID level] else []) ++
    (stable_sort SorterByCATEGNAME (sub_category cats c)).flatMap (fun s =>
      (if subtreeAmount cats type_ categoryStats n s ≠ 0
        then [contributionRow c s (subtreeAmount cats type_ categoryStats n s) groupID level]
        else []) ++
      rowsOf cats type_ categoryStats groupID n s (level + 1))

/-- The sequence `RefreshData` leaves in `data_` for a forest: the rows of the top-level
categories in ascending name order. -/
def report (cats : List Category) (type_ : TYPE) (categoryStats : CategoryStats) :
    List data_holder :=
  (stable_sort SorterByCATEGNAME (find_PARENTID cats (-1))).flatMap (fun c =>
    rowsOf cats type_ categoryStats c.CATEGID (cats.length + 1) c 0)

/-- The values that pass a single-sign filter: with `negative = true` the values that
are not `> 0` (a finite number `≤ 0`, the negative infinity, a NaN), with
`negative = false` the values that are not `< 0`. -/
def SingleSign (negative : Bool) : double → Prop
  | double.finite k => if negative then k ≤ 0 else 0 ≤ k
  | double.inf b => b = negative
  | double.nan => True

/-! ### Sums and exact amounts -/

/-- The expression `entry.amount < 0 ? entry.amount : 0` (line 126). -/
def expensePart (amount : double) : double := if amount < 0 then amount else 0

/-- The expression `entry.amount > 0 ? entry.amount : 0` (line 127). -/
def incomePart (amount : double) : double := if amount > 0 then amount else 0

/-- The `double` sum of a sequence, accumulated from `0` in the order of the sequence:
`((0 + x₁) + x₂) + ...`, what a loop of `total += x` computes. -/
def sumOf (l : List double) : double := l.foldl (fun total x => total + x) 0

/-- The integer `k` of a finite `double` `k * 2^-1074` (and `0` for an infinity and for a
NaN). -/
def units : double → Int
  | double.finite k => k
  | double.inf _ => 0
  | double.nan => 0

/-- Amounts for which the report computes exactly: every mode-filtered own amount is a
finite multiple of `2^e` units, and the absolute values of these amounts add up to less
than `2^53` such multiples.  With `e = 1074` these are whole amounts with a total below
`2^53`.  No sum of such amounts needs more than 53 significant bits, so no addition
rounds. -/
def ExactAmounts (cats : List Category) (type_ : TYPE) (categoryStats : CategoryStats)
    (e : Nat) : Prop :=
  53 + e ≤ 2098 ∧
  (∀ c ∈ cats, ownAmount type_ categoryStats c =
      double.finite (units (ownAmount type_ categoryStats c)) ∧
    ((2 ^ e : Nat) : Int) ∣ units (ownAmount type_ categoryStats c)) ∧
  (cats.map (fun c => (units (ownAmount type_ categoryStats c)).natAbs)).sum < 2 ^ (53 + e)

instance (cats : List Category) (type_ : TYPE) (categoryStats : CategoryStats) (e : Nat) :
    Decidable (ExactAmounts cats type_ categoryStats e) :=
  inferInstanceAs (Decidable (_ ∧ _ ∧ _))

/-! ### Examples with `double` amounts -/

/-- The table of the rounding example: `Top` with the subcategory `R`, which has the
subcategories `A` and `B`. -/
def roundingTable : List Category :=
  [⟨1, "Top", -1⟩, ⟨2, "R", 1⟩, ⟨3, "A", 2⟩, ⟨4, "B", 2⟩]

/-- The amounts of the rounding example: `Top = 0`, `R = -10000000000000000`,
`A = 10000000000000000`, `B = 1`.  The exact sum below `R` is `1`; in `double`
arithmetic `1 + 10000000000000000` is `10000000000000000`. -/
def roundingStats : CategoryStats :=
  [(2, [(0, ofInt (-10000000000000000))]), (3, [(0, ofInt 10000000000000000)]),
    (4, [(0, ofInt 1)])]

/-- The amounts of the cancellation example as `double`s: `Misc = 0`, `Refund = 5`,
`Fee = -5`. -/
def miscAmounts : CategoryStats :=
  [(2, [(0, ofInt 5)]), (3, [(0, ofInt (-5))])]

/-- The table of the filter example: `Food` with the subcategories `Groceries` and
`Dining`, and `Cafe` below `Dining`. -/
def cafeTable : List Category :=
  [⟨1, "Food", -1⟩, ⟨2, "Groceries", 1⟩, ⟨3, "Dining", 1⟩, ⟨4, "Cafe", 3⟩]

/-- The amounts of the filter example: `Food = -10`, `Groceries = -50`, `Dining = 20`,
`Cafe = 5`; the mode `GOES` filters the last two to zero, the mode `SUMMARY` passes all
four. -/
def cafeStats : CategoryStats :=
  [(1, [(0, ofInt (-10))]), (2, [(0, ofInt (-50))]), (3, [(0, ofInt 20)]),
    (4, [(0, ofInt 5)])]

/-- The table of the display example: `Home` with the subcategories `Bills` and
`Rent`. -/
def homeTable : List Category :=
  [⟨1, "Home", -1⟩, ⟨2, "Bills", 1⟩, ⟨3, "Rent", 1⟩]

/-- The amounts of the display example: `Home = 9007199254740992` (`2^53`), `Bills = 1`,
`Rent = -9007199254740992`; in `double` arithmetic `9007199254740992 + 1` is
`9007199254740992`. -/
def homeStats : CategoryStats :=
  [(1, [(0, ofInt 9007199254740992)]), (2, [(0, ofInt 1)]),
    (3, [(0, ofInt (-9007199254740992))])]

/-- The table of the footer example: the top-level categories `Allowance`, `Bonus` and
`Gift`. -/
def incomeTable : List Category :=
  [⟨1, "Allowance", -1⟩, ⟨2, "Bonus", -1⟩, ⟨3, "Gift", -1⟩]

/-- The amounts of the footer example: `Allowance = 9007199254740992` (`2^53`),
`Bonus = 1`, `Gift = 1`.  The exact sum is `9007199254740994`, which is a `double`; in
`double` arithmetic `9007199254740992 + 1` is `9007199254740992`. -/
def incomeStats : CategoryStats :=
  [(1, [(0, ofInt 9007199254740992)]), (2, [(0, ofInt 1)]), (3, [(0, ofInt 1)])]

end Binary64

/-! ## Sorting and the two queries -/

theorem stable_sort_perm (l : List Category) :
    (stable_sort SorterByCATEGNAME l).Perm l :=
  List.perm_insertionSort _ l

theorem mem_stable_sort {l : List Category} {x : Category} :
    x ∈ stable_sort SorterByCATEGNAME l ↔ x ∈ l :=
  (stable_sort_perm l).mem_iff

theorem mem_find_PARENTID {cats : List Category} {id : Int} {c : Category} :
    c ∈ find_PARENTID cats id ↔ c ∈ cats ∧ c.PARENTID = id := by
  simp [find_PARENTID]

theorem mem_sub_category {cats : List Category} {c s : Category} :
    s ∈ sub_category cats c ↔ s ∈ cats ∧ s.PARENTID = c.CATEGID := by
  simp [sub_category, mem_find_PARENTID]

/-! ## A bounded height for the categories of a forest -/

theorem countP_lt_countP {α : Type} (p q : α → Bool) :
    ∀ l : List α, (∀ x ∈ l, p x = true → q x = true) →
      (∃ x ∈ l, q x = true ∧ p x = false) → l.countP p < l.countP q
  | [], _, h => by
    obtain ⟨x, hx, _⟩ := h
    cases hx
  | a :: l, hpq, hex => by
    have hle : l.countP p ≤ l.countP q :=
      List.countP_mono_left (fun x hx => hpq x (List.mem_cons_of_mem _ hx))
    have ha : p a = true → q a = true := hpq a (List.mem_cons_self _ _)
    by_cases hq : q a = true
    · by_cases hp : p a = true
      · have hlt : l.countP p < l.countP q := by
          apply countP_lt_countP p q l (fun x hx => hpq x (List.mem_cons_of_mem _ hx))
          obtain ⟨x, hx, hqx, hpx⟩ := hex
          rcases List.mem_cons.1 hx with rfl | hx
          · rw [hp] at hpx
            cases hpx
          · exact ⟨x, hx, hqx, hpx⟩
        simp [List.countP_cons, hq, hp, hlt]
      · have hp' : p a = false := by simpa using hp
        simp only [List.countP_cons, hq, hp', if_true]
        simp only [Bool.false_eq_true, if_false]
        omega
    · have hp : ¬ p a = true := fun h => hq (ha h)
      have hlt : l.countP p < l.countP q := by
        apply countP_lt_countP p q l (fun x hx => hpq x (List.mem_cons_of_mem _ hx))
        obtain ⟨x, hx, hqx, hpx⟩ := hex
        rcases List.mem_cons.1 hx with rfl | hx
        · exact absurd hqx hq
        · exact ⟨x, hx, hqx, hpx⟩
      have hp' : p a = false := by simpa using hp
      have hq' : q a = false := by simpa using hq
      simp only [List.countP_cons, hq', hp', Bool.false_eq_true, if_false]
      omega

/-- In a forest every category has a height below the number of categories, and a
subcategory is strictly lower than its parent. -/
theorem Forest.exists_height {cats : List Category} (hf : Forest cats) :
    ∃ ht : Category → Nat, (∀ c ∈ cats, ht c < cats.length) ∧
      ∀ c ∈ cats, ∀ s ∈ sub_category cats c, ht s < ht c := by
  obtain ⟨rank, hrank⟩ := hf.acyclic
  refine ⟨fun c => cats.countP (fun x => decide (rank x.CATEGID < rank c.CATEGID)), ?_, ?_⟩
  · intro c hc
    have hle := List.countP_le_length (fun x : Category => decide (rank x.CATEGID < rank c.CATEGID))
      (l := cats)
    have hne : cats.countP (fun x => decide (rank x.CATEGID < rank c.CATEGID)) ≠ cats.length := by
      intro h
      have := List.countP_eq_length.1 h c hc
      simp at this
    show cats.countP (fun x => decide (rank x.CATEGID < rank c.CATEGID)) < cats.length
    omega
  · intro c hc s hs
    obtain ⟨hsc, hpar⟩ := mem_sub_category.1 hs
    have hlt := hrank s hsc c hc hpar
    apply countP_lt_countP
    · intro x _ hx
      simp only [decide_eq_true_eq] at hx ⊢
      omega
    · exact ⟨s, hsc, by simpa using hlt, by simp⟩

/-! ## The recursion budget does not matter once it exceeds the height -/

theorem subtreeAmount_fuel {cats : List Category} (type_ : TYPE)
    (categoryStats : CategoryStats) (ht : Category → Nat)
    (hht : ∀ c ∈ cats, ∀ s ∈ sub_category cats c, ht s < ht c) :
    ∀ (n m : Nat) (c : Category), c ∈ cats → ht c < n → ht c < m →
      subtreeAmount cats type_ categoryStats n c = subtreeAmount cats type_ categoryStats m c := by
  intro n
  induction n with
  | zero => intro m c _ h; omega
  | succ n ih =>
    intro m c hc hn hm
    cases m with
    | zero => omega
    | succ m =>
      simp only [subtreeAmount]
      congr 2
      apply List.map_congr_left
      intro s hs
      have := hht c hc s hs
      exact ih m s (mem_sub_category.1 hs).1 (by omega) (by omega)

theorem subtree_fuel {cats : List Category} (ht : Category → Nat)
    (hht : ∀ c ∈ cats, ∀ s ∈ sub_category cats c, ht s < ht c) :
    ∀ (n m : Nat) (c : Category), c ∈ cats → ht c < n → ht c < m →
      subtree cats n c = subtree cats m c := by
  intro n
  induction n with
  | zero => intro m c _ h; omega
  | succ n ih =>
    intro m c hc hn hm
    cases m with
    | zero => omega
    | succ m =>
      simp only [subtree]
      congr 1
      apply List.flatMap_congr
      intro s hs
      have := hht c hc s hs
      exact ih m s (mem_sub_category.1 hs).1 (by omega) (by omega)

theorem rowsOf_fuel {cats : List Category} (type_ : TYPE)
    (categoryStats : CategoryStats) (groupID : Int) (ht : Category → Nat)
    (hht : ∀ c ∈ cats, ∀ s ∈ sub_category cats c, ht s < ht c) :
    ∀ (n m : Nat) (c : Category) (level : Nat), c ∈ cats → ht c < n → ht c < m →
      rowsOf cats type_ categoryStats groupID n c level =
        rowsOf cats type_ categoryStats groupID m c level := by
  intro n
  induction n with
  | zero => intro m c _ _ h; omega
  | succ n ih =>
    intro m c level hc hn hm
    cases m with
    | zero => omega
    | succ m =>
      have hamt : ∀ s ∈ sub_category cats c,
          subtreeAmount cats type_ categoryStats n s =
            subtreeAmount cats type_ categoryStats m s := by
        intro s hs
        have := hht c hc s hs
        exact subtreeAmount_fuel type_ categoryStats ht hht n m s
          (mem_sub_category.1 hs).1 (by omega) (by omega)
      simp only [rowsOf]
      rw [List.map_congr_left hamt]
      congr 1
      apply List.flatMap_congr
      intro s hs
      have hs' : s ∈ sub_category cats c := mem_stable_sort.1 hs
      have := hht c hc s hs'
      rw [hamt s hs', ih m s (level + 1) (mem_sub_category.1 hs').1 (by omega) (by omega)]

/-! ## What the loops and `AppendData` compute -/

/-- The loop of `AppendData`, when every recursive call returns the amount `A s` and
puts the rows `R s` in front of `data_`. -/
theorem appendLoop_eq (call : List data_holder → Category → Option (Int × List data_holder))
    (category : Category) (groupID : Int) (level : Nat)
    (A : Category → Int) (R : Category → List data_holder) :
    ∀ (l : List Category) (subamount : Int) (data_ : List data_holder),
      (∀ s ∈ l, ∀ d, call d s = some (A s, R s ++ d)) →
      appendLoop call category groupID level l (subamount, data_) =
        some (subamount + (l.map A).sum,
          l.reverse.flatMap (fun s =>
            (if A s ≠ 0 then [contributionRow category s (A s) groupID level] else []) ++ R s)
          ++ data_)
  | [], subamount, data_, _ => by simp [appendLoop]
  | s :: rest, subamount, data_, h => by
    have hs := h s (List.mem_cons_self _ _) data_
    have ih := appendLoop_eq call category groupID level A R rest
      (subamount + A s)
      ((if A s ≠ 0 then [contributionRow category s (A s) groupID level] else []) ++ R s ++ data_)
      (fun x hx d => h x (List.mem_cons_of_mem _ hx) d)
    simp only [appendLoop, hs]
    have hd : (if A s ≠ 0 then
          ({ catID := category.CATEGID, subCatID := s.CATEGID,
             name := category.CATEGNAME, amount := A s, categs := groupID,
             level := level } : data_holder) :: (R s ++ data_)
        else R s ++ data_) =
        (if A s ≠ 0 then [contributionRow category s (A s) groupID level] else []) ++ R s
          ++ data_ := by
      by_cases h0 : A s = 0 <;> simp [h0, contributionRow]
    rw [hd, ih]
    simp [List.flatMap_append, add_assoc]

/-- The inner loop of `RefreshData` is the loop of `AppendData` at `groupID =
category.CATEGID` and `level = 0`. -/
theorem refreshSubLoop_eq_appendLoop (fuel : Nat) (cats : List Category) (type_ : TYPE)
    (categoryStats : CategoryStats) (category : Category) :
    ∀ (l : List Category) (st : Int × List data_holder),
      refreshSubLoop fuel cats type_ categoryStats category l st =
        appendLoop
          (fun d s => AppendData fuel cats type_ d categoryStats s category.CATEGID (0 + 1))
          category category.CATEGID 0 l st
  | [], st => by simp [refreshSubLoop, appendLoop]
  | s :: rest, (subamount, data_) => by
    simp only [refreshSubLoop, appendLoop]
    cases AppendData fuel cats type_ data_ categoryStats s category.CATEGID 1 with
    | none => rfl
    | some r =>
      obtain ⟨amount, d⟩ := r
      exact refreshSubLoop_eq_appendLoop fuel cats type_ categoryStats category rest _

/-- With a budget above the height of `c`, `AppendData` returns the subtree amount of
`c` and puts the rows of `c` in front of `data_`. -/
theorem AppendData_eq {cats : List Category} (type_ : TYPE)
    (categoryStats : CategoryStats) (groupID : Int) (ht : Category → Nat)
    (hht : ∀ c ∈ cats, ∀ s ∈ sub_category cats c, ht s < ht c) :
    ∀ (n : Nat) (c : Category) (level : Nat) (data_ : List data_holder),
      c ∈ cats → ht c < n →
      AppendData n cats type_ data_ categoryStats c groupID level =
        some (subtreeAmount cats type_ categoryStats n c,
          rowsOf cats type_ categoryStats groupID n c level ++ data_) := by
  intro n
  induction n with
  | zero => intro c _ _ _ h; omega
  | succ n ih =>
    intro c level data_ hc hn
    have hcall : ∀ s ∈ (stable_sort SorterByCATEGNAME (sub_category cats c)).reverse,
        ∀ d, (fun d s => AppendData n cats type_ d categoryStats s groupID (level + 1)) d s =
          some (subtreeAmount cats type_ categoryStats n s,
            rowsOf cats type_ categoryStats groupID n s (level + 1) ++ d) := by
      intro s hs d
      have hs' : s ∈ sub_category cats c := mem_stable_sort.1 (List.mem_reverse.1 hs)
      have := hht c hc s hs'
      exact ih s (level + 1) d (mem_sub_category.1 hs').1 (by omega)
    have hsum : (List.map (subtreeAmount cats type_ categoryStats n)
          (stable_sort SorterByCATEGNAME (sub_category cats c)).reverse).sum =
        (List.map (subtreeAmount cats type_ categoryStats n) (sub_category cats c)).sum :=
      List.Perm.sum_eq
        (((List.reverse_perm _).trans (stable_sort_perm _)).map _)
    rw [AppendData]
    simp only []
    rw [appendLoop_eq _ c groupID level _ _ _ 0 data_ hcall, hsum]
    simp only [List.reverse_reverse, zero_add, subtreeAmount, rowsOf, ownRow]
    by_cases h0 : ownAmount type_ categoryStats c ≠ 0 ∨
        (List.map (subtreeAmount cats type_ categoryStats n) (sub_category cats c)).sum ≠ 0
    · simp [h0]
    · simp [h0]

/-- One iteration of the outer loop of `RefreshData` puts the rows of the top-level
category in front of `data_`: the same rows as a call of `AppendData` for it with
`groupID` its own identifier and `level = 0`. -/
theorem refreshLoop_cons {cats : List Category} (type_ : TYPE)
    (categoryStats : CategoryStats) (ht : Category → Nat)
    (hht : ∀ c ∈ cats, ∀ s ∈ sub_category cats c, ht s < ht c)
    (fuel : Nat) (hfuel : ∀ c ∈ cats, ht c < fuel)
    (c : Category) (rest : List Category) (data_ : List data_holder) :
    refreshLoop fuel cats type_ categoryStats (c :: rest) data_ =
      refreshLoop fuel cats type_ categoryStats rest
        (rowsOf cats type_ categoryStats c.CATEGID (fuel + 1) c 0 ++ data_) := by
  have hcall : ∀ s ∈ (stable_sort SorterByCATEGNAME (sub_category cats c)).reverse,
      ∀ d, (fun d s => AppendData fuel cats type_ d categoryStats s c.CATEGID (0 + 1)) d s =
        some (subtreeAmount cats type_ categoryStats fuel s,
          rowsOf cats type_ categoryStats c.CATEGID fuel s (0 + 1) ++ d) := by
    intro s hs d
    have hs' : s ∈ sub_category cats c := mem_stable_sort.1 (List.mem_reverse.1 hs)
    exact AppendData_eq type_ categoryStats c.CATEGID ht hht fuel s (0 + 1) d
      (mem_sub_category.1 hs').1 (hfuel s (mem_sub_category.1 hs').1)
  have hsum : (List.map (subtreeAmount cats type_ categoryStats fuel)
        (stable_sort SorterByCATEGNAME (sub_category cats c)).reverse).sum =
      (List.map (subtreeAmount cats type_ categoryStats fuel) (sub_category cats c)).sum :=
    List.Perm.sum_eq
      (((List.reverse_perm _).trans (stable_sort_perm _)).map _)
  rw [refreshLoop]
  simp only []
  rw [refreshSubLoop_eq_appendLoop,
    appendLoop_eq _ c c.CATEGID 0 _ _ _ 0 data_ hcall, hsum]
  simp only [List.reverse_reverse, zero_add, rowsOf, ownRow]
  by_cases h0 : ownAmount type_ categoryStats c ≠ 0 ∨
      (List.map (subtreeAmount cats type_ categoryStats fuel) (sub_category cats c)).sum ≠ 0
  · simp [h0]
  · simp [h0]

theorem refreshLoop_eq {cats : List Category} (type_ : TYPE)
    (categoryStats : CategoryStats) (ht : Category → Nat)
    (hht : ∀ c ∈ cats, ∀ s ∈ sub_category cats c, ht s < ht c)
    (fuel : Nat) (hfuel : ∀ c ∈ cats, ht c < fuel) :
    ∀ (l : List Category) (data_ : List data_holder), (∀ c ∈ l, c ∈ cats) →
      refreshLoop fuel cats type_ categoryStats l data_ =
        some (l.reverse.flatMap
            (fun c => rowsOf cats type_ categoryStats c.CATEGID (fuel + 1) c 0) ++ data_)
  | [], data_, _ => by simp [refreshLoop]
  | c :: rest, data_, h => by
    rw [refreshLoop_cons type_ categoryStats ht hht fuel hfuel c,
      refreshLoop_eq type_ categoryStats ht hht fuel hfuel rest _
        (fun x hx => h x (List.mem_cons_of_mem _ hx))]
    simp [List.flatMap_append]

/-- On a forest, with a recursion budget of at least the number of categories,
`RefreshData` returns, and what it leaves in `data_` is `report`, whatever `data_` held
before. -/
theorem RefreshData_eq {cats : List Category} (hf : Forest cats) (type_ : TYPE)
    (categoryStats : CategoryStats) (fuel : Nat) (hfuel : cats.length ≤ fuel)
    (data_ : List data_holder) :
    RefreshData fuel cats type_ data_ categoryStats =
      some (report cats type_ categoryStats) := by
  obtain ⟨ht, hlen, hht⟩ := hf.exists_height
  have hfuel' : ∀ c ∈ cats, ht c < fuel := fun c hc => lt_of_lt_of_le (hlen c hc) hfuel
  unfold RefreshData
  simp only [clear]
  rw [refreshLoop_eq type_ categoryStats ht hht fuel hfuel' _ []
    (fun c hc => (mem_find_PARENTID.1 (mem_stable_sort.1 (List.mem_reverse.1 hc))).1)]
  simp only [List.reverse_reverse, List.append_nil, report]
  congr 1
  apply List.flatMap_congr
  intro c hc
  have hc' : c ∈ cats := (mem_find_PARENTID.1 (mem_stable_sort.1 hc)).1
  exact rowsOf_fuel type_ categoryStats c.CATEGID ht hht _ _ c 0 hc'
    (by have := hfuel' c hc'; omega) (by have := hlen c hc'; omega)

/-! ## Paths and depths in a forest -/

theorem Forest.id_inj {cats : List Category} (hf : Forest cats) {a b : Category}
    (ha : a ∈ cats) (hb : b ∈ cats) (h : a.CATEGID = b.CATEGID) : a = b :=
  List.inj_on_of_nodup_map hf.ids_nodup ha hb h

theorem Forest.nodup {cats : List Category} (hf : Forest cats) : cats.Nodup :=
  List.Nodup.of_map _ hf.ids_nodup

theorem Path.mem {cats : List Category} {a c : Category} {k : Nat}
    (h : Path cats a c k) (ha : a ∈ cats) : c ∈ cats := by
  cases h with
  | self => exact ha
  | child _ hc _ => exact hc

theorem Path.zero {cats : List Category} {a c : Category}
    (h : Path cats a c 0) : c = a := by
  cases h
  rfl

theorem Path.trans {cats : List Category} {a b c : Category} {j k : Nat}
    (h₁ : Path cats a b j) (h₂ : Path cats b c k) : Path cats a c (j + k) := by
  induction h₂ with
  | self => exact h₁
  | child _ hc hp ih => exact Path.child ih hc hp

/-- A path starts with a step to a subcategory of its origin. -/
theorem Path.cons {cats : List Category} {a s c : Category} {k : Nat}
    (hs : s ∈ sub_category cats a) (h : Path cats s c k) : Path cats a c (k + 1) := by
  have h1 : Path cats a s (0 + 1) :=
    Path.child (Path.self a) (mem_sub_category.1 hs).1 (mem_sub_category.1 hs).2
  have := h1.trans h
  rwa [Nat.add_comm 0 1, Nat.add_comm 1 k] at this

theorem Path.uncons {cats : List Category} {a c : Category} {k : Nat}
    (h : Path cats a c (k + 1)) :
    ∃ s, s ∈ sub_category cats a ∧ Path cats s c k := by
  generalize hk : k + 1 = m at h
  induction h generalizing k with
  | self => omega
  | @child p c j hp hc hpar ih =>
    have hj : j = k := by omega
    subst hj
    cases j with
    | zero =>
      have := hp.zero
      subst this
      exact ⟨c, mem_sub_category.2 ⟨hc, hpar⟩, Path.self c⟩
    | succ j =>
      obtain ⟨s, hs, hsp⟩ := ih rfl
      exact ⟨s, hs, Path.child hsp hc hpar⟩

theorem Depth.category_mem {cats : List Category} {c : Category} {k : Nat}
    (h : Depth cats c k) : c ∈ cats := by
  cases h with
  | top ht => exact ht.1
  | child _ hc _ => exact hc

theorem Depth.path {cats : List Category} {a c : Category} {d k : Nat}
    (ha : Depth cats a d) (h : Path cats a c k) : Depth cats c (d + k) := by
  induction h with
  | self => exact ha
  | child _ hc hp ih => exact Depth.child ih hc hp

theorem Depth.exists_root_path {cats : List Category} {c : Category} {k : Nat}
    (h : Depth cats c k) : ∃ root, TopLevel cats root ∧ Path cats root c k := by
  induction h with
  | top ht => exact ⟨_, ht, Path.self _⟩
  | child _ hc hp ih =>
    obtain ⟨root, hr, hpath⟩ := ih
    exact ⟨root, hr, Path.child hpath hc hp⟩

/-- The depth of a category of a forest is unique. -/
theorem Forest.depth_unique {cats : List Category} (hf : Forest cats) {c : Category}
    {d d' : Nat} (h : Depth cats c d) (h' : Depth cats c d') : d = d' := by
  induction h generalizing d' with
  | top ht =>
    cases h' with
    | top => rfl
    | child hp' _ hpar' =>
      exact absurd (hpar'.symm.trans ht.2) (hf.ids_ne _ hp'.category_mem)
  | child hp _ hpar ih =>
    cases h' with
    | top ht' => exact absurd (hpar.symm.trans ht'.2) (hf.ids_ne _ hp.category_mem)
    | child hp' _ hpar' =>
      have := hf.id_inj hp.category_mem hp'.category_mem (hpar.symm.trans hpar')
      subst this
      rw [ih hp']

/-- Every category of a forest has a depth. -/
theorem Forest.exists_depth {cats : List Category} (hf : Forest cats) :
    ∀ c ∈ cats, ∃ d, Depth cats c d := by
  obtain ⟨rank, hrank⟩ := hf.acyclic
  have key : ∀ (n : Nat) (c : Category), c ∈ cats →
      cats.countP (fun x => decide (rank c.CATEGID < rank x.CATEGID)) < n →
      ∃ d, Depth cats c d := by
    intro n
    induction n with
    | zero => intro c _ h; omega
    | succ n ih =>
      intro c hc hn
      rcases hf.parent_mem c hc with hroot | ⟨p, hp, hpc⟩
      · exact ⟨0, Depth.top ⟨hc, hroot⟩⟩
      · have hlt := hrank c hc p hp hpc.symm
        have hcount : cats.countP (fun x => decide (rank p.CATEGID < rank x.CATEGID)) <
            cats.countP (fun x => decide (rank c.CATEGID < rank x.CATEGID)) := by
          apply countP_lt_countP
          · intro x _ hx
            simp only [decide_eq_true_eq] at hx ⊢
            omega
          · exact ⟨p, hp, by simpa using hlt, by simp⟩
        obtain ⟨d, hd⟩ := ih p hp (by omega)
        exact ⟨d + 1, Depth.child hd hc hpc.symm⟩
  intro c hc
  exact key _ c hc (Nat.lt_succ_self _)

/-- The ancestor a given number of generations above a category is unique. -/
theorem Forest.path_origin_unique {cats : List Category} (hf : Forest cats)
    {a a' c : Category} {k : Nat} (ha : a ∈ cats) (ha' : a' ∈ cats)
    (h : Path cats a c k) (h' : Path cats a' c k) : a = a' := by
  induction h generalizing a' with
  | self => exact h'.zero
  | child hp _ hpar ih =>
    cases h' with
    | child hp' _ hpar' =>
      have := hf.id_inj (hp.mem ha) (hp'.mem ha') (hpar.symm.trans hpar')
      subst this
      exact ih ha' hp'

/-- Two ancestors of a category at the same depth are the same category. -/
theorem Forest.ancestor_unique {cats : List Category} (hf : Forest cats)
    {a a' c : Category} {d k k' : Nat} (ha : Depth cats a d) (ha' : Depth cats a' d)
    (h : Path cats a c k) (h' : Path cats a' c k') : a = a' ∧ k = k' := by
  have hk : k = k' := by
    have := hf.depth_unique (ha.path h) (ha'.path h')
    omega
  subst hk
  exact ⟨hf.path_origin_unique ha.category_mem ha'.category_mem h h', rfl⟩

/-- A path from a category to itself has length zero: the parent relation has no
cycle. -/
theorem Forest.path_self {cats : List Category} (hf : Forest cats)
    {c : Category} {k : Nat} (hc : c ∈ cats) (h : Path cats c c k) : k = 0 := by
  obtain ⟨d, hd⟩ := hf.exists_depth c hc
  have := hf.depth_unique (hd.path h) hd
  omega

/-! ## The rows of a category, line by line -/

theorem subtreeAmount_eq_subtreeTotal {cats : List Category} (type_ : TYPE)
    (categoryStats : CategoryStats) (ht : Category → Nat)
    (hlen : ∀ c ∈ cats, ht c < cats.length)
    (hht : ∀ c ∈ cats, ∀ s ∈ sub_category cats c, ht s < ht c)
    (n : Nat) (c : Category) (hc : c ∈ cats) (hn : ht c < n) :
    subtreeAmount cats type_ categoryStats n c = subtreeTotal cats type_ categoryStats c :=
  subtreeAmount_fuel type_ categoryStats ht hht n cats.length c hc hn (hlen c hc)

/-- The recursion equation of the rows of a category, with the subtree amounts of the
subcategories. -/
theorem rowsOf_succ {cats : List Category} (type_ : TYPE)
    (categoryStats : CategoryStats) (groupID : Int) (ht : Category → Nat)
    (hlen : ∀ c ∈ cats, ht c < cats.length)
    (hht : ∀ c ∈ cats, ∀ s ∈ sub_category cats c, ht s < ht c)
    (n : Nat) (c : Category) (level : Nat) (hc : c ∈ cats) (hn : ht c < n + 1) :
    rowsOf cats type_ categoryStats groupID (n + 1) c level =
      (if ownAmount type_ categoryStats c ≠ 0 ∨
          subcategoriesTotal cats type_ categoryStats c ≠ 0
        then [ownRow type_ categoryStats c groupID level] else []) ++
      (stable_sort SorterByCATEGNAME (sub_category cats c)).flatMap (fun s =>
        (if subtreeTotal cats type_ categoryStats s ≠ 0
          then [contributionRow c s (subtreeTotal cats type_ categoryStats s) groupID level]
          else []) ++
        rowsOf cats type_ categoryStats groupID n s (level + 1)) := by
  have hamt : ∀ s ∈ sub_category cats c,
      subtreeAmount cats type_ categoryStats n s = subtreeTotal cats type_ categoryStats s := by
    intro s hs
    have := hht c hc s hs
    exact subtreeAmount_eq_subtreeTotal type_ categoryStats ht hlen hht n s
      (mem_sub_category.1 hs).1 (by omega)
  simp only [rowsOf, subcategoriesTotal]
  rw [List.map_congr_left hamt]
  congr 1
  apply List.flatMap_congr
  intro s hs
  rw [hamt s (mem_stable_sort.1 hs)]

/-- The recursion equation of the subtree amount. -/
theorem subtreeTotal_eq {cats : List Category} (hf : Forest cats) (type_ : TYPE)
    (categoryStats : CategoryStats) (c : Category) (hc : c ∈ cats) :
    subtreeTotal cats type_ categoryStats c =
      ownAmount type_ categoryStats c + subcategoriesTotal cats type_ categoryStats c := by
  obtain ⟨ht, hlen, hht⟩ := hf.exists_height
  have h1 : subtreeTotal cats type_ categoryStats c =
      subtreeAmount cats type_ categoryStats (cats.length + 1) c :=
    subtreeAmount_fuel type_ categoryStats ht hht _ _ c hc (hlen c hc)
      (by have := hlen c hc; omega)
  rw [h1]
  simp only [subtreeAmount, subcategoriesTotal]
  congr 2

theorem mem_rowsOf_succ {cats : List Category} (type_ : TYPE)
    (categoryStats : CategoryStats) (groupID : Int) (ht : Category → Nat)
    (hlen : ∀ c ∈ cats, ht c < cats.length)
    (hht : ∀ c ∈ cats, ∀ s ∈ sub_category cats c, ht s < ht c)
    (n : Nat) (c : Category) (level : Nat) (hc : c ∈ cats) (hn : ht c < n + 1)
    (r : data_holder) :
    r ∈ rowsOf cats type_ categoryStats groupID (n + 1) c level ↔
      r ∈ lineRows cats type_ categoryStats groupID c level ∨
      ∃ s ∈ sub_category cats c,
        r ∈ rowsOf cats type_ categoryStats groupID n s (level + 1) := by
  rw [rowsOf_succ type_ categoryStats groupID ht hlen hht n c level hc hn]
  simp only [lineRows, List.mem_append, List.mem_flatMap, mem_stable_sort]
  constructor
  · rintro (h | ⟨s, hs, h | h⟩)
    · exact Or.inl (Or.inl h)
    · exact Or.inl (Or.inr ⟨s, hs, h⟩)
    · exact Or.inr ⟨s, hs, h⟩
  · rintro ((h | ⟨s, hs, h⟩) | ⟨s, hs, h⟩)
    · exact Or.inl h
    · exact Or.inr ⟨s, hs, Or.inl h⟩
    · exact Or.inr ⟨s, hs, Or.inr h⟩

/-- A row is among the rows of `c` exactly when it is on the line of `c` or of a
descendant of `c`, at that category's level. -/
theorem mem_rowsOf {cats : List Category} (type_ : TYPE)
    (categoryStats : CategoryStats) (groupID : Int) (ht : Category → Nat)
    (hlen : ∀ c ∈ cats, ht c < cats.length)
    (hht : ∀ c ∈ cats, ∀ s ∈ sub_category cats c, ht s < ht c) (r : data_holder) :
    ∀ (n : Nat) (c : Category) (level : Nat), c ∈ cats → ht c < n →
      (r ∈ rowsOf cats type_ categoryStats groupID n c level ↔
        ∃ x k, Path cats c x k ∧
          r ∈ lineRows cats type_ categoryStats groupID x (level + k)) := by
  intro n
  induction n with
  | zero => intro c _ _ h; omega
  | succ n ih =>
    intro c level hc hn
    rw [mem_rowsOf_succ type_ categoryStats groupID ht hlen hht n c level hc hn]
    constructor
    · rintro (h | ⟨s, hs, h⟩)
      · exact ⟨c, 0, Path.self c, h⟩
      · have := hht c hc s hs
        obtain ⟨x, k, hpath, hx⟩ :=
          (ih s (level + 1) (mem_sub_category.1 hs).1 (by omega)).1 h
        refine ⟨x, k + 1, Path.cons hs hpath, ?_⟩
        rwa [show level + (k + 1) = level + 1 + k by omega]
    · rintro ⟨x, k, hpath, hx⟩
      cases k with
      | zero =>
        have := hpath.zero
        subst this
        exact Or.inl hx
      | succ k =>
        obtain ⟨s, hs, hsp⟩ := hpath.uncons
        have := hht c hc s hs
        refine Or.inr ⟨s, hs, (ih s (level + 1) (mem_sub_category.1 hs).1 (by omega)).2
          ⟨x, k, hsp, ?_⟩⟩
        rwa [show level + 1 + k = level + (k + 1) by omega]

/-- A row is in the report exactly when it is on the line of some category, with the
identifier of the top-level ancestor of that category and at the depth of that
category. -/
theorem mem_report {cats : List Category} (hf : Forest cats) (type_ : TYPE)
    (categoryStats : CategoryStats) (r : data_holder) :
    r ∈ report cats type_ categoryStats ↔
      ∃ root x k, TopLevel cats root ∧ Path cats root x k ∧
        r ∈ lineRows cats type_ categoryStats root.CATEGID x k := by
  obtain ⟨ht, hlen, hht⟩ := hf.exists_height
  simp only [report, List.mem_flatMap, mem_stable_sort, mem_find_PARENTID]
  constructor
  · rintro ⟨root, hroot, h⟩
    obtain ⟨x, k, hpath, hx⟩ :=
      (mem_rowsOf type_ categoryStats root.CATEGID ht hlen hht r _ root 0 hroot.1
        (by have := hlen root hroot.1; omega)).1 h
    exact ⟨root, x, k, hroot, hpath, by simpa using hx⟩
  · rintro ⟨root, x, k, hroot, hpath, hx⟩
    exact ⟨root, hroot,
      (mem_rowsOf type_ categoryStats root.CATEGID ht hlen hht r _ root 0 hroot.1
        (by have := hlen root hroot.1; omega)).2 ⟨x, k, hpath, by simpa using hx⟩⟩

theorem mem_lineRows {cats : List Category} {type_ : TYPE}
    {categoryStats : CategoryStats} {groupID : Int} {c : Category} {level : Nat}
    {r : data_holder} :
    r ∈ lineRows cats type_ categoryStats groupID c level ↔
      (r = ownRow type_ categoryStats c groupID level ∧
        (ownAmount type_ categoryStats c ≠ 0 ∨
          subcategoriesTotal cats type_ categoryStats c ≠ 0)) ∨
      ∃ s ∈ sub_category cats c, subtreeTotal cats type_ categoryStats s ≠ 0 ∧
        r = contributionRow c s (subtreeTotal cats type_ categoryStats s) groupID level := by
  simp only [lineRows, List.mem_append, List.mem_flatMap, mem_stable_sort]
  constructor
  · rintro (h | ⟨s, hs, h⟩)
    · by_cases h0 : ownAmount type_ categoryStats c ≠ 0 ∨
          subcategoriesTotal cats type_ categoryStats c ≠ 0
      · rw [if_pos h0] at h
        exact Or.inl ⟨List.mem_singleton.1 h, h0⟩
      · rw [if_neg h0] at h
        cases h
    · by_cases h0 : subtreeTotal cats type_ categoryStats s ≠ 0
      · rw [if_pos h0] at h
        exact Or.inr ⟨s, hs, h0, List.mem_singleton.1 h⟩
      · rw [if_neg h0] at h
        cases h
  · rintro (⟨h, h0⟩ | ⟨s, hs, h0, h⟩)
    · left
      rw [if_pos h0]
      exact List.mem_singleton.2 h
    · right
      refine ⟨s, hs, ?_⟩
      rw [if_pos h0]
      exact List.mem_singleton.2 h

/-- Every row of the report is on the line of a category of the table, which is the
one that has the row's `catID`. -/
theorem report_row_category {cats : List Category} (hf : Forest cats) {type_ : TYPE}
    {categoryStats : CategoryStats} {r : data_holder}
    (hr : r ∈ report cats type_ categoryStats) :
    ∃ root x k, TopLevel cats root ∧ Path cats root x k ∧ x ∈ cats ∧
      x.CATEGID = r.catID ∧ r ∈ lineRows cats type_ categoryStats root.CATEGID x k := by
  obtain ⟨root, x, k, hroot, hpath, hx⟩ := (mem_report hf type_ categoryStats r).1 hr
  refine ⟨root, x, k, hroot, hpath, hpath.mem hroot.1, ?_, hx⟩
  rcases mem_lineRows.1 hx with ⟨h, _⟩ | ⟨s, _, _, h⟩ <;> rw [h] <;> rfl

/-- Every category of a forest is reached from a top-level category, at its depth. -/
theorem Forest.exists_root {cats : List Category} (hf : Forest cats) {c : Category}
    (hc : c ∈ cats) : ∃ root k, TopLevel cats root ∧ Path cats root c k := by
  obtain ⟨d, hd⟩ := hf.exists_depth c hc
  obtain ⟨root, hroot, hpath⟩ := hd.exists_root_path
  exact ⟨root, d, hroot, hpath⟩

/-- The line of every category of a forest is in the report. -/
theorem lineRows_subset_report {cats : List Category} (hf : Forest cats) (type_ : TYPE)
    (categoryStats : CategoryStats) {c : Category} (hc : c ∈ cats) :
    ∃ root k, TopLevel cats root ∧ Path cats root c k ∧
      ∀ r ∈ lineRows cats type_ categoryStats root.CATEGID c k,
        r ∈ report cats type_ categoryStats := by
  obtain ⟨root, k, hroot, hpath⟩ := hf.exists_root hc
  exact ⟨root, k, hroot, hpath, fun r hr =>
    (mem_report hf type_ categoryStats r).2 ⟨root, c, k, hroot, hpath, hr⟩⟩

/-! ## Signs and zeros of the amounts -/

theorem ownAmount_nonpos (categoryStats : CategoryStats) (c : Category) :
    ownAmount TYPE.GOES categoryStats c ≤ 0 := by
  unfold ownAmount
  simp only [reduceCtorEq, false_and, if_false, true_and]
  split_ifs with h
  · exact le_refl 0
  · omega

theorem ownAmount_nonneg (categoryStats : CategoryStats) (c : Category) :
    0 ≤ ownAmount TYPE.COME categoryStats c := by
  unfold ownAmount
  simp only [reduceCtorEq, false_and, if_false, true_and]
  split_ifs with h
  · exact le_refl 0
  · omega

theorem list_sum_nonpos : ∀ l : List Int, (∀ x ∈ l, x ≤ 0) → l.sum ≤ 0
  | [], _ => by simp
  | a :: l, h => by
    have h1 := h a (List.mem_cons_self _ _)
    have h2 := list_sum_nonpos l (fun x hx => h x (List.mem_cons_of_mem _ hx))
    simp only [List.sum_cons]
    omega

theorem subtreeAmount_nonpos (cats : List Category) (categoryStats : CategoryStats) :
    ∀ (n : Nat) (c : Category), subtreeAmount cats TYPE.GOES categoryStats n c ≤ 0
  | 0, _ => by simp [subtreeAmount]
  | n + 1, c => by
    have h1 := ownAmount_nonpos categoryStats c
    have h2 : ((sub_category cats c).map
        (subtreeAmount cats TYPE.GOES categoryStats n)).sum ≤ 0 := by
      apply list_sum_nonpos
      intro x hx
      obtain ⟨s, _, rfl⟩ := List.mem_map.1 hx
      exact subtreeAmount_nonpos cats categoryStats n s
    simp only [subtreeAmount]
    omega

theorem subtreeAmount_nonneg (cats : List Category) (categoryStats : CategoryStats) :
    ∀ (n : Nat) (c : Category), 0 ≤ subtreeAmount cats TYPE.COME categoryStats n c
  | 0, _ => by simp [subtreeAmount]
  | n + 1, c => by
    have h1 := ownAmount_nonneg categoryStats c
    have h2 : 0 ≤ ((sub_category cats c).map
        (subtreeAmount cats TYPE.COME categoryStats n)).sum := by
      apply List.sum_nonneg
      intro x hx
      obtain ⟨s, _, rfl⟩ := List.mem_map.1 hx
      exact subtreeAmount_nonneg cats categoryStats n s
    simp only [subtreeAmount]
    omega

/-- When the own amounts of `N` and of all its descendants are zero, so are their
subtree amounts. -/
theorem subtreeAmount_zero {cats : List Category} {type_ : TYPE}
    {categoryStats : CategoryStats} {N : Category}
    (hzero : ∀ x, Descends cats N x → ownAmount type_ categoryStats x = 0) :
    ∀ (n : Nat) (x : Category), Descends cats N x →
      subtreeAmount cats type_ categoryStats n x = 0
  | 0, _, _ => by simp [subtreeAmount]
  | n + 1, x, hx => by
    simp only [subtreeAmount, hzero x hx, zero_add]
    apply List.sum_eq_zero
    intro y hy
    obtain ⟨s, hs, rfl⟩ := List.mem_map.1 hy
    obtain ⟨k, hk⟩ := hx
    exact subtreeAmount_zero hzero n s
      ⟨k + 1, Path.child hk (mem_sub_category.1 hs).1 (mem_sub_category.1 hs).2⟩

/-! ## Classification of the rows of the report -/

/-- Every row of the report is the own row of a category or the contribution row of a
subcategory, with the identifier of the top-level ancestor and the depth of the
category the row is attributed to. -/
theorem report_row_cases {cats : List Category} (hf : Forest cats) {type_ : TYPE}
    {categoryStats : CategoryStats} {r : data_holder}
    (hr : r ∈ report cats type_ categoryStats) :
    ∃ root x k, TopLevel cats root ∧ Path cats root x k ∧ x ∈ cats ∧
      ((r = ownRow type_ categoryStats x root.CATEGID k ∧
          (ownAmount type_ categoryStats x ≠ 0 ∨
            subcategoriesTotal cats type_ categoryStats x ≠ 0)) ∨
        ∃ s ∈ sub_category cats x, subtreeTotal cats type_ categoryStats s ≠ 0 ∧
          r = contributionRow x s (subtreeTotal cats type_ categoryStats s) root.CATEGID k) := by
  obtain ⟨root, x, k, hroot, hpath, hx⟩ := (mem_report hf type_ categoryStats r).1 hr
  exact ⟨root, x, k, hroot, hpath, hpath.mem hroot.1, mem_lineRows.1 hx⟩

/-- A row of the report with the `catID` of `N` and `subCatID = -1` is the own row of
`N`. -/
theorem report_own_row {cats : List Category} (hf : Forest cats) {type_ : TYPE}
    {categoryStats : CategoryStats} {r : data_holder} {N : Category} (hN : N ∈ cats)
    (hr : r ∈ report cats type_ categoryStats) (hcat : r.catID = N.CATEGID)
    (hsub : r.subCatID = -1) :
    ∃ root k, TopLevel cats root ∧ Path cats root N k ∧
      r = ownRow type_ categoryStats N root.CATEGID k ∧
      (ownAmount type_ categoryStats N ≠ 0 ∨
        subcategoriesTotal cats type_ categoryStats N ≠ 0) := by
  obtain ⟨root, x, k, hroot, hpath, hx, h⟩ := report_row_cases hf hr
  rcases h with ⟨h, h0⟩ | ⟨s, hs, _, h⟩
  · have hxN : x = N := hf.id_inj hx hN (by rw [← hcat, h]; rfl)
    subst hxN
    exact ⟨root, k, hroot, hpath, h, h0⟩
  · exfalso
    apply hf.ids_ne s (mem_sub_category.1 hs).1
    rw [← hsub, h]
    rfl

/-- A row of the report with the `catID` of `P` and the `subCatID` of `C` is the
contribution row of the subcategory `C` of `P`. -/
theorem report_contribution_row {cats : List Category} (hf : Forest cats) {type_ : TYPE}
    {categoryStats : CategoryStats} {r : data_holder} {P C : Category} (hP : P ∈ cats)
    (hC : C ∈ cats) (hr : r ∈ report cats type_ categoryStats)
    (hcat : r.catID = P.CATEGID) (hsub : r.subCatID = C.CATEGID) :
    ∃ root k, TopLevel cats root ∧ Path cats root P k ∧ C ∈ sub_category cats P ∧
      subtreeTotal cats type_ categoryStats C ≠ 0 ∧
      r = contributionRow P C (subtreeTotal cats type_ categoryStats C) root.CATEGID k := by
  obtain ⟨root, x, k, hroot, hpath, hx, h⟩ := report_row_cases hf hr
  rcases h with ⟨h, _⟩ | ⟨s, hs, h0, h⟩
  · exfalso
    apply hf.ids_ne C hC
    rw [← hsub, h]
    rfl
  · have hxP : x = P := hf.id_inj hx hP (by rw [← hcat, h]; rfl)
    subst hxP
    have hsC : s = C := hf.id_inj (mem_sub_category.1 hs).1 hC (by rw [← hsub, h]; rfl)
    subst hsC
    exact ⟨root, k, hroot, hpath, hs, h0, h⟩

theorem Depth.of_root {cats : List Category} {root c : Category} {k : Nat}
    (hroot : TopLevel cats root) (h : Path cats root c k) : Depth cats c k := by
  have := (Depth.top hroot).path h
  rwa [Nat.zero_add] at this

theorem subcategoriesTotal_zero {cats : List Category} {type_ : TYPE}
    {categoryStats : CategoryStats} {N : Category}
    (hzero : ∀ x, Descends cats N x → ownAmount type_ categoryStats x = 0)
    {x : Category} (hx : Descends cats N x) :
    subcategoriesTotal cats type_ categoryStats x = 0 := by
  apply List.sum_eq_zero
  intro y hy
  obtain ⟨s, hs, rfl⟩ := List.mem_map.1 hy
  obtain ⟨k, hk⟩ := hx
  exact subtreeAmount_zero hzero _ s
    ⟨k + 1, Path.child hk (mem_sub_category.1 hs).1 (mem_sub_category.1 hs).2⟩

/-! ## The order of the siblings -/

theorem SorterByCATEGNAME_iff (x y : Category) :
    SorterByCATEGNAME x y = true ↔ x.CATEGNAME < y.CATEGNAME := by
  unfold SorterByCATEGNAME
  rw [decide_eq_true_iff]
  exact String.lt_iff_toList_lt.symm

theorem SorterByCATEGNAME_false_iff (x y : Category) :
    SorterByCATEGNAME x y = false ↔ y.CATEGNAME ≤ x.CATEGNAME := by
  rw [← not_lt, ← SorterByCATEGNAME_iff]
  simp

/-- The sorted sequence of siblings is ascending by name. -/
theorem stable_sort_sorted (l : List Category) :
    (stable_sort SorterByCATEGNAME l).Pairwise (fun a b => a.CATEGNAME ≤ b.CATEGNAME) := by
  haveI : IsTotal Category (fun a b => SorterByCATEGNAME b a = false) :=
    ⟨fun a b => by
      simp only [SorterByCATEGNAME_false_iff]
      exact le_total _ _⟩
  haveI : IsTrans Category (fun a b => SorterByCATEGNAME b a = false) :=
    ⟨fun a b c => by
      simp only [SorterByCATEGNAME_false_iff]
      exact le_trans⟩
  have h := List.sorted_insertionSort (fun a b : Category => SorterByCATEGNAME b a = false) l
  exact List.Pairwise.imp (fun {a b} hab => (SorterByCATEGNAME_false_iff b a).1 hab) h

/-- In the sorted sequence of siblings the one with the smaller name comes first. -/
theorem stable_sort_split {l : List Category} {A B : Category} (hA : A ∈ l) (hB : B ∈ l)
    (hname : B.CATEGNAME < A.CATEGNAME) :
    ∃ S₁ S₂ S₃, stable_sort SorterByCATEGNAME l = S₁ ++ B :: (S₂ ++ A :: S₃) := by
  have hsorted := stable_sort_sorted l
  obtain ⟨U, V, hUV⟩ := List.append_of_mem (mem_stable_sort.2 hA)
  have hBmem : B ∈ U ++ A :: V := hUV ▸ mem_stable_sort.2 hB
  rw [hUV] at hsorted
  rcases List.mem_append.1 hBmem with hBU | hBV
  · obtain ⟨S₁, S₂, hS⟩ := List.append_of_mem hBU
    refine ⟨S₁, S₂, V, ?_⟩
    rw [hUV, hS]
    simp
  · exfalso
    rcases List.mem_cons.1 hBV with hBA | hBV
    · rw [hBA] at hname
      exact lt_irrefl _ hname
    · have hp := (List.pairwise_append.1 hsorted).2.1
      have := (List.pairwise_cons.1 hp).1 B hBV
      exact absurd hname (not_lt.2 this)

theorem pair_sublist_flatMap {α β : Type} (f : α → List β) (S₁ S₂ S₃ : List α) {a b : α}
    {x y : β} (hx : x ∈ f a) (hy : y ∈ f b) :
    List.Sublist [x, y] ((S₁ ++ a :: (S₂ ++ b :: S₃)).flatMap f) := by
  simp only [List.flatMap_append, List.flatMap_cons]
  have h1 : List.Sublist [x] (f a) := List.singleton_sublist.2 hx
  have h2 : List.Sublist [y] (S₂.flatMap f ++ (f b ++ S₃.flatMap f)) :=
    ((List.singleton_sublist.2 hy).trans (List.sublist_append_left _ _)).trans
      (List.sublist_append_right _ _)
  exact (h1.append h2).trans (List.sublist_append_right _ _)

theorem sublist_flatMap_of_mem {α β : Type} (f : α → List β) {l : List α} {a : α}
    (ha : a ∈ l) : List.Sublist (f a) (l.flatMap f) := by
  obtain ⟨s, t, rfl⟩ := List.append_of_mem ha
  simp only [List.flatMap_append, List.flatMap_cons]
  exact (List.sublist_append_left _ _).trans (List.sublist_append_right _ _)

/-- The rows of a descendant are a part of the rows of its ancestor, in the same
order. -/
theorem rowsOf_sublist {cats : List Category} (type_ : TYPE)
    (categoryStats : CategoryStats) (groupID : Int) (ht : Category → Nat)
    (hlen : ∀ c ∈ cats, ht c < cats.length)
    (hht : ∀ c ∈ cats, ∀ s ∈ sub_category cats c, ht s < ht c) :
    ∀ (n : Nat) (c : Category) (level : Nat) (x : Category) (k : Nat), c ∈ cats →
      ht c < n → Path cats c x k →
      List.Sublist
        (rowsOf cats type_ categoryStats groupID cats.length x (level + k))
        (rowsOf cats type_ categoryStats groupID n c level) := by
  intro n
  induction n with
  | zero => intro c _ _ _ _ h; omega
  | succ n ih =>
    intro c level x k hc hn hpath
    cases k with
    | zero =>
      have := hpath.zero
      subst this
      rw [Nat.add_zero,
        rowsOf_fuel type_ categoryStats groupID ht hht _ _ x level hc (hlen x hc) hn]
    | succ k =>
      obtain ⟨s, hs, hsp⟩ := hpath.uncons
      have := hht c hc s hs
      have h1 := ih s (level + 1) x k (mem_sub_category.1 hs).1 (by omega) hsp
      rw [show level + 1 + k = level + (k + 1) by omega] at h1
      rw [rowsOf_succ type_ categoryStats groupID ht hlen hht n c level hc hn]
      refine (h1.trans ?_).trans (List.sublist_append_right _ _)
      exact (List.sublist_append_right _ _).trans
        (sublist_flatMap_of_mem
          (fun s => (if subtreeTotal cats type_ categoryStats s ≠ 0
            then [contributionRow c s (subtreeTotal cats type_ categoryStats s) groupID level]
            else []) ++ rowsOf cats type_ categoryStats groupID n s (level + 1))
          (mem_stable_sort.2 hs))

/-- The own row of a category is among the rows of that category, taken with the
identifier of its top-level ancestor and at its depth. -/
theorem own_row_mem_rowsOf {cats : List Category} (hf : Forest cats) {type_ : TYPE}
    {categoryStats : CategoryStats} {r : data_holder} {N root : Category} {k : Nat}
    (hN : N ∈ cats) (hr : r ∈ report cats type_ categoryStats)
    (hcat : r.catID = N.CATEGID) (hsub : r.subCatID = -1)
    (hroot : TopLevel cats root) (hpath : Path cats root N k) :
    r ∈ rowsOf cats type_ categoryStats root.CATEGID cats.length N k := by
  obtain ⟨ht, hlen, hht⟩ := hf.exists_height
  obtain ⟨root', k', hroot', hpath', h, h0⟩ := report_own_row hf hN hr hcat hsub
  obtain ⟨hr', hk'⟩ := hf.ancestor_unique (Depth.top hroot') (Depth.top hroot) hpath' hpath
  subst hr' hk'
  exact (mem_rowsOf type_ categoryStats root'.CATEGID ht hlen hht r _ N k' hN (hlen N hN)).2
    ⟨N, 0, Path.self N, mem_lineRows.2 (Or.inl ⟨h, h0⟩)⟩

/-- The rows of a top-level category are a part of the report, in the same order. -/
theorem rowsOf_root_sublist_report {cats : List Category} (hf : Forest cats) (type_ : TYPE)
    (categoryStats : CategoryStats) {root : Category} (hroot : TopLevel cats root) :
    List.Sublist (rowsOf cats type_ categoryStats root.CATEGID cats.length root 0)
      (report cats type_ categoryStats) := by
  obtain ⟨ht, hlen, hht⟩ := hf.exists_height
  rw [rowsOf_fuel type_ categoryStats root.CATEGID ht hht _ (cats.length + 1) root 0 hroot.1
    (hlen root hroot.1) (by have := hlen root hroot.1; omega)]
  exact sublist_flatMap_of_mem
    (fun c => rowsOf cats type_ categoryStats c.CATEGID (cats.length + 1) c 0)
    (mem_stable_sort.2 (mem_find_PARENTID.2 hroot))

/-! ## The rows with a given `catID` -/

theorem flatMap_eq_of_unique {α β : Type} (f : α → List β) {a : α} :
    ∀ l : List α, l.Nodup → a ∈ l → (∀ b ∈ l, b ≠ a → f b = []) → l.flatMap f = f a
  | [], _, ha, _ => by cases ha
  | b :: l, hnd, ha, h => by
    rw [List.flatMap_cons]
    obtain ⟨hb, hl⟩ := List.nodup_cons.1 hnd
    rcases List.mem_cons.1 ha with rfl | hal
    · have : l.flatMap f = [] := by
        rw [List.flatMap_eq_nil_iff]
        intro x hx
        exact h x (List.mem_cons_of_mem _ hx) (fun hxa => hb (hxa ▸ hx))
      rw [this, List.append_nil]
    · have hba : b ≠ a := fun hba => hb (hba ▸ hal)
      rw [h b (List.mem_cons_self _ _) hba, List.nil_append]
      exact flatMap_eq_of_unique f l hl hal (fun x hx => h x (List.mem_cons_of_mem _ hx))

theorem lineRows_catID {cats : List Category} {type_ : TYPE}
    {categoryStats : CategoryStats} {groupID : Int} {c : Category} {level : Nat}
    {r : data_holder} (h : r ∈ lineRows cats type_ categoryStats groupID c level) :
    r.catID = c.CATEGID := by
  rcases mem_lineRows.1 h with ⟨h, _⟩ | ⟨s, _, _, h⟩ <;> rw [h] <;> rfl

/-- The rows of `c` that have the `catID` of a category outside the subtree of `c`:
none. -/
theorem filter_rowsOf_nil {cats : List Category} (hf : Forest cats) (type_ : TYPE)
    (categoryStats : CategoryStats) (groupID : Int) (ht : Category → Nat)
    (hlen : ∀ c ∈ cats, ht c < cats.length)
    (hht : ∀ c ∈ cats, ∀ s ∈ sub_category cats c, ht s < ht c)
    (n : Nat) (c : Category) (level : Nat) (x : Category) (hc : c ∈ cats) (hn : ht c < n)
    (hx : x ∈ cats) (hnot : ¬ Descends cats c x) :
    (rowsOf cats type_ categoryStats groupID n c level).filter
      (fun r => r.catID == x.CATEGID) = [] := by
  rw [List.filter_eq_nil_iff]
  intro r hr hp
  obtain ⟨y, k, hpath, hy⟩ :=
    (mem_rowsOf type_ categoryStats groupID ht hlen hht r n c level hc hn).1 hr
  have hid : y.CATEGID = x.CATEGID := by
    rw [← lineRows_catID hy]
    simpa using hp
  have := hf.id_inj (hpath.mem hc) hx hid
  subst this
  exact hnot ⟨k, hpath⟩

theorem Forest.nodup_sub_category {cats : List Category} (hf : Forest cats)
    (c : Category) : (stable_sort SorterByCATEGNAME (sub_category cats c)).Nodup :=
  (stable_sort_perm _).symm.nodup (hf.nodup.filter _)

/-- The rows of `c` that have the `catID` of a category `x` of the subtree of `c`: the
line of `x`. -/
theorem filter_rowsOf {cats : List Category} (hf : Forest cats) (type_ : TYPE)
    (categoryStats : CategoryStats) (groupID : Int) (ht : Category → Nat)
    (hlen : ∀ c ∈ cats, ht c < cats.length)
    (hht : ∀ c ∈ cats, ∀ s ∈ sub_category cats c, ht s < ht c) :
    ∀ (n : Nat) (c : Category) (level : Nat) (x : Category) (k : Nat), c ∈ cats →
      ht c < n → Path cats c x k →
      (rowsOf cats type_ categoryStats groupID n c level).filter
        (fun r => r.catID == x.CATEGID) =
      lineRows cats type_ categoryStats groupID x (level + k) := by
  intro n
  induction n with
  | zero => intro c _ _ _ _ h; omega
  | succ n ih =>
    intro c level x k hc hn hpath
    rw [rowsOf_succ type_ categoryStats groupID ht hlen hht n c level hc hn,
      List.filter_append, List.filter_flatMap]
    cases k with
    | zero =>
      have := hpath.zero
      subst this
      unfold lineRows
      congr 1
      · by_cases h0 : ownAmount type_ categoryStats x ≠ 0 ∨
            subcategoriesTotal cats type_ categoryStats x ≠ 0
        · simp [h0, ownRow]
        · simp [h0]
      · apply List.flatMap_congr
        intro s hs
        have hs' : s ∈ sub_category cats x := mem_stable_sort.1 hs
        have hlt := hht x hc s hs'
        have hnil := filter_rowsOf_nil hf type_ categoryStats groupID ht hlen hht n s
          (level + 1) x (mem_sub_category.1 hs').1 (by omega) hc (by
            rintro ⟨j, hj⟩
            have := hf.path_self hc (Path.cons hs' hj)
            omega)
        rw [List.filter_append, hnil, List.append_nil]
        by_cases h0 : subtreeTotal cats type_ categoryStats s ≠ 0
        · simp [h0, contributionRow]
        · simp [h0]
    | succ k =>
      obtain ⟨s₀, hs₀, hsp⟩ := hpath.uncons
      have hxc : x ∈ cats := hpath.mem hc
      have hne : c.CATEGID ≠ x.CATEGID := by
        intro hid
        have := hf.id_inj hc hxc hid
        subst this
        have := hf.path_self hc hpath
        omega
      have hown : List.filter (fun r => r.catID == x.CATEGID)
          (if ownAmount type_ categoryStats c ≠ 0 ∨
              subcategoriesTotal cats type_ categoryStats c ≠ 0
            then [ownRow type_ categoryStats c groupID level] else []) = [] := by
        by_cases h0 : ownAmount type_ categoryStats c ≠ 0 ∨
            subcategoriesTotal cats type_ categoryStats c ≠ 0
        · simp [h0, ownRow, hne]
        · simp [h0]
      have hcontrib : ∀ s, List.filter (fun r => r.catID == x.CATEGID)
          (if subtreeTotal cats type_ categoryStats s ≠ 0
            then [contributionRow c s (subtreeTotal cats type_ categoryStats s) groupID level]
            else []) = [] := by
        intro s
        by_cases h0 : subtreeTotal cats type_ categoryStats s ≠ 0
        · simp [h0, contributionRow, hne]
        · simp [h0]
      obtain ⟨d, hd⟩ := hf.exists_depth c hc
      rw [hown, List.nil_append,
        flatMap_eq_of_unique _ _ (hf.nodup_sub_category c) (mem_stable_sort.2 hs₀)]
      · have hlt := hht c hc s₀ hs₀
        rw [List.filter_append, hcontrib, List.nil_append,
          ih s₀ (level + 1) x k (mem_sub_category.1 hs₀).1 (by omega) hsp]
        rw [show level + 1 + k = level + (k + 1) by omega]
      · intro s hs hss
        have hs' : s ∈ sub_category cats c := mem_stable_sort.1 hs
        have hlt := hht c hc s hs'
        rw [List.filter_append, hcontrib, List.nil_append]
        apply filter_rowsOf_nil hf type_ categoryStats groupID ht hlen hht n s (level + 1) x
          (mem_sub_category.1 hs').1 (by omega) hxc
        rintro ⟨j, hj⟩
        apply hss
        exact (hf.ancestor_unique
          (Depth.child hd (mem_sub_category.1 hs').1 (mem_sub_category.1 hs').2)
          (Depth.child hd (mem_sub_category.1 hs₀).1 (mem_sub_category.1 hs₀).2)
          hj hsp).1

theorem Forest.nodup_roots {cats : List Category} (hf : Forest cats) :
    (stable_sort SorterByCATEGNAME (find_PARENTID cats (-1))).Nodup :=
  (stable_sort_perm _).symm.nodup (hf.nodup.filter _)

/-- The rows of the report that have the `catID` of a category `x`: the line of `x`,
with the identifier of its top-level ancestor and at its depth. -/
theorem filter_report {cats : List Category} (hf : Forest cats) (type_ : TYPE)
    (categoryStats : CategoryStats) {root x : Category} {k : Nat}
    (hroot : TopLevel cats root) (hpath : Path cats root x k) :
    (report cats type_ categoryStats).filter (fun r => r.catID == x.CATEGID) =
      lineRows cats type_ categoryStats root.CATEGID x k := by
  obtain ⟨ht, hlen, hht⟩ := hf.exists_height
  unfold report
  rw [List.filter_flatMap,
    flatMap_eq_of_unique _ _ hf.nodup_roots (mem_stable_sort.2 (mem_find_PARENTID.2 hroot))]
  · have := filter_rowsOf hf type_ categoryStats root.CATEGID ht hlen hht (cats.length + 1)
      root 0 x k hroot.1 (by have := hlen root hroot.1; omega) hpath
    rwa [Nat.zero_add] at this
  · intro r hr hne
    have hr' : TopLevel cats r := mem_find_PARENTID.1 (mem_stable_sort.1 hr)
    apply filter_rowsOf_nil hf type_ categoryStats r.CATEGID ht hlen hht _ r 0 x hr'.1
      (by have := hlen r hr'.1; omega) (hpath.mem hroot.1)
    rintro ⟨j, hj⟩
    exact hne (hf.ancestor_unique (Depth.top hr') (Depth.top hroot) hj hpath).1

/-! ## Sums over the rows of a line and over a subtree -/

theorem find?_and {α : Type} (p q : α → Bool) :
    ∀ l : List α, l.find? (fun a => p a && q a) = (l.filter p).find? q
  | [] => rfl
  | a :: l => by
    have ih := find?_and p q l
    by_cases hp : p a = true
    · by_cases hq : q a = true
      · rw [List.filter_cons, if_pos hp, List.find?_cons, List.find?_cons]
        simp only [hp, hq, Bool.and_self]
      · have hq' : q a = false := by simpa using hq
        rw [List.filter_cons, if_pos hp, List.find?_cons, List.find?_cons]
        simp only [hp, hq', Bool.and_false]
        exact ih
    · have hp' : p a = false := by simpa using hp
      rw [List.filter_cons, if_neg hp, List.find?_cons]
      simp only [hp', Bool.false_and]
      exact ih

theorem filter_and {α : Type} (p q : α → Bool) (l : List α) :
    l.filter (fun a => p a && q a) = (l.filter p).filter q := by
  rw [List.filter_filter]
  congr 1
  funext a
  exact Bool.and_comm _ _

theorem sum_map_flatMap {α β : Type} (f : α → List β) (g : β → Int) :
    ∀ l : List α, ((l.flatMap f).map g).sum = (l.map (fun a => ((f a).map g).sum)).sum
  | [] => rfl
  | a :: l => by
    simp only [List.flatMap_cons, List.map_append, List.sum_append, List.map_cons,
      List.sum_cons, sum_map_flatMap f g l]

/-- The subtree amount of a category is the sum of the own amounts over its subtree. -/
theorem subtreeAmount_eq_sum (cats : List Category) (type_ : TYPE)
    (categoryStats : CategoryStats) :
    ∀ (n : Nat) (c : Category), subtreeAmount cats type_ categoryStats n c =
      ((subtree cats n c).map (ownAmount type_ categoryStats)).sum
  | 0, _ => rfl
  | n + 1, c => by
    simp only [subtreeAmount, subtree, List.map_cons, List.sum_cons, sum_map_flatMap]
    congr 2
    apply List.map_congr_left
    intro s _
    exact subtreeAmount_eq_sum cats type_ categoryStats n s

/-- The amounts of the contribution rows on the line of `c` add up to the total of the
subcategories of `c`. -/
theorem contributions_sum (cats : List Category) (type_ : TYPE)
    (categoryStats : CategoryStats) (groupID : Int) (c : Category) (level : Nat) :
    (((stable_sort SorterByCATEGNAME (sub_category cats c)).flatMap (fun s =>
      if subtreeTotal cats type_ categoryStats s ≠ 0
        then [contributionRow c s (subtreeTotal cats type_ categoryStats s) groupID level]
        else [])).map (fun r => r.amount)).sum =
    subcategoriesTotal cats type_ categoryStats c := by
  rw [sum_map_flatMap]
  unfold subcategoriesTotal
  rw [← List.Perm.sum_eq ((stable_sort_perm (sub_category cats c)).map _)]
  congr 1
  apply List.map_congr_left
  intro s _
  by_cases h0 : subtreeTotal cats type_ categoryStats s = 0
  · simp [h0]
  · simp [h0, contributionRow]

/-- The own-row amount and the contribution amounts found on the line of a category. -/
theorem lineRows_amounts {cats : List Category} (hf : Forest cats) (type_ : TYPE)
    (categoryStats : CategoryStats) (groupID : Int) (c : Category) (level : Nat) :
    (match (lineRows cats type_ categoryStats groupID c level).find?
        (fun r => r.subCatID == -1) with
      | some r => r.amount
      | none => 0) = ownAmount type_ categoryStats c ∧
    (((lineRows cats type_ categoryStats groupID c level).filter
        (fun r => r.subCatID != -1)).map (fun r => r.amount)).sum =
      subcategoriesTotal cats type_ categoryStats c := by
  have hcontrib : ∀ r ∈ (stable_sort SorterByCATEGNAME (sub_category cats c)).flatMap
      (fun s => if subtreeTotal cats type_ categoryStats s ≠ 0
        then [contributionRow c s (subtreeTotal cats type_ categoryStats s) groupID level]
        else []), r.subCatID ≠ -1 := by
    intro r hr
    obtain ⟨s, hs, hrs⟩ := List.mem_flatMap.1 hr
    have hsc : s ∈ cats := (mem_sub_category.1 (mem_stable_sort.1 hs)).1
    by_cases h0 : subtreeTotal cats type_ categoryStats s ≠ 0
    · rw [if_pos h0, List.mem_singleton] at hrs
      rw [hrs]
      exact hf.ids_ne s hsc
    · rw [if_neg h0] at hrs
      cases hrs
  have hfind : ((stable_sort SorterByCATEGNAME (sub_category cats c)).flatMap
      (fun s => if subtreeTotal cats type_ categoryStats s ≠ 0
        then [contributionRow c s (subtreeTotal cats type_ categoryStats s) groupID level]
        else [])).find? (fun r => r.subCatID == -1) = none := by
    rw [List.find?_eq_none]
    intro r hr
    simpa using hcontrib r hr
  have hfilter : ((stable_sort SorterByCATEGNAME (sub_category cats c)).flatMap
      (fun s => if subtreeTotal cats type_ categoryStats s ≠ 0
        then [contributionRow c s (subtreeTotal cats type_ categoryStats s) groupID level]
        else [])).filter (fun r => r.subCatID != -1) =
      (stable_sort SorterByCATEGNAME (sub_category cats c)).flatMap
      (fun s => if subtreeTotal cats type_ categoryStats s ≠ 0
        then [contributionRow c s (subtreeTotal cats type_ categoryStats s) groupID level]
        else []) := by
    rw [List.filter_eq_self]
    intro r hr
    simpa using hcontrib r hr
  unfold lineRows
  rw [List.find?_append, List.filter_append, hfind, hfilter]
  by_cases h0 : ownAmount type_ categoryStats c ≠ 0 ∨
      subcategoriesTotal cats type_ categoryStats c ≠ 0
  · rw [if_pos h0]
    refine ⟨by simp [ownRow], ?_⟩
    simp only [List.filter_cons, List.filter_nil, ownRow, bne_self_eq_false,
      Bool.false_eq_true, if_false, List.nil_append]
    exact contributions_sum cats type_ categoryStats groupID c level
  · rw [if_neg h0]
    have h1 : ownAmount type_ categoryStats c = 0 := by
      by_contra h
      exact h0 (Or.inl h)
    refine ⟨by simp [h1], ?_⟩
    simp only [List.filter_nil, List.nil_append]
    exact contributions_sum cats type_ categoryStats groupID c level

/-! ## The subtree of a category lists the category and its descendants, each once -/

theorem mem_subtree_fuel {cats : List Category} (ht : Category → Nat)
    (hht : ∀ c ∈ cats, ∀ s ∈ sub_category cats c, ht s < ht c) (x : Category) :
    ∀ (n : Nat) (c : Category), c ∈ cats → ht c < n →
      (x ∈ subtree cats n c ↔ Descends cats c x) := by
  intro n
  induction n with
  | zero => intro c _ h; omega
  | succ n ih =>
    intro c hc hn
    simp only [subtree, List.mem_cons, List.mem_flatMap]
    constructor
    · rintro (rfl | ⟨s, hs, hx⟩)
      · exact ⟨0, Path.self x⟩
      · have := hht c hc s hs
        obtain ⟨k, hk⟩ := (ih s (mem_sub_category.1 hs).1 (by omega)).1 hx
        exact ⟨k + 1, Path.cons hs hk⟩
    · rintro ⟨k, hk⟩
      cases k with
      | zero => exact Or.inl hk.zero
      | succ k =>
        obtain ⟨s, hs, hsp⟩ := hk.uncons
        have := hht c hc s hs
        exact Or.inr ⟨s, hs, (ih s (mem_sub_category.1 hs).1 (by omega)).2 ⟨k, hsp⟩⟩

/-- The subtree of a category of a forest consists of the category and its
descendants. -/
theorem mem_subtree {cats : List Category} (hf : Forest cats) {c x : Category}
    (hc : c ∈ cats) : x ∈ subtree cats cats.length c ↔ Descends cats c x := by
  obtain ⟨ht, hlen, hht⟩ := hf.exists_height
  exact mem_subtree_fuel ht hht x _ c hc (hlen c hc)

theorem subtree_nodup_fuel {cats : List Category} (hf : Forest cats) (ht : Category → Nat)
    (hht : ∀ c ∈ cats, ∀ s ∈ sub_category cats c, ht s < ht c) :
    ∀ (n : Nat) (c : Category), c ∈ cats → ht c < n → (subtree cats n c).Nodup := by
  intro n
  induction n with
  | zero => intro c _ h; omega
  | succ n ih =>
    intro c hc hn
    obtain ⟨d, hd⟩ := hf.exists_depth c hc
    have hsub : ∀ s ∈ sub_category cats c, s ∈ cats ∧ ht s < n := by
      intro s hs
      have := hht c hc s hs
      exact ⟨(mem_sub_category.1 hs).1, by omega⟩
    simp only [subtree]
    rw [List.nodup_cons, List.nodup_flatMap]
    refine ⟨?_, ?_, ?_⟩
    · intro hmem
      obtain ⟨s, hs, hcs⟩ := List.mem_flatMap.1 hmem
      obtain ⟨k, hk⟩ := (mem_subtree_fuel ht hht c n s (hsub s hs).1 (hsub s hs).2).1 hcs
      have := hf.path_self hc (Path.cons hs hk)
      omega
    · intro s hs
      exact ih s (hsub s hs).1 (hsub s hs).2
    · apply List.Nodup.pairwise_of_forall_ne (hf.nodup.filter _)
      intro s hs t ht' hne
      show List.Disjoint (subtree cats n s) (subtree cats n t)
      rw [List.disjoint_left]
      intro x hxs hxt
      obtain ⟨j, hj⟩ := (mem_subtree_fuel ht hht x n s (hsub s hs).1 (hsub s hs).2).1 hxs
      obtain ⟨k, hk⟩ := (mem_subtree_fuel ht hht x n t (hsub t ht').1 (hsub t ht').2).1 hxt
      exact hne (hf.ancestor_unique
        (Depth.child hd (mem_sub_category.1 hs).1 (mem_sub_category.1 hs).2)
        (Depth.child hd (mem_sub_category.1 ht').1 (mem_sub_category.1 ht').2) hj hk).1

/-- The subtree of a category of a forest lists no category twice. -/
theorem subtree_nodup {cats : List Category} (hf : Forest cats) {c : Category}
    (hc : c ∈ cats) : (subtree cats cats.length c).Nodup := by
  obtain ⟨ht, hlen, hht⟩ := hf.exists_height
  exact subtree_nodup_fuel hf ht hht _ c hc (hlen c hc)

/-! ## No row occurs twice -/

theorem lineRows_nodup {cats : List Category} (hf : Forest cats) (type_ : TYPE)
    (categoryStats : CategoryStats) (groupID : Int) (c : Category) (level : Nat) :
    (lineRows cats type_ categoryStats groupID c level).Nodup := by
  unfold lineRows
  rw [List.nodup_append]
  refine ⟨?_, ?_, ?_⟩
  · by_cases h0 : ownAmount type_ categoryStats c ≠ 0 ∨
        subcategoriesTotal cats type_ categoryStats c ≠ 0
    · rw [if_pos h0]
      exact List.nodup_singleton _
    · rw [if_neg h0]
      exact List.nodup_nil
  · rw [List.nodup_flatMap]
    refine ⟨?_, ?_⟩
    · intro s _
      by_cases h0 : subtreeTotal cats type_ categoryStats s ≠ 0
      · rw [if_pos h0]
        exact List.nodup_singleton _
      · rw [if_neg h0]
        exact List.nodup_nil
    · apply List.Nodup.pairwise_of_forall_ne (hf.nodup_sub_category c)
      intro s hs t ht hne
      show List.Disjoint
        (if subtreeTotal cats type_ categoryStats s ≠ 0
          then [contributionRow c s (subtreeTotal cats type_ categoryStats s) groupID level]
          else [])
        (if subtreeTotal cats type_ categoryStats t ≠ 0
          then [contributionRow c t (subtreeTotal cats type_ categoryStats t) groupID level]
          else [])
      rw [List.disjoint_left]
      intro r hrs hrt
      by_cases hs0 : subtreeTotal cats type_ categoryStats s ≠ 0
      · by_cases ht0 : subtreeTotal cats type_ categoryStats t ≠ 0
        · rw [if_pos hs0, List.mem_singleton] at hrs
          rw [if_pos ht0, List.mem_singleton] at hrt
          have hid : s.CATEGID = t.CATEGID := by
            have := congrArg data_holder.subCatID (hrs.symm.trans hrt)
            exact this
          exact hne (hf.id_inj (mem_sub_category.1 (mem_stable_sort.1 hs)).1
            (mem_sub_category.1 (mem_stable_sort.1 ht)).1 hid)
        · rw [if_neg ht0] at hrt
          cases hrt
      · rw [if_neg hs0] at hrs
        cases hrs
  · rw [List.disjoint_left]
    intro r hown hcontrib
    by_cases h0 : ownAmount type_ categoryStats c ≠ 0 ∨
        subcategoriesTotal cats type_ categoryStats c ≠ 0
    · rw [if_pos h0, List.mem_singleton] at hown
      obtain ⟨s, hs, hrs⟩ := List.mem_flatMap.1 hcontrib
      by_cases hs0 : subtreeTotal cats type_ categoryStats s ≠ 0
      · rw [if_pos hs0, List.mem_singleton] at hrs
        have hid : s.CATEGID = -1 := by
          have := congrArg data_holder.subCatID (hrs.symm.trans hown)
          exact this
        exact hf.ids_ne s (mem_sub_category.1 (mem_stable_sort.1 hs)).1 hid
      · rw [if_neg hs0] at hrs
        cases hrs
    · rw [if_neg h0] at hown
      cases hown

/-- On a forest no row occurs twice in the report. -/
theorem report_nodup {cats : List Category} (hf : Forest cats) (type_ : TYPE)
    (categoryStats : CategoryStats) : (report cats type_ categoryStats).Nodup := by
  rw [List.nodup_iff_count_le_one]
  intro r
  by_cases hr : r ∈ report cats type_ categoryStats
  · obtain ⟨root, x, k, hroot, hpath, _, hid, _⟩ := report_row_category hf hr
    have hp : (fun r' : data_holder => r'.catID == x.CATEGID) r = true := by
      simp [hid]
    have hcount := List.count_filter (p := fun r' : data_holder => r'.catID == x.CATEGID)
      (a := r) (l := report cats type_ categoryStats) hp
    rw [← hcount, filter_report hf type_ categoryStats hroot hpath]
    exact List.nodup_iff_count_le_one.1
      (lineRows_nodup hf type_ categoryStats root.CATEGID x k) r
  · rw [List.count_eq_zero_of_not_mem hr]
    exact Nat.zero_le 1

/-- In a sequence without repetition two rows occur in one order only. -/
theorem not_sublist_swap {α : Type} {a b : α} :
    ∀ l : List α, l.Nodup → List.Sublist [a, b] l → ¬ List.Sublist [b, a] l
  | [], _, h, _ => by cases h
  | x :: t, hnd, hab, hba => by
    obtain ⟨hx, ht⟩ := List.nodup_cons.1 hnd
    rcases List.sublist_cons_iff.1 hab with hab' | ⟨r, hr, hrt⟩
    · rcases List.sublist_cons_iff.1 hba with hba' | ⟨r', hr', hrt'⟩
      · exact not_sublist_swap t ht hab' hba'
      · obtain ⟨hbx, _⟩ := List.cons.inj hr'
        apply hx
        rw [← hbx]
        exact hab'.subset (List.mem_cons_of_mem _ (List.mem_singleton.2 rfl))
    · obtain ⟨hax, hrb⟩ := List.cons.inj hr
      rcases List.sublist_cons_iff.1 hba with hba' | ⟨r', hr', hrt'⟩
      · apply hx
        rw [← hax]
        exact hba'.subset (List.mem_cons_of_mem _ (List.mem_singleton.2 rfl))
      · obtain ⟨hbx, _⟩ := List.cons.inj hr'
        apply hx
        rw [← hbx]
        subst hrb
        exact hrt.subset (List.mem_singleton.2 rfl)

/-! ## Properties of the sequence `RefreshData` produces -/

/-- C2 (elision, P1).  On a forest, when a category `N` and every descendant of `N` have
a mode-filtered own amount of zero, `RefreshData` returns a sequence with no row whose
`catID` or `subCatID` is the identifier of `N` or of a descendant of `N`.  In particular
the forest of the single root `Gift` with amount `0` yields the empty sequence. -/
theorem elision (cats : List Category) (type_ : TYPE) (categoryStats : CategoryStats)
    (fuel : Nat) (data_ : List data_holder) (hf : Forest cats) (hfuel : cats.length ≤ fuel)
    (N : Category) (hN : N ∈ cats)
    (hzero : ∀ x, Descends cats N x → ownAmount type_ categoryStats x = 0) :
    (∃ out, RefreshData fuel cats type_ data_ categoryStats = some out ∧
      ∀ r ∈ out, ∀ x, Descends cats N x →
        r.catID ≠ x.CATEGID ∧ r.subCatID ≠ x.CATEGID) ∧
    RefreshData 1 [⟨1, "Gift", -1⟩] type_ data_ [(1, [(0, 0)])] = some [] := by
  refine ⟨⟨_, RefreshData_eq hf type_ categoryStats fuel hfuel data_, ?_⟩, ?_⟩
  · intro r hr x hx
    have hxc : x ∈ cats := by
      obtain ⟨k, hk⟩ := hx
      exact hk.mem hN
    have htot : subtreeTotal cats type_ categoryStats x = 0 :=
      subtreeAmount_zero hzero _ x hx
    obtain ⟨root, y, k, _, _, hy, h⟩ := report_row_cases hf hr
    constructor
    · intro hcat
      rcases h with ⟨h, h0⟩ | ⟨s, hs, h0, h⟩
      · have hyx : y = x := hf.id_inj hy hxc (by rw [← hcat, h]; rfl)
        subst hyx
        rcases h0 with h0 | h0
        · exact h0 (hzero y hx)
        · exact h0 (subcategoriesTotal_zero hzero hx)
      · have hyx : y = x := hf.id_inj hy hxc (by rw [← hcat, h]; rfl)
        subst hyx
        obtain ⟨j, hj⟩ := hx
        exact h0 (subtreeAmount_zero hzero _ s
          ⟨j + 1, Path.child hj (mem_sub_category.1 hs).1 (mem_sub_category.1 hs).2⟩)
    · intro hsub
      rcases h with ⟨h, _⟩ | ⟨s, hs, h0, h⟩
      · apply hf.ids_ne x hxc
        rw [← hsub, h]
        rfl
      · have hsx : s = x := hf.id_inj (mem_sub_category.1 hs).1 hxc (by rw [← hsub, h]; rfl)
        subst hsx
        exact h0 htot
  · cases type_ <;> rfl

/-- C8 (determinism, P5).  On a forest there is one sequence that `RefreshData` leaves in
`data_` for every recursion budget that suffices and every initial contents of `data_`: it
depends on the category table, the amount index and the mode only.  Calling `RefreshData`
again on the result of a first call leaves that same sequence, not a doubled one. -/
theorem refresh_deterministic (cats : List Category) (type_ : TYPE)
    (categoryStats : CategoryStats) (hf : Forest cats) :
    ∃ out, (∀ fuel data_, cats.length ≤ fuel →
        RefreshData fuel cats type_ data_ categoryStats = some out) ∧
      ∀ fuel data_, cats.length ≤ fuel →
        (RefreshData fuel cats type_ data_ categoryStats).bind
          (fun d => RefreshData fuel cats type_ d categoryStats) = some out := by
  refine ⟨report cats type_ categoryStats, ?_, ?_⟩
  · intro fuel data_ hfuel
    exact RefreshData_eq hf type_ categoryStats fuel hfuel data_
  · intro fuel data_ hfuel
    rw [RefreshData_eq hf type_ categoryStats fuel hfuel data_]
    exact RefreshData_eq hf type_ categoryStats fuel hfuel _

/-- C9 (groupId).  On a forest, every row of the sequence `RefreshData` returns, own or
contribution row at any depth, has as `categs` the identifier of the top-level ancestor of
the category with the row's `catID` (the category itself when it is top-level); that
ancestor is unique. -/
theorem groupId_is_top_level_ancestor (cats : List Category) (type_ : TYPE)
    (categoryStats : CategoryStats) (fuel : Nat) (data_ : List data_holder)
    (hf : Forest cats) (hfuel : cats.length ≤ fuel) :
    ∃ out, RefreshData fuel cats type_ data_ categoryStats = some out ∧
      ∀ r ∈ out, ∃ c root k, c ∈ cats ∧ c.CATEGID = r.catID ∧ TopLevel cats root ∧
        Path cats root c k ∧ r.categs = root.CATEGID ∧
        ∀ root' k', TopLevel cats root' → Path cats root' c k' → root' = root := by
  refine ⟨_, RefreshData_eq hf type_ categoryStats fuel hfuel data_, ?_⟩
  intro r hr
  obtain ⟨root, x, k, hroot, hpath, hx, h⟩ := report_row_cases hf hr
  refine ⟨x, root, k, hx, ?_, hroot, hpath, ?_, ?_⟩
  · rcases h with ⟨h, _⟩ | ⟨s, _, _, h⟩ <;> rw [h] <;> rfl
  · rcases h with ⟨h, _⟩ | ⟨s, _, _, h⟩ <;> rw [h] <;> rfl
  · intro root' k' hroot' hpath'
    exact (hf.ancestor_unique (Depth.top hroot') (Depth.top hroot) hpath' hpath).1

/-- C10 (level).  On a forest, every row of the sequence `RefreshData` returns has as
`level` the depth of the category with the row's `catID` (`0` for a top-level category,
the depth of the parent plus one otherwise); for a contribution row that is the depth of
the parent the row is attributed to, one less than the depth of the subcategory. -/
theorem level_is_depth (cats : List Category) (type_ : TYPE)
    (categoryStats : CategoryStats) (fuel : Nat) (data_ : List data_holder)
    (hf : Forest cats) (hfuel : cats.length ≤ fuel) :
    ∃ out, RefreshData fuel cats type_ data_ categoryStats = some out ∧
      ∀ r ∈ out,
        (∃ c ∈ cats, c.CATEGID = r.catID ∧ Depth cats c r.level) ∧
        (r.subCatID ≠ -1 → ∃ s ∈ cats, s.CATEGID = r.subCatID ∧
          Depth cats s (r.level + 1)) := by
  refine ⟨_, RefreshData_eq hf type_ categoryStats fuel hfuel data_, ?_⟩
  intro r hr
  obtain ⟨root, x, k, hroot, hpath, hx, h⟩ := report_row_cases hf hr
  have hd : Depth cats x k := Depth.of_root hroot hpath
  rcases h with ⟨h, _⟩ | ⟨s, hs, _, h⟩
  · subst h
    exact ⟨⟨x, hx, rfl, hd⟩, fun hne => absurd rfl hne⟩
  · subst h
    exact ⟨⟨x, hx, rfl, hd⟩, fun _ => ⟨s, (mem_sub_category.1 hs).1, rfl,
      Depth.child hd (mem_sub_category.1 hs).1 (mem_sub_category.1 hs).2⟩⟩

/-- C6 (sibling ordering, P3), as the code has it.  On a forest, for two sibling
categories `A` and `B` (subcategories of the same parent, or both top-level) whose own
rows are both in the sequence `RefreshData` returns: when the name of `A` is greater than
the name of `B`, the own row of `B` appears before the own row of `A` (and not after
it).  Siblings appear in ascending name order, at every depth. -/
theorem sibling_order_ascending (cats : List Category) (type_ : TYPE)
    (categoryStats : CategoryStats) (fuel : Nat) (data_ : List data_holder)
    (hf : Forest cats) (hfuel : cats.length ≤ fuel)
    (A B : Category) (hA : A ∈ cats) (hB : B ∈ cats) (hsib : A.PARENTID = B.PARENTID)
    (hname : B.CATEGNAME < A.CATEGNAME) :
    ∃ out, RefreshData fuel cats type_ data_ categoryStats = some out ∧
      ∀ ra ∈ out, ∀ rb ∈ out, ra.catID = A.CATEGID → ra.subCatID = -1 →
        rb.catID = B.CATEGID → rb.subCatID = -1 →
        appearsBefore rb ra out ∧ ¬ appearsBefore ra rb out := by
  refine ⟨_, RefreshData_eq hf type_ categoryStats fuel hfuel data_, ?_⟩
  intro ra hra rb hrb hacat hasub hbcat hbsub
  obtain ⟨ht, hlen, hht⟩ := hf.exists_height
  unfold appearsBefore
  refine (fun h => ⟨h, not_sublist_swap _ (report_nodup hf type_ categoryStats) h⟩) ?_
  rcases hf.parent_mem A hA with htop | ⟨P, hP, hPA⟩
  · have hAtop : TopLevel cats A := ⟨hA, htop⟩
    have hBtop : TopLevel cats B := ⟨hB, hsib ▸ htop⟩
    have h1 := own_row_mem_rowsOf hf hA hra hacat hasub hAtop (Path.self A)
    have h2 := own_row_mem_rowsOf hf hB hrb hbcat hbsub hBtop (Path.self B)
    rw [rowsOf_fuel type_ categoryStats A.CATEGID ht hht _ (cats.length + 1) A 0 hA
      (hlen A hA) (by have := hlen A hA; omega)] at h1
    rw [rowsOf_fuel type_ categoryStats B.CATEGID ht hht _ (cats.length + 1) B 0 hB
      (hlen B hB) (by have := hlen B hB; omega)] at h2
    obtain ⟨S₁, S₂, S₃, hS⟩ := stable_sort_split (l := find_PARENTID cats (-1))
      (mem_find_PARENTID.2 hAtop) (mem_find_PARENTID.2 hBtop) hname
    unfold report
    rw [hS]
    exact pair_sublist_flatMap
      (fun c => rowsOf cats type_ categoryStats c.CATEGID (cats.length + 1) c 0)
      S₁ S₂ S₃ h2 h1
  · obtain ⟨root, k, hroot, hpath⟩ := hf.exists_root hP
    have hAsub : A ∈ sub_category cats P := mem_sub_category.2 ⟨hA, hPA.symm⟩
    have hBsub : B ∈ sub_category cats P := mem_sub_category.2 ⟨hB, hsib ▸ hPA.symm⟩
    have h1 := own_row_mem_rowsOf hf hA hra hacat hasub hroot
      (Path.child hpath hA hPA.symm)
    have h2 := own_row_mem_rowsOf hf hB hrb hbcat hbsub hroot
      (Path.child hpath hB (hsib ▸ hPA.symm))
    obtain ⟨S₁, S₂, S₃, hS⟩ := stable_sort_split (l := sub_category cats P) hAsub hBsub hname
    have hblock : List.Sublist [rb, ra]
        (rowsOf cats type_ categoryStats root.CATEGID (cats.length + 1) P k) := by
      rw [rowsOf_succ type_ categoryStats root.CATEGID ht hlen hht _ P k hP
        (by have := hlen P hP; omega), hS]
      exact (pair_sublist_flatMap
        (fun s => (if subtreeTotal cats type_ categoryStats s ≠ 0
          then [contributionRow P s (subtreeTotal cats type_ categoryStats s)
            root.CATEGID k]
          else []) ++ rowsOf cats type_ categoryStats root.CATEGID cats.length s (k + 1))
        S₁ S₂ S₃ (List.mem_append_right _ h2) (List.mem_append_right _ h1)).trans
        (List.sublist_append_right _ _)
    rw [← rowsOf_fuel type_ categoryStats root.CATEGID ht hht cats.length _ P k hP
      (hlen P hP) (by have := hlen P hP; omega)] at hblock
    have hnest := rowsOf_sublist type_ categoryStats root.CATEGID ht hlen hht
      cats.length root 0 P k hroot.1 (hlen root hroot.1) hpath
    rw [Nat.zero_add] at hnest
    exact (hblock.trans hnest).trans (rowsOf_root_sublist_report hf type_ categoryStats hroot)

/-- C1 (conservation, P2).  On a forest, for every top-level category `R`, in the
sequence `RefreshData` returns the amount of the own row of `R` (`0` when there is no
such row) plus the sum of the amounts of the contribution rows attributed to `R`
(`catID = R`, `subCatID ≠ -1`) is the sum of the mode-filtered own amounts of `R` and of
all its descendants. -/
theorem conservation (cats : List Category) (type_ : TYPE)
    (categoryStats : CategoryStats) (fuel : Nat) (data_ : List data_holder)
    (hf : Forest cats) (hfuel : cats.length ≤ fuel)
    (R : Category) (hR : TopLevel cats R) :
    ∃ out, RefreshData fuel cats type_ data_ categoryStats = some out ∧
      ownRowAmount R.CATEGID out + contributionsSum R.CATEGID out =
        flatTotal cats type_ categoryStats R := by
  refine ⟨_, RefreshData_eq hf type_ categoryStats fuel hfuel data_, ?_⟩
  have hfilter := filter_report hf type_ categoryStats hR (Path.self R)
  obtain ⟨h1, h2⟩ := lineRows_amounts hf type_ categoryStats R.CATEGID R 0
  unfold ownRowAmount contributionsSum
  rw [find?_and (fun r : data_holder => r.catID == R.CATEGID)
      (fun r : data_holder => r.subCatID == -1),
    filter_and (fun r : data_holder => r.catID == R.CATEGID)
      (fun r : data_holder => r.subCatID != -1),
    hfilter, h1, h2, ← subtreeTotal_eq hf type_ categoryStats R hR.1]
  exact subtreeAmount_eq_sum cats type_ categoryStats _ R

/-! ## The worked example -/

/-- C7 (worked example), as the code has it.  For `Food` with the subcategories
`Groceries` and `Dining` and the amounts `Food = -10`, `Groceries = -50`, `Dining = -20`,
in a pass-through mode, `RefreshData` returns the sequence that lists the own row of
`Food` (`-10`) first, then the rows for `Dining` (`-20`), then the rows for `Groceries`
(`-50`); the subtree total of `Food` is `-80`. -/
theorem worked_example (n : Nat) (data_ : List data_holder) :
    RefreshData (n + 3) foodTable TYPE.SUMMARY data_ foodStats =
      some [⟨1, -1, "Food", -10, 1, 0⟩,
        ⟨1, 3, "Food", -20, 1, 0⟩, ⟨3, -1, "Dining", -20, 1, 1⟩,
        ⟨1, 2, "Food", -50, 1, 0⟩, ⟨2, -1, "Groceries", -50, 1, 1⟩] ∧
    RefreshData (n + 3) foodTable TYPE.MONTHLY data_ foodStats =
      RefreshData (n + 3) foodTable TYPE.SUMMARY data_ foodStats ∧
    subtreeTotal foodTable TYPE.SUMMARY foodStats food = -80 := by
  have hf : Forest foodTable :=
    ⟨by decide, by decide, by decide, ⟨fun i => if i = 1 then 1 else 0, by decide⟩⟩
  have hlen : foodTable.length ≤ n + 3 := Nat.le_add_left 3 n
  rw [RefreshData_eq hf TYPE.MONTHLY foodStats (n + 3) hlen data_,
    RefreshData_eq hf TYPE.SUMMARY foodStats (n + 3) hlen data_]
  exact ⟨by decide, by decide, by decide⟩

/-- C7 as stated does not hold: in the sequence `RefreshData` returns for the worked
example the own row of `Food` is the first row; it is not the last row and does not
come after the rows of `Groceries`. -/
theorem worked_example_food_row_not_last :
    ¬ ∃ out, RefreshData 3 foodTable TYPE.SUMMARY [] foodStats = some out ∧
      appearsBefore ⟨3, -1, "Dining", -20, 1, 1⟩ ⟨2, -1, "Groceries", -50, 1, 1⟩ out ∧
      appearsBefore ⟨2, -1, "Groceries", -50, 1, 1⟩ ⟨1, -1, "Food", -10, 1, 0⟩ out ∧
      out.getLast? = some ⟨1, -1, "Food", -10, 1, 0⟩ := by
  rintro ⟨out, hout, _, hbefore, _⟩
  have heval : RefreshData 3 foodTable TYPE.SUMMARY [] foodStats =
      some [⟨1, -1, "Food", -10, 1, 0⟩,
        ⟨1, 3, "Food", -20, 1, 0⟩, ⟨3, -1, "Dining", -20, 1, 1⟩,
        ⟨1, 2, "Food", -50, 1, 0⟩, ⟨2, -1, "Groceries", -50, 1, 1⟩] := by decide
  rw [heval] at hout
  cases hout
  revert hbefore
  decide

/-- C6 as stated does not hold: in the worked example `Groceries` and `Dining` are
siblings whose own rows are both in the sequence `RefreshData` returns, the name of
`Groceries` is the greater one, and the own row of `Groceries` does not appear before
the own row of `Dining`. -/
theorem sibling_order_descending_fails :
    ∃ out, RefreshData 3 foodTable TYPE.SUMMARY [] foodStats = some out ∧
      groceries ∈ foodTable ∧ dining ∈ foodTable ∧
      groceries.PARENTID = dining.PARENTID ∧
      groceries.CATEGNAME > dining.CATEGNAME ∧
      (⟨2, -1, "Groceries", -50, 1, 1⟩ : data_holder) ∈ out ∧
      (⟨3, -1, "Dining", -20, 1, 1⟩ : data_holder) ∈ out ∧
      ¬ appearsBefore ⟨2, -1, "Groceries", -50, 1, 1⟩ ⟨3, -1, "Dining", -20, 1, 1⟩ out :=
  ⟨[⟨1, -1, "Food", -10, 1, 0⟩,
      ⟨1, 3, "Food", -20, 1, 0⟩, ⟨3, -1, "Dining", -20, 1, 1⟩,
      ⟨1, 2, "Food", -50, 1, 0⟩, ⟨2, -1, "Groceries", -50, 1, 1⟩],
    by decide, by decide, by decide, rfl, String.lt_iff_toList_lt.2 (by decide),
    by decide, by decide, by decide⟩

/-! ## The theorems at the worked example -/

/-- Conservation at the worked example, for the top-level category `Food`. -/
theorem conservation_witness :
    Forest foodTable ∧ foodTable.length ≤ 3 ∧ TopLevel foodTable food ∧
    ∃ out, RefreshData 3 foodTable TYPE.SUMMARY [] foodStats = some out ∧
      ownRowAmount food.CATEGID out + contributionsSum food.CATEGID out =
        flatTotal foodTable TYPE.SUMMARY foodStats food :=
  ⟨⟨by decide, by decide, by decide, ⟨fun i => if i = 1 then 1 else 0, by decide⟩⟩, by decide, ⟨by decide, rfl⟩,
    conservation foodTable TYPE.SUMMARY foodStats 3 [] ⟨by decide, by decide, by decide, ⟨fun i => if i = 1 then 1 else 0, by decide⟩⟩
      (by decide) food ⟨by decide, rfl⟩⟩

/-- Elision at the worked example in the mode `COME`, in which every amount is filtered to zero. -/
theorem elision_witness :
    Forest foodTable ∧ foodTable.length ≤ 3 ∧ food ∈ foodTable ∧
    (∀ x, Descends foodTable food x → ownAmount TYPE.COME foodStats x = 0) ∧
    (∃ out, RefreshData 3 foodTable TYPE.COME [] foodStats = some out ∧
      ∀ r ∈ out, ∀ x, Descends foodTable food x →
        r.catID ≠ x.CATEGID ∧ r.subCatID ≠ x.CATEGID) ∧
    RefreshData 1 [⟨1, "Gift", -1⟩] TYPE.COME [] [(1, [(0, 0)])] = some [] :=
  have hzero : ∀ x, Descends foodTable food x → ownAmount TYPE.COME foodStats x = 0 :=
    fun x hx => by
      obtain ⟨k, hk⟩ := hx
      have hall : ∀ y ∈ foodTable, ownAmount TYPE.COME foodStats y = 0 := by decide
      exact hall x (hk.mem (by decide))
  ⟨⟨by decide, by decide, by decide, ⟨fun i => if i = 1 then 1 else 0, by decide⟩⟩, by decide, by decide, hzero,
    elision foodTable TYPE.COME foodStats 3 [] ⟨by decide, by decide, by decide, ⟨fun i => if i = 1 then 1 else 0, by decide⟩⟩ (by decide) food (by decide) hzero⟩

/-- The order of the siblings `Dining` and `Groceries` of the worked example. -/
theorem sibling_order_ascending_witness :
    Forest foodTable ∧ foodTable.length ≤ 3 ∧ groceries ∈ foodTable ∧ dining ∈ foodTable ∧
    groceries.PARENTID = dining.PARENTID ∧ dining.CATEGNAME < groceries.CATEGNAME ∧
    ∃ out, RefreshData 3 foodTable TYPE.SUMMARY [] foodStats = some out ∧
      ∀ ra ∈ out, ∀ rb ∈ out, ra.catID = groceries.CATEGID → ra.subCatID = -1 →
        rb.catID = dining.CATEGID → rb.subCatID = -1 →
        appearsBefore rb ra out ∧ ¬ appearsBefore ra rb out :=
  ⟨⟨by decide, by decide, by decide, ⟨fun i => if i = 1 then 1 else 0, by decide⟩⟩, by decide, by decide, by decide, rfl, String.lt_iff_toList_lt.2 (by decide),
    sibling_order_ascending foodTable TYPE.SUMMARY foodStats 3 [] ⟨by decide, by decide, by decide, ⟨fun i => if i = 1 then 1 else 0, by decide⟩⟩ (by decide)
      groceries dining (by decide) (by decide) rfl (String.lt_iff_toList_lt.2 (by decide))⟩

/-- Determinism at the worked example. -/
theorem refresh_deterministic_witness :
    Forest foodTable ∧
    ∃ out, (∀ fuel data_, foodTable.length ≤ fuel →
        RefreshData fuel foodTable TYPE.SUMMARY data_ foodStats = some out) ∧
      ∀ fuel data_, foodTable.length ≤ fuel →
        (RefreshData fuel foodTable TYPE.SUMMARY data_ foodStats).bind
          (fun d => RefreshData fuel foodTable TYPE.SUMMARY d foodStats) = some out :=
  ⟨⟨by decide, by decide, by decide, ⟨fun i => if i = 1 then 1 else 0, by decide⟩⟩, refresh_deterministic foodTable TYPE.SUMMARY foodStats ⟨by decide, by decide, by decide, ⟨fun i => if i = 1 then 1 else 0, by decide⟩⟩⟩

/-- The group of the rows of the worked example. -/
theorem groupId_is_top_level_ancestor_witness :
    Forest foodTable ∧ foodTable.length ≤ 3 ∧
    ∃ out, RefreshData 3 foodTable TYPE.SUMMARY [] foodStats = some out ∧
      ∀ r ∈ out, ∃ c root k, c ∈ foodTable ∧ c.CATEGID = r.catID ∧
        TopLevel foodTable root ∧ Path foodTable root c k ∧ r.categs = root.CATEGID ∧
        ∀ root' k', TopLevel foodTable root' → Path foodTable root' c k' → root' = root :=
  ⟨⟨by decide, by decide, by decide, ⟨fun i => if i = 1 then 1 else 0, by decide⟩⟩, by decide,
    groupId_is_top_level_ancestor foodTable TYPE.SUMMARY foodStats 3 [] ⟨by decide, by decide, by decide, ⟨fun i => if i = 1 then 1 else 0, by decide⟩⟩ (by decide)⟩

/-- The level of the rows of the worked example. -/
theorem level_is_depth_witness :
    Forest foodTable ∧ foodTable.length ≤ 3 ∧
    ∃ out, RefreshData 3 foodTable TYPE.SUMMARY [] foodStats = some out ∧
      ∀ r ∈ out,
        (∃ c ∈ foodTable, c.CATEGID = r.catID ∧ Depth foodTable c r.level) ∧
        (r.subCatID ≠ -1 → ∃ s ∈ foodTable, s.CATEGID = r.subCatID ∧
          Depth foodTable s (r.level + 1)) :=
  ⟨⟨by decide, by decide, by decide, ⟨fun i => if i = 1 then 1 else 0, by decide⟩⟩, by decide,
    level_is_depth foodTable TYPE.SUMMARY foodStats 3 [] ⟨by decide, by decide, by decide, ⟨fun i => if i = 1 then 1 else 0, by decide⟩⟩ (by decide)⟩

/-! ## The value `AppendData` returns, and termination -/

/-- In a pass-through mode the own amount of a category is the value stored in the
amount index. -/
theorem ownAmount_pass_through {type_ : TYPE} (categoryStats : CategoryStats)
    (c : Category) (hgoes : type_ ≠ TYPE.GOES) (hcome : type_ ≠ TYPE.COME) :
    ownAmount type_ categoryStats c = statAt categoryStats c.CATEGID 0 := by
  unfold ownAmount
  simp [hgoes, hcome]

/-- On a table whose only category is its own parent, `AppendData` exhausts every
recursion budget: the source does not terminate there. -/
theorem AppendData_loopTable (type_ : TYPE) (categoryStats : CategoryStats)
    (groupID : Int) :
    ∀ (fuel : Nat) (data_ : List data_holder) (level : Nat),
      AppendData fuel loopTable type_ data_ categoryStats ⟨1, "Loop", 1⟩ groupID level = none
  | 0, _, _ => rfl
  | fuel + 1, data_, level => by
    have hsub : (stable_sort SorterByCATEGNAME
        (sub_category loopTable ⟨1, "Loop", 1⟩)).reverse = [⟨1, "Loop", 1⟩] := by decide
    rw [AppendData]
    simp only [hsub, appendLoop,
      AppendData_loopTable type_ categoryStats groupID fuel data_ (level + 1)]

/-- C11 (subtree amount).  On a forest, for every category `N`, `AppendData` returns,
and the value it returns is the sum of the mode-filtered own amounts over the subtree of
`N`, which lists `N` and every descendant of `N` once; the recursive definition (own
amount plus the subtree amounts of the subcategories) gives that same sum. -/
theorem subtree_amount_returned (cats : List Category) (type_ : TYPE)
    (categoryStats : CategoryStats) (fuel : Nat) (data_ : List data_holder)
    (groupID : Int) (level : Nat) (hf : Forest cats) (hfuel : cats.length ≤ fuel)
    (N : Category) (hN : N ∈ cats) :
    (∃ out, AppendData fuel cats type_ data_ categoryStats N groupID level =
      some (flatTotal cats type_ categoryStats N, out)) ∧
    (∀ x, x ∈ subtree cats cats.length N ↔ Descends cats N x) ∧
    (subtree cats cats.length N).Nodup ∧
    ownAmount type_ categoryStats N + subcategoriesTotal cats type_ categoryStats N =
      flatTotal cats type_ categoryStats N := by
  obtain ⟨ht, hlen, hht⟩ := hf.exists_height
  have hflat : subtreeTotal cats type_ categoryStats N =
      flatTotal cats type_ categoryStats N :=
    subtreeAmount_eq_sum cats type_ categoryStats _ N
  refine ⟨⟨rowsOf cats type_ categoryStats groupID fuel N level ++ data_, ?_⟩,
    fun x => mem_subtree hf hN, subtree_nodup hf hN, ?_⟩
  · rw [AppendData_eq type_ categoryStats groupID ht hht fuel N level data_ hN
      (lt_of_lt_of_le (hlen N hN) hfuel),
      subtreeAmount_eq_subtreeTotal type_ categoryStats ht hlen hht fuel N hN
        (lt_of_lt_of_le (hlen N hN) hfuel), hflat]
  · rw [← subtreeTotal_eq hf type_ categoryStats N hN, hflat]

/-- C13 (mode Both passes values through).  On a forest, in a mode that is neither `GOES`
nor `COME`, every own row (`subCatID = -1`) of the sequence `RefreshData` returns has as
amount the value stored in the amount index for its `catID`. -/
theorem both_mode_passes_values (cats : List Category) (type_ : TYPE)
    (categoryStats : CategoryStats) (fuel : Nat) (data_ : List data_holder)
    (hf : Forest cats) (hfuel : cats.length ≤ fuel)
    (hgoes : type_ ≠ TYPE.GOES) (hcome : type_ ≠ TYPE.COME) :
    ∃ out, RefreshData fuel cats type_ data_ categoryStats = some out ∧
      ∀ r ∈ out, r.subCatID = -1 → r.amount = statAt categoryStats r.catID 0 := by
  refine ⟨_, RefreshData_eq hf type_ categoryStats fuel hfuel data_, ?_⟩
  intro r hr hsub
  obtain ⟨root, x, k, _, _, _, h⟩ := report_row_cases hf hr
  rcases h with ⟨h, _⟩ | ⟨s, hs, _, h⟩
  · rw [h]
    exact ownAmount_pass_through categoryStats x hgoes hcome
  · exfalso
    apply hf.ids_ne s (mem_sub_category.1 hs).1
    rw [← hsub, h]
    rfl

/-- C16 (termination on well-formed input).  On a forest the recursion of `AppendData`
is well-founded: a height below the number of categories decreases at every recursive
call, so that with a recursion budget of at least the number of categories `AppendData`
returns for every category and `RefreshData` returns. -/
theorem terminates_on_forest (cats : List Category) (hf : Forest cats) :
    (∃ ht : Category → Nat, (∀ c ∈ cats, ht c < cats.length) ∧
      ∀ c ∈ cats, ∀ s ∈ sub_category cats c, ht s < ht c) ∧
    ∀ (fuel : Nat) (type_ : TYPE) (categoryStats : CategoryStats)
      (data_ : List data_holder), cats.length ≤ fuel →
      (∃ out, RefreshData fuel cats type_ data_ categoryStats = some out) ∧
      ∀ c ∈ cats, ∀ (groupID : Int) (level : Nat),
        ∃ r, AppendData fuel cats type_ data_ categoryStats c groupID level = some r := by
  obtain ⟨ht, hlen, hht⟩ := hf.exists_height
  refine ⟨⟨ht, hlen, hht⟩, ?_⟩
  intro fuel type_ categoryStats data_ hfuel
  refine ⟨⟨_, RefreshData_eq hf type_ categoryStats fuel hfuel data_⟩, ?_⟩
  intro c hc groupID level
  exact ⟨_, AppendData_eq type_ categoryStats groupID ht hht fuel c level data_ hc
    (lt_of_lt_of_le (hlen c hc) hfuel)⟩

/-! ## The order in which siblings are visited -/

/-- C20 (sibling iteration order).  For every list of sibling categories, the order in
which `RefreshData` and `AppendData` visit them (stable sort by name, then reverse) is a
permutation of the list, is non-increasing by name, and has the siblings of any one name
in the reverse of their order in the list. -/
theorem sibling_iteration_order (l : List Category) :
    ((stable_sort SorterByCATEGNAME l).reverse).Perm l ∧
    ((stable_sort SorterByCATEGNAME l).reverse).Pairwise
      (fun a b => b.CATEGNAME ≤ a.CATEGNAME) ∧
    ∀ name : String,
      ((stable_sort SorterByCATEGNAME l).reverse).filter (fun c => c.CATEGNAME == name) =
        (l.filter (fun c => c.CATEGNAME == name)).reverse := by
  refine ⟨(List.reverse_perm _).trans (stable_sort_perm l),
    List.pairwise_reverse.2 (stable_sort_sorted l), ?_⟩
  intro name
  rw [List.filter_reverse]
  congr 1
  have hpair : (l.filter (fun c => c.CATEGNAME == name)).Pairwise
      (fun a b => SorterByCATEGNAME b a = false) := by
    rw [List.pairwise_iff_forall_sublist]
    intro a b hab
    have ha : a ∈ l.filter (fun c => c.CATEGNAME == name) :=
      hab.subset (List.mem_cons_self _ _)
    have hb : b ∈ l.filter (fun c => c.CATEGNAME == name) :=
      hab.subset (List.mem_cons_of_mem _ (List.mem_singleton.2 rfl))
    have ha' : a.CATEGNAME = name := by simpa using (List.mem_filter.1 ha).2
    have hb' : b.CATEGNAME = name := by simpa using (List.mem_filter.1 hb).2
    rw [SorterByCATEGNAME_false_iff, ha', hb']
  have hsub : List.Sublist (l.filter (fun c => c.CATEGNAME == name))
      (stable_sort SorterByCATEGNAME l) :=
    List.sublist_insertionSort hpair (List.filter_sublist l)
  have hsub' := hsub.filter (fun c => c.CATEGNAME == name)
  rw [List.filter_filter] at hsub'
  simp only [Bool.and_self] at hsub'
  exact (hsub'.eq_of_length
    ((stable_sort_perm l).filter (fun c => c.CATEGNAME == name)).length_eq.symm).symm

/-! ## The names of tags -/

theorem Find_ne_wxNOT_FOUND (s : String) (ch : Char) :
    Find s ch ≠ wxNOT_FOUND ↔ ch ∈ s.data := by
  unfold Find wxNOT_FOUND
  by_cases h : s.data.indexOf ch < s.data.length
  · rw [if_pos h]
    constructor
    · intro _
      exact List.indexOf_lt_length.1 h
    · intro _
      have : (0 : Int) ≤ (s.data.indexOf ch : Int) := Int.ofNat_nonneg _
      omega
  · rw [if_neg h]
    constructor
    · intro hne
      exact absurd rfl hne
    · intro hmem
      exact absurd (List.indexOf_lt_length.2 hmem) h

/-- C17 (tag name validation).  For every string, `validateName` returns `true` exactly
when the string has no space character and is neither `"&"` nor `"|"`; a name that has
`&` or `|` among other characters is accepted. -/
theorem validateName_iff (name : String) :
    (validateName name = true ↔ (' ' ∉ name.data ∧ name ≠ "&" ∧ name ≠ "|")) ∧
    validateName "R&D" = true ∧ validateName "a|b" = true ∧ validateName "&|" = true ∧
    validateName "&" = false ∧ validateName "|" = false ∧
    validateName "to do" = false := by
  refine ⟨?_, by decide, by decide, by decide, by decide, by decide, by decide⟩
  unfold validateName
  by_cases hsp : Find name ' ' ≠ wxNOT_FOUND
  · rw [if_pos hsp]
    have := (Find_ne_wxNOT_FOUND name ' ').1 hsp
    simp [this]
  · rw [if_neg hsp]
    have hno : ' ' ∉ name.data := fun h => hsp ((Find_ne_wxNOT_FOUND name ' ').2 h)
    by_cases hop : name = "&" ∨ name = "|"
    · rw [if_pos hop]
      simp only [Bool.false_eq_true, false_iff, not_and, not_not]
      intro _ h1
      exact hop.resolve_left h1
    · rw [if_neg hop]
      simp only [true_iff]
      exact ⟨hno, fun h => hop (Or.inl h), fun h => hop (Or.inr h)⟩

/-! ## Amounts that are absent from the index -/

theorem statAt_insert_absent (X : Int) :
    ∀ (s₁ s₂ : CategoryStats), (s₁ ++ s₂).lookup X = none → ∀ id : Int,
      statAt (s₁ ++ (X, [(0, 0)]) :: s₂) id 0 = statAt (s₁ ++ s₂) id 0
  | [], s₂, h, id => by
    simp only [List.nil_append] at h ⊢
    unfold statAt
    by_cases hid : id = X
    · subst hid
      simp [List.lookup_cons, h, List.lookup]
    · have hne : (id == X) = false := by simpa using hid
      simp [List.lookup_cons, hne]
  | (k, v) :: s₁, s₂, h, id => by
    have hXk : (X == k) = false := by
      by_contra hc
      have hc' : (X == k) = true := by simpa using hc
      simp [List.lookup_cons, hc'] at h
    have h' : (s₁ ++ s₂).lookup X = none := by
      simpa [List.lookup_cons, hXk] using h
    have ih := statAt_insert_absent X s₁ s₂ h' id
    unfold statAt at ih ⊢
    by_cases hid : (id == k) = true
    · simp [List.lookup_cons, hid]
    · have hid' : (id == k) = false := by simpa using hid
      simpa [List.lookup_cons, hid'] using ih

/-- `AppendData` reads the amount index through the own amounts only. -/
theorem AppendData_congr (cats : List Category) (type_ : TYPE)
    (s₁ s₂ : CategoryStats) (h : ∀ c, ownAmount type_ s₁ c = ownAmount type_ s₂ c) :
    ∀ (fuel : Nat) (data_ : List data_holder) (c : Category) (groupID : Int) (level : Nat),
      AppendData fuel cats type_ data_ s₁ c groupID level =
        AppendData fuel cats type_ data_ s₂ c groupID level
  | 0, _, _, _, _ => rfl
  | fuel + 1, data_, c, groupID, level => by
    have hcall : (fun d subcategory =>
          AppendData fuel cats type_ d s₁ subcategory groupID (level + 1)) =
        (fun d subcategory =>
          AppendData fuel cats type_ d s₂ subcategory groupID (level + 1)) := by
      funext d subcategory
      exact AppendData_congr cats type_ s₁ s₂ h fuel d subcategory groupID (level + 1)
    rw [AppendData, AppendData, hcall, h c]

theorem refreshSubLoop_congr (fuel : Nat) (cats : List Category) (type_ : TYPE)
    (s₁ s₂ : CategoryStats) (h : ∀ c, ownAmount type_ s₁ c = ownAmount type_ s₂ c)
    (category : Category) :
    ∀ (l : List Category) (st : Int × List data_holder),
      refreshSubLoop fuel cats type_ s₁ category l st =
        refreshSubLoop fuel cats type_ s₂ category l st
  | [], _ => rfl
  | sub :: rest, (subamount, data_) => by
    simp only [refreshSubLoop,
      AppendData_congr cats type_ s₁ s₂ h fuel data_ sub category.CATEGID 1]
    cases AppendData fuel cats type_ data_ s₂ sub category.CATEGID 1 with
    | none => rfl
    | some r =>
      obtain ⟨amount, d⟩ := r
      exact refreshSubLoop_congr fuel cats type_ s₁ s₂ h category rest _

theorem refreshLoop_congr (fuel : Nat) (cats : List Category) (type_ : TYPE)
    (s₁ s₂ : CategoryStats) (h : ∀ c, ownAmount type_ s₁ c = ownAmount type_ s₂ c) :
    ∀ (l : List Category) (data_ : List data_holder),
      refreshLoop fuel cats type_ s₁ l data_ = refreshLoop fuel cats type_ s₂ l data_
  | [], _ => rfl
  | c :: rest, data_ => by
    simp only [refreshLoop, refreshSubLoop_congr fuel cats type_ s₁ s₂ h c, h c]
    cases refreshSubLoop fuel cats type_ s₂ c
        (stable_sort SorterByCATEGNAME (sub_category cats c)).reverse (0, data_) with
    | none => rfl
    | some r =>
      obtain ⟨subamount, d⟩ := r
      exact refreshLoop_congr fuel cats type_ s₁ s₂ h rest _

/-- C14 (absent amounts default to zero).  When the amount index has no entry for the
identifier `X`, `RefreshData` gives the same result with the index as it is and with the
index extended, at any place, by the entry `X -> 0`; on a forest that result is a
sequence: the roll-up has no error result. -/
theorem absent_amount_is_zero (cats : List Category) (type_ : TYPE)
    (s₁ s₂ : CategoryStats) (fuel : Nat) (data_ : List data_holder) (X : Int)
    (hX : (s₁ ++ s₂).lookup X = none) :
    RefreshData fuel cats type_ data_ (s₁ ++ (X, [(0, 0)]) :: s₂) =
      RefreshData fuel cats type_ data_ (s₁ ++ s₂) ∧
    (Forest cats → cats.length ≤ fuel →
      ∃ out, RefreshData fuel cats type_ data_ (s₁ ++ s₂) = some out ∧
        RefreshData fuel cats type_ data_ (s₁ ++ (X, [(0, 0)]) :: s₂) = some out) := by
  have hown : ∀ c, ownAmount type_ (s₁ ++ (X, [(0, 0)]) :: s₂) c =
      ownAmount type_ (s₁ ++ s₂) c := by
    intro c
    unfold ownAmount
    rw [statAt_insert_absent X s₁ s₂ hX c.CATEGID]
  have heq : RefreshData fuel cats type_ data_ (s₁ ++ (X, [(0, 0)]) :: s₂) =
      RefreshData fuel cats type_ data_ (s₁ ++ s₂) := by
    unfold RefreshData
    exact refreshLoop_congr fuel cats type_ _ _ hown _ _
  refine ⟨heq, fun hf hfuel => ⟨_, RefreshData_eq hf type_ (s₁ ++ s₂) fuel hfuel data_, ?_⟩⟩
  rw [heq]
  exact RefreshData_eq hf type_ (s₁ ++ s₂) fuel hfuel data_

/-! ## Inserting at the front and adding at the back -/

theorem appendLoopBack_eq
    (call callBack : List data_holder → Category → Option (Int × List data_holder))
    (hcall : ∀ d s, callBack d.reverse s = (call d s).map reverseRows)
    (category : Category) (groupID : Int) (level : Nat) :
    ∀ (l : List Category) (subamount : Int) (data_ : List data_holder),
      appendLoopBack callBack category groupID level l (subamount, data_.reverse) =
        (appendLoop call category groupID level l (subamount, data_)).map reverseRows
  | [], _, _ => rfl
  | s :: rest, subamount, data_ => by
    simp only [appendLoopBack, appendLoop, hcall data_ s]
    cases call data_ s with
    | none => rfl
    | some r =>
      obtain ⟨amount, d⟩ := r
      simp only [Option.map_some', reverseRows]
      by_cases h0 : amount ≠ 0
      · simp only [if_pos h0, List.concat_eq_append]
        rw [← List.reverse_cons]
        exact appendLoopBack_eq call callBack hcall category groupID level rest _ _
      · simp only [if_neg h0]
        exact appendLoopBack_eq call callBack hcall category groupID level rest _ _

/-- The traversal that adds at the back returns the same amount as `AppendData` and the
reversed sequence. -/
theorem AppendDataBack_eq (cats : List Category) (type_ : TYPE)
    (categoryStats : CategoryStats) :
    ∀ (fuel : Nat) (data_ : List data_holder) (c : Category) (groupID : Int) (level : Nat),
      AppendDataBack fuel cats type_ data_.reverse categoryStats c groupID level =
        (AppendData fuel cats type_ data_ categoryStats c groupID level).map reverseRows
  | 0, _, _, _, _ => rfl
  | fuel + 1, data_, c, groupID, level => by
    have hcall : ∀ d s,
        (fun d subcategory =>
          AppendDataBack fuel cats type_ d categoryStats subcategory groupID (level + 1))
          d.reverse s =
        ((fun d subcategory =>
          AppendData fuel cats type_ d categoryStats subcategory groupID (level + 1))
          d s).map reverseRows :=
      fun d s => AppendDataBack_eq cats type_ categoryStats fuel d s groupID (level + 1)
    rw [AppendDataBack, AppendData]
    simp only []
    rw [appendLoopBack_eq _ _ hcall c groupID level _ 0 data_]
    cases appendLoop
        (fun d subcategory =>
          AppendData fuel cats type_ d categoryStats subcategory groupID (level + 1))
        c groupID level (stable_sort SorterByCATEGNAME (sub_category cats c)).reverse
        (0, data_) with
    | none => rfl
    | some r =>
      obtain ⟨subamount, d⟩ := r
      simp only [Option.map_some', reverseRows]
      by_cases h0 : ownAmount type_ categoryStats c ≠ 0 ∨ subamount ≠ 0
      · simp only [if_pos h0, List.concat_eq_append, List.reverse_cons]
      · simp only [if_neg h0]

theorem refreshSubLoopBack_eq (fuel : Nat) (cats : List Category) (type_ : TYPE)
    (categoryStats : CategoryStats) (category : Category) :
    ∀ (l : List Category) (subamount : Int) (data_ : List data_holder),
      refreshSubLoopBack fuel cats type_ categoryStats category l
          (subamount, data_.reverse) =
        (refreshSubLoop fuel cats type_ categoryStats category l
          (subamount, data_)).map reverseRows
  | [], _, _ => rfl
  | s :: rest, subamount, data_ => by
    simp only [refreshSubLoopBack, refreshSubLoop,
      AppendDataBack_eq cats type_ categoryStats fuel data_ s category.CATEGID 1]
    cases AppendData fuel cats type_ data_ categoryStats s category.CATEGID 1 with
    | none => rfl
    | some r =>
      obtain ⟨amount, d⟩ := r
      simp only [Option.map_some', reverseRows]
      by_cases h0 : amount ≠ 0
      · simp only [if_pos h0, List.concat_eq_append]
        rw [← List.reverse_cons]
        exact refreshSubLoopBack_eq fuel cats type_ categoryStats category rest _ _
      · simp only [if_neg h0]
        exact refreshSubLoopBack_eq fuel cats type_ categoryStats category rest _ _

theorem refreshLoopBack_eq (fuel : Nat) (cats : List Category) (type_ : TYPE)
    (categoryStats : CategoryStats) :
    ∀ (l : List Category) (data_ : List data_holder),
      refreshLoopBack fuel cats type_ categoryStats l data_.reverse =
        (refreshLoop fuel cats type_ categoryStats l data_).map List.reverse
  | [], _ => rfl
  | c :: rest, data_ => by
    simp only [refreshLoopBack, refreshLoop,
      refreshSubLoopBack_eq fuel cats type_ categoryStats c _ 0 data_]
    cases refreshSubLoop fuel cats type_ categoryStats c
        (stable_sort SorterByCATEGNAME (sub_category cats c)).reverse (0, data_) with
    | none => rfl
    | some r =>
      obtain ⟨subamount, d⟩ := r
      simp only [Option.map_some', reverseRows]
      by_cases h0 : ownAmount type_ categoryStats c ≠ 0 ∨ subamount ≠ 0
      · simp only [if_pos h0, List.concat_eq_append]
        rw [← List.reverse_cons]
        exact refreshLoopBack_eq fuel cats type_ categoryStats rest _
      · simp only [if_neg h0]
        exact refreshLoopBack_eq fuel cats type_ categoryStats rest _

/-- Whatever the table, the traversal that adds at the back gives the reversed result
of `RefreshData`. -/
theorem RefreshDataBack_eq (fuel : Nat) (cats : List Category) (type_ : TYPE)
    (data_ : List data_holder) (categoryStats : CategoryStats) :
    RefreshDataBack fuel cats type_ data_ categoryStats =
      (RefreshData fuel cats type_ data_ categoryStats).map List.reverse := by
  unfold RefreshDataBack RefreshData
  exact refreshLoopBack_eq fuel cats type_ categoryStats _ []

/-- C15 (prepend semantics).  On a forest, the sequence `RefreshData` returns, with every
row inserted at the front of `data_`, is the reverse of the sequence the same traversal
gives when every row is added at the back: the row produced last is the first one and
the row produced first is the last one. -/
theorem prepend_is_reverse_of_append (cats : List Category) (type_ : TYPE)
    (categoryStats : CategoryStats) (fuel : Nat) (data_ : List data_holder)
    (hf : Forest cats) (hfuel : cats.length ≤ fuel) :
    ∃ out back, RefreshData fuel cats type_ data_ categoryStats = some out ∧
      RefreshDataBack fuel cats type_ data_ categoryStats = some back ∧
      out = back.reverse ∧ out.head? = back.getLast? ∧ out.getLast? = back.head? := by
  refine ⟨_, (report cats type_ categoryStats).reverse,
    RefreshData_eq hf type_ categoryStats fuel hfuel data_, ?_, ?_, ?_, ?_⟩
  · rw [RefreshDataBack_eq, RefreshData_eq hf type_ categoryStats fuel hfuel data_]
    rfl
  · rw [List.reverse_reverse]
  · rw [List.getLast?_reverse]
  · rw [List.head?_reverse]

/-! ## Sums of one sign that are zero -/

theorem list_sum_zero_of_nonpos : ∀ l : List Int, (∀ x ∈ l, x ≤ 0) → l.sum = 0 →
    ∀ x ∈ l, x = 0
  | [], _, _ => by simp
  | a :: l, h, hsum => by
    have h1 := h a (List.mem_cons_self _ _)
    have h2 := list_sum_nonpos l (fun x hx => h x (List.mem_cons_of_mem _ hx))
    simp only [List.sum_cons] at hsum
    have ih := list_sum_zero_of_nonpos l (fun x hx => h x (List.mem_cons_of_mem _ hx))
      (by omega)
    intro x hx
    rcases List.mem_cons.1 hx with rfl | hx
    · omega
    · exact ih x hx

theorem list_sum_zero_of_nonneg : ∀ l : List Int, (∀ x ∈ l, 0 ≤ x) → l.sum = 0 →
    ∀ x ∈ l, x = 0
  | [], _, _ => by simp
  | a :: l, h, hsum => by
    have h1 := h a (List.mem_cons_self _ _)
    have h2 : 0 ≤ l.sum := List.sum_nonneg (fun x hx => h x (List.mem_cons_of_mem _ hx))
    simp only [List.sum_cons] at hsum
    have ih := list_sum_zero_of_nonneg l (fun x hx => h x (List.mem_cons_of_mem _ hx))
      (by omega)
    intro x hx
    rcases List.mem_cons.1 hx with rfl | hx
    · omega
    · exact ih x hx

/-! ## The top-level rows are sorted by name -/

theorem lineRows_level {cats : List Category} {type_ : TYPE}
    {categoryStats : CategoryStats} {groupID : Int} {c : Category} {level : Nat}
    {r : data_holder} (h : r ∈ lineRows cats type_ categoryStats groupID c level) :
    r.level = level := by
  rcases mem_lineRows.1 h with ⟨h, _⟩ | ⟨s, _, _, h⟩ <;> rw [h] <;> rfl

/-- The own rows at level `0` among the rows of a top-level category: its own row. -/
theorem filter_top_rowsOf {cats : List Category} (hf : Forest cats) (type_ : TYPE)
    (categoryStats : CategoryStats) (groupID : Int) (ht : Category → Nat)
    (hlen : ∀ c ∈ cats, ht c < cats.length)
    (hht : ∀ c ∈ cats, ∀ s ∈ sub_category cats c, ht s < ht c)
    (n : Nat) (c : Category) (hc : c ∈ cats) (hn : ht c < n + 1) :
    (rowsOf cats type_ categoryStats groupID (n + 1) c 0).filter
        (fun r => r.level == 0 && r.subCatID == -1) =
      if ownAmount type_ categoryStats c ≠ 0 ∨
          subcategoriesTotal cats type_ categoryStats c ≠ 0
        then [ownRow type_ categoryStats c groupID 0] else [] := by
  rw [rowsOf_succ type_ categoryStats groupID ht hlen hht n c 0 hc hn, List.filter_append]
  have hrest : List.filter (fun r : data_holder => r.level == 0 && r.subCatID == -1)
      ((stable_sort SorterByCATEGNAME (sub_category cats c)).flatMap (fun s =>
        (if subtreeTotal cats type_ categoryStats s ≠ 0
          then [contributionRow c s (subtreeTotal cats type_ categoryStats s) groupID 0]
          else []) ++
        rowsOf cats type_ categoryStats groupID n s (0 + 1))) = [] := by
    rw [List.filter_eq_nil_iff]
    intro r hr hp
    obtain ⟨s, hs, hrs⟩ := List.mem_flatMap.1 hr
    have hs' : s ∈ sub_category cats c := mem_stable_sort.1 hs
    have hsc : s ∈ cats := (mem_sub_category.1 hs').1
    simp only [Bool.and_eq_true, beq_iff_eq] at hp
    rcases List.mem_append.1 hrs with h | h
    · by_cases h0 : subtreeTotal cats type_ categoryStats s ≠ 0
      · rw [if_pos h0, List.mem_singleton] at h
        apply hf.ids_ne s hsc
        rw [← hp.2, h]
        rfl
      · rw [if_neg h0] at h
        cases h
    · have hlt := hht c hc s hs'
      obtain ⟨x, k, _, hx⟩ :=
        (mem_rowsOf type_ categoryStats groupID ht hlen hht r n s (0 + 1) hsc
          (by omega)).1 h
      have := lineRows_level hx
      omega
  rw [hrest, List.append_nil]
  by_cases h0 : ownAmount type_ categoryStats c ≠ 0 ∨
      subcategoriesTotal cats type_ categoryStats c ≠ 0
  · simp [h0, ownRow]
  · simp [h0]

theorem own_names_sublist (type_ : TYPE) (categoryStats : CategoryStats)
    (P : Category → Prop) [DecidablePred P] :
    ∀ l : List Category,
      List.Sublist
        ((l.flatMap (fun c =>
          if P c then [ownRow type_ categoryStats c c.CATEGID 0] else [])).map
            (fun r => r.name))
        (l.map (fun c => c.CATEGNAME))
  | [] => List.Sublist.slnil
  | c :: l => by
    rw [List.flatMap_cons, List.map_append, List.map_cons]
    by_cases h : P c
    · rw [if_pos h]
      exact (own_names_sublist type_ categoryStats P l).cons₂ _
    · rw [if_neg h]
      exact (own_names_sublist type_ categoryStats P l).cons _

/-- C19 (data is presorted by name).  On a forest, the own rows of the top-level
categories (`level = 0`, `subCatID = -1`) appear in the sequence `RefreshData` returns in
non-decreasing order of their names. -/
theorem presorted_by_name (cats : List Category) (type_ : TYPE)
    (categoryStats : CategoryStats) (fuel : Nat) (data_ : List data_holder)
    (hf : Forest cats) (hfuel : cats.length ≤ fuel) :
    ∃ out, RefreshData fuel cats type_ data_ categoryStats = some out ∧
      ((out.filter (fun r => r.level == 0 && r.subCatID == -1)).map
        (fun r => r.name)).Pairwise (fun a b => a ≤ b) := by
  refine ⟨_, RefreshData_eq hf type_ categoryStats fuel hfuel data_, ?_⟩
  obtain ⟨ht, hlen, hht⟩ := hf.exists_height
  have hfilter : (report cats type_ categoryStats).filter
      (fun r => r.level == 0 && r.subCatID == -1) =
      (stable_sort SorterByCATEGNAME (find_PARENTID cats (-1))).flatMap (fun c =>
        if ownAmount type_ categoryStats c ≠ 0 ∨
            subcategoriesTotal cats type_ categoryStats c ≠ 0
          then [ownRow type_ categoryStats c c.CATEGID 0] else []) := by
    unfold report
    rw [List.filter_flatMap]
    apply List.flatMap_congr
    intro c hc
    have hc' : c ∈ cats := (mem_find_PARENTID.1 (mem_stable_sort.1 hc)).1
    exact filter_top_rowsOf hf type_ categoryStats c.CATEGID ht hlen hht cats.length c hc'
      (by have := hlen c hc'; omega)
  rw [hfilter]
  refine List.Pairwise.sublist (own_names_sublist type_ categoryStats _ _) ?_
  rw [List.pairwise_map]
  exact stable_sort_sorted _

/-! ## Deleting tags -/

/-- What one iteration of the loop of `OnDelete` does: it leaves the state as it is, or
it removes the tag of the selected name, which `is_used` reports as unused, or as used by
deleted transactions only and the user confirms. -/
theorem deleteSelection_cases {Env : Type} (m : TagCollaborators Env)
    {st st' : TagDialog Env} {selection : String}
    (h : deleteSelection m st selection = some st') :
    ∃ tag, Model_Tag_get st.tags selection = some tag ∧
      (st' = st ∨
        ((m.is_used st.env tag.TAGID = 0 ∨
            (m.is_used st.env tag.TAGID = -1 ∧ m.confirm tag = true)) ∧
          m.is_used st.env tag.TAGID ≠ 1 ∧
          st'.tags = Model_Tag_remove st.tags tag.TAGID ∧
          st'.tagList_ = wxArrayString_Remove st.tagList_ selection ∧
          st'.selectedTags_ = wxArrayString_Remove st.selectedTags_ selection)) := by
  unfold deleteSelection at h
  cases hget : Model_Tag_get st.tags selection with
  | none =>
    rw [hget] at h
    cases h
  | some tag =>
    rw [hget] at h
    refine ⟨tag, rfl, ?_⟩
    simp only [] at h
    by_cases h1 : m.is_used st.env tag.TAGID = 1
    · rw [if_pos h1] at h
      exact Or.inl (Option.some.inj h).symm
    · rw [if_neg h1] at h
      by_cases h2 : m.is_used st.env tag.TAGID = 0 ∨
          (m.is_used st.env tag.TAGID = -1 ∧ m.confirm tag = true)
      · rw [if_pos h2] at h
        have := Option.some.inj h
        subst this
        exact Or.inr ⟨h2, h1, rfl, rfl, rfl⟩
      · rw [if_neg h2] at h
        exact Or.inl (Option.some.inj h).symm

theorem Model_Tag_get_mem {tags : List Tag} {name : String} {tag : Tag}
    (h : Model_Tag_get tags name = some tag) : tag ∈ tags ∧ tag.TAGNAME = name := by
  unfold Model_Tag_get at h
  exact ⟨List.mem_of_find?_eq_some h, by simpa using List.find?_some h⟩

/-- A tag that `is_used` reports as in use in every database state stays in the table
and in the two name lists through the loop of `OnDelete`. -/
theorem deleteLoop_keeps {Env : Type} (m : TagCollaborators Env) (t : Tag)
    (hused : ∀ e, m.is_used e t.TAGID = 1) :
    ∀ (l : List String) (st st' : TagDialog Env),
      (st.tags.map (fun x => x.TAGNAME)).Nodup → deleteLoop m l st = some st' →
      t ∈ st.tags →
      t ∈ st'.tags ∧ (t.TAGNAME ∈ st.tagList_ → t.TAGNAME ∈ st'.tagList_) ∧
        (t.TAGNAME ∈ st.selectedTags_ → t.TAGNAME ∈ st'.selectedTags_)
  | [], st, st', _, h, ht => by
    have := Option.some.inj h
    subst this
    exact ⟨ht, id, id⟩
  | selection :: rest, st, st', hnd, h, ht => by
    simp only [deleteLoop] at h
    cases hstep : deleteSelection m st selection with
    | none =>
      rw [hstep] at h
      cases h
    | some st₁ =>
      rw [hstep] at h
      simp only [] at h
      obtain ⟨tag, hget, hcase⟩ := deleteSelection_cases m hstep
      rcases hcase with hsame | ⟨_, hne, htags, hlist, hsel⟩
      · subst hsame
        exact deleteLoop_keeps m t hused rest st₁ st' hnd h ht
      · obtain ⟨htagmem, htagname⟩ := Model_Tag_get_mem hget
        have hid : t.TAGID ≠ tag.TAGID := by
          intro hid
          apply hne
          rw [← hid]
          exact hused st.env
        have hname : t.TAGNAME ≠ selection := by
          intro hname
          apply hid
          have : t = tag := List.inj_on_of_nodup_map hnd ht htagmem (hname.trans htagname.symm)
          rw [this]
        have hnd₁ : (st₁.tags.map (fun x => x.TAGNAME)).Nodup := by
          rw [htags]
          exact hnd.sublist ((List.filter_sublist _).map _)
        have ht₁ : t ∈ st₁.tags := by
          rw [htags]
          unfold Model_Tag_remove
          exact List.mem_filter.2 ⟨ht, by simpa using hid⟩
        obtain ⟨k1, k2, k3⟩ := deleteLoop_keeps m t hused rest st₁ st' hnd₁ h ht₁
        refine ⟨k1, fun hm => k2 ?_, fun hm => k3 ?_⟩
        · rw [hlist]
          exact (List.mem_erase_of_ne hname).2 hm
        · rw [hsel]
          exact (List.mem_erase_of_ne hname).2 hm

/-- A tag that the loop of `OnDelete` removes from the table was reported by `is_used`,
in the database state of its iteration, as unused, or as used by deleted transactions
only with the user confirming. -/
theorem deleteLoop_removed {Env : Type} (m : TagCollaborators Env) (t : Tag) :
    ∀ (l : List String) (st st' : TagDialog Env),
      deleteLoop m l st = some st' → t ∈ st.tags → t ∉ st'.tags →
      ∃ e tag, tag.TAGID = t.TAGID ∧ m.is_used e tag.TAGID ≠ 1 ∧
        (m.is_used e tag.TAGID = 0 ∨
          (m.is_used e tag.TAGID = -1 ∧ m.confirm tag = true))
  | [], st, st', h, ht, hnot => by
    have := Option.some.inj h
    subst this
    exact absurd ht hnot
  | selection :: rest, st, st', h, ht, hnot => by
    simp only [deleteLoop] at h
    cases hstep : deleteSelection m st selection with
    | none =>
      rw [hstep] at h
      cases h
    | some st₁ =>
      rw [hstep] at h
      simp only [] at h
      obtain ⟨tag, _, hcase⟩ := deleteSelection_cases m hstep
      rcases hcase with hsame | ⟨hok, hne, htags, _, _⟩
      · subst hsame
        exact deleteLoop_removed m t rest st₁ st' h ht hnot
      · by_cases ht₁ : t ∈ st₁.tags
        · exact deleteLoop_removed m t rest st₁ st' h ht₁ hnot
        · refine ⟨st.env, tag, ?_, hne, hok⟩
          by_contra hid
          apply ht₁
          rw [htags]
          unfold Model_Tag_remove
          exact List.mem_filter.2 ⟨ht, by simpa using fun h' : t.TAGID = tag.TAGID => hid h'.symm⟩

/-- C18 (a tag in use cannot be deleted).  For every state of the tag dialog and every
selection for which `OnDelete` returns: at a selected tag whose `is_used` result is `1`
the loop leaves the state as it is and goes on with the other selected names; a tag
that `is_used` reports as in use stays in the table of tags, in `tagList_` and in
`selectedTags_`; and a tag that is removed had the `is_used` result `0`, or `-1` with the
user confirming. -/
theorem in_use_tag_not_deleted {Env : Type} (m : TagCollaborators Env)
    (st st' : TagDialog Env) (stringSelections : List String)
    (hnames : (st.tags.map (fun x => x.TAGNAME)).Nodup)
    (h : OnDelete m st stringSelections = some st') :
    (∀ (st₀ : TagDialog Env) (selection : String) (rest : List String) (tag : Tag),
      Model_Tag_get st₀.tags selection = some tag → m.is_used st₀.env tag.TAGID = 1 →
      deleteSelection m st₀ selection = some st₀ ∧
      deleteLoop m (selection :: rest) st₀ = deleteLoop m rest st₀) ∧
    (∀ t ∈ st.tags, (∀ e, m.is_used e t.TAGID = 1) →
      t ∈ st'.tags ∧ (t.TAGNAME ∈ st.tagList_ → t.TAGNAME ∈ st'.tagList_) ∧
        (t.TAGNAME ∈ st.selectedTags_ → t.TAGNAME ∈ st'.selectedTags_)) ∧
    (∀ t ∈ st.tags, t ∉ st'.tags →
      ∃ e tag, tag.TAGID = t.TAGID ∧ m.is_used e tag.TAGID ≠ 1 ∧
        (m.is_used e tag.TAGID = 0 ∨
          (m.is_used e tag.TAGID = -1 ∧ m.confirm tag = true))) := by
  have hstep : ∀ (st₀ : TagDialog Env) (selection : String) (tag : Tag),
      Model_Tag_get st₀.tags selection = some tag → m.is_used st₀.env tag.TAGID = 1 →
      deleteSelection m st₀ selection = some st₀ := by
    intro st₀ selection tag hget hused
    unfold deleteSelection
    rw [hget]
    simp only []
    rw [if_pos hused]
  have hloop : ∃ st₁, deleteLoop m stringSelections st = some st₁ ∧
      st'.tags = st₁.tags ∧ st'.tagList_ = st₁.tagList_ ∧
      st'.selectedTags_ = st₁.selectedTags_ := by
    unfold OnDelete at h
    by_cases hempty : stringSelections.isEmpty = true
    · rw [if_pos hempty] at h
      have := Option.some.inj h
      subst this
      have hnil : stringSelections = [] := List.isEmpty_iff.1 hempty
      subst hnil
      exact ⟨st, rfl, rfl, rfl, rfl⟩
    · rw [if_neg hempty] at h
      cases hl : deleteLoop m stringSelections st with
      | none =>
        rw [hl] at h
        cases h
      | some st₁ =>
        rw [hl] at h
        have := Option.some.inj h
        subst this
        exact ⟨st₁, rfl, rfl, rfl, rfl⟩
  obtain ⟨st₁, hl, e1, e2, e3⟩ := hloop
  refine ⟨?_, ?_, ?_⟩
  · intro st₀ selection rest tag hget hused
    refine ⟨hstep st₀ selection tag hget hused, ?_⟩
    rw [deleteLoop, hstep st₀ selection tag hget hused]
  · intro t ht hused
    rw [e1, e2, e3]
    exact deleteLoop_keeps m t hused stringSelections st st₁ hnames hl ht
  · intro t ht hnot
    rw [e1] at hnot
    exact deleteLoop_removed m t stringSelections st st₁ hl ht hnot

/-! ## The new theorems at the examples -/

/-- The returned subtree amount at the worked example, for the category `Food`. -/
theorem subtree_amount_returned_witness :
    Forest foodTable ∧ foodTable.length ≤ 3 ∧ food ∈ foodTable ∧
    (∃ out, AppendData 3 foodTable TYPE.SUMMARY [] foodStats food 1 0 =
      some (flatTotal foodTable TYPE.SUMMARY foodStats food, out)) ∧
    (∀ x, x ∈ subtree foodTable foodTable.length food ↔ Descends foodTable food x) ∧
    (subtree foodTable foodTable.length food).Nodup ∧
    ownAmount TYPE.SUMMARY foodStats food +
        subcategoriesTotal foodTable TYPE.SUMMARY foodStats food =
      flatTotal foodTable TYPE.SUMMARY foodStats food :=
  ⟨⟨by decide, by decide, by decide, ⟨fun i => if i = 1 then 1 else 0, by decide⟩⟩, by decide, by decide,
    subtree_amount_returned foodTable TYPE.SUMMARY foodStats 3 [] 1 0 ⟨by decide, by decide, by decide, ⟨fun i => if i = 1 then 1 else 0, by decide⟩⟩
      (by decide) food (by decide)⟩

/-- The pass-through of the amounts at the worked example in the mode `SUMMARY`. -/
theorem both_mode_passes_values_witness :
    Forest foodTable ∧ foodTable.length ≤ 3 ∧ TYPE.SUMMARY ≠ TYPE.GOES ∧
    TYPE.SUMMARY ≠ TYPE.COME ∧
    ∃ out, RefreshData 3 foodTable TYPE.SUMMARY [] foodStats = some out ∧
      ∀ r ∈ out, r.subCatID = -1 → r.amount = statAt foodStats r.catID 0 :=
  ⟨⟨by decide, by decide, by decide, ⟨fun i => if i = 1 then 1 else 0, by decide⟩⟩, by decide, by decide, by decide,
    both_mode_passes_values foodTable TYPE.SUMMARY foodStats 3 [] ⟨by decide, by decide, by decide, ⟨fun i => if i = 1 then 1 else 0, by decide⟩⟩
      (by decide) (by decide) (by decide)⟩

/-- Termination at the worked example. -/
theorem terminates_on_forest_witness :
    Forest foodTable ∧
    (∃ ht : Category → Nat, (∀ c ∈ foodTable, ht c < foodTable.length) ∧
      ∀ c ∈ foodTable, ∀ s ∈ sub_category foodTable c, ht s < ht c) ∧
    ∀ (fuel : Nat) (type_ : TYPE) (categoryStats : CategoryStats)
      (data_ : List data_holder), foodTable.length ≤ fuel →
      (∃ out, RefreshData fuel foodTable type_ data_ categoryStats = some out) ∧
      ∀ c ∈ foodTable, ∀ (groupID : Int) (level : Nat),
        ∃ r, AppendData fuel foodTable type_ data_ categoryStats c groupID level = some r :=
  ⟨⟨by decide, by decide, by decide, ⟨fun i => if i = 1 then 1 else 0, by decide⟩⟩, terminates_on_forest foodTable ⟨by decide, by decide, by decide, ⟨fun i => if i = 1 then 1 else 0, by decide⟩⟩⟩

/-- The two orders of insertion at the worked example. -/
theorem prepend_is_reverse_of_append_witness :
    Forest foodTable ∧ foodTable.length ≤ 3 ∧
    ∃ out back, RefreshData 3 foodTable TYPE.SUMMARY [] foodStats = some out ∧
      RefreshDataBack 3 foodTable TYPE.SUMMARY [] foodStats = some back ∧
      out = back.reverse ∧ out.head? = back.getLast? ∧ out.getLast? = back.head? :=
  ⟨⟨by decide, by decide, by decide, ⟨fun i => if i = 1 then 1 else 0, by decide⟩⟩, by decide,
    prepend_is_reverse_of_append foodTable TYPE.SUMMARY foodStats 3 [] ⟨by decide, by decide, by decide, ⟨fun i => if i = 1 then 1 else 0, by decide⟩⟩ (by decide)⟩

/-- The tag dialog with the tags `home` (in use) and `work` (not in use), both
selected: `OnDelete` removes `work` only. -/
theorem in_use_tag_not_deleted_witness :
    (tagDialogBefore.tags.map (fun x => x.TAGNAME)).Nodup ∧
    OnDelete tagCollaborators tagDialogBefore ["home", "work"] = some tagDialogAfter ∧
    (∀ (st₀ : TagDialog Unit) (selection : String) (rest : List String) (tag : Tag),
      Model_Tag_get st₀.tags selection = some tag →
      tagCollaborators.is_used st₀.env tag.TAGID = 1 →
      deleteSelection tagCollaborators st₀ selection = some st₀ ∧
      deleteLoop tagCollaborators (selection :: rest) st₀ =
        deleteLoop tagCollaborators rest st₀) ∧
    (∀ t ∈ tagDialogBefore.tags, (∀ e, tagCollaborators.is_used e t.TAGID = 1) →
      t ∈ tagDialogAfter.tags ∧
        (t.TAGNAME ∈ tagDialogBefore.tagList_ → t.TAGNAME ∈ tagDialogAfter.tagList_) ∧
        (t.TAGNAME ∈ tagDialogBefore.selectedTags_ →
          t.TAGNAME ∈ tagDialogAfter.selectedTags_)) ∧
    (∀ t ∈ tagDialogBefore.tags, t ∉ tagDialogAfter.tags →
      ∃ e tag, tag.TAGID = t.TAGID ∧ tagCollaborators.is_used e tag.TAGID ≠ 1 ∧
        (tagCollaborators.is_used e tag.TAGID = 0 ∨
          (tagCollaborators.is_used e tag.TAGID = -1 ∧
            tagCollaborators.confirm tag = true))) :=
  ⟨by decide, rfl,
    in_use_tag_not_deleted tagCollaborators tagDialogBefore tagDialogAfter ["home", "work"]
      (by decide) rfl⟩

/-! ## The top level of `RefreshData` and the recursive step -/

/-- One iteration of the outer loop of `RefreshData` is one call of `AppendData` for the
top-level category with `groupID` its identifier and `level = 0` (one level of recursion
more), whatever the table. -/
theorem refreshLoop_cons_eq_AppendData (fuel : Nat) (cats : List Category) (type_ : TYPE)
    (categoryStats : CategoryStats) (R : Category) (rest : List Category)
    (data_ : List data_holder) :
    refreshLoop fuel cats type_ categoryStats (R :: rest) data_ =
      (AppendData (fuel + 1) cats type_ data_ categoryStats R R.CATEGID 0).bind
        (fun r => refreshLoop fuel cats type_ categoryStats rest r.2) := by
  rw [refreshLoop, AppendData]
  simp only [refreshSubLoop_eq_appendLoop]
  cases appendLoop
      (fun d s => AppendData fuel cats type_ d categoryStats s R.CATEGID (0 + 1))
      R R.CATEGID 0 (stable_sort SorterByCATEGNAME (sub_category cats R)).reverse
      (0, data_) with
  | none => rfl
  | some r => rfl

theorem refreshLoop_eq_recursiveLoop (fuel : Nat) (cats : List Category) (type_ : TYPE)
    (categoryStats : CategoryStats) :
    ∀ (l : List Category) (data_ : List data_holder),
      refreshLoop fuel cats type_ categoryStats l data_ =
        recursiveLoop (fuel + 1) cats type_ categoryStats l data_
  | [], _ => rfl
  | R :: rest, data_ => by
    rw [refreshLoop_cons_eq_AppendData, recursiveLoop]
    cases AppendData (fuel + 1) cats type_ data_ categoryStats R R.CATEGID 0 with
    | none => rfl
    | some r =>
      obtain ⟨amount, d⟩ := r
      exact refreshLoop_eq_recursiveLoop fuel cats type_ categoryStats rest d

theorem recursiveLoop_eq {cats : List Category} (type_ : TYPE)
    (categoryStats : CategoryStats) (ht : Category → Nat)
    (hht : ∀ c ∈ cats, ∀ s ∈ sub_category cats c, ht s < ht c)
    (fuel : Nat) (hfuel : ∀ c ∈ cats, ht c < fuel) :
    ∀ (l : List Category) (data_ : List data_holder), (∀ c ∈ l, c ∈ cats) →
      recursiveLoop fuel cats type_ categoryStats l data_ =
        some (l.reverse.flatMap
            (fun c => rowsOf cats type_ categoryStats c.CATEGID fuel c 0) ++ data_)
  | [], data_, _ => by simp [recursiveLoop]
  | c :: rest, data_, h => by
    have hc := h c (List.mem_cons_self _ _)
    rw [recursiveLoop,
      AppendData_eq type_ categoryStats c.CATEGID ht hht fuel c 0 data_ hc (hfuel c hc)]
    simp only []
    rw [recursiveLoop_eq type_ categoryStats ht hht fuel hfuel rest _
      (fun x hx => h x (List.mem_cons_of_mem _ hx))]
    simp [List.flatMap_append]

/-- On a forest, with a recursion budget of at least the number of categories, the
roll-up by calls of the recursive step returns the report. -/
theorem RefreshDataRecursive_eq {cats : List Category} (hf : Forest cats) (type_ : TYPE)
    (categoryStats : CategoryStats) (fuel : Nat) (hfuel : cats.length ≤ fuel)
    (data_ : List data_holder) :
    RefreshDataRecursive fuel cats type_ data_ categoryStats =
      some (report cats type_ categoryStats) := by
  obtain ⟨ht, hlen, hht⟩ := hf.exists_height
  have hfuel' : ∀ c ∈ cats, ht c < fuel := fun c hc => lt_of_lt_of_le (hlen c hc) hfuel
  unfold RefreshDataRecursive
  simp only [clear]
  rw [recursiveLoop_eq type_ categoryStats ht hht fuel hfuel' _ []
    (fun c hc => (mem_find_PARENTID.1 (mem_stable_sort.1 (List.mem_reverse.1 hc))).1)]
  simp only [List.reverse_reverse, List.append_nil, report]
  congr 1
  apply List.flatMap_congr
  intro c hc
  have hc' : c ∈ cats := (mem_find_PARENTID.1 (mem_stable_sort.1 hc)).1
  exact rowsOf_fuel type_ categoryStats c.CATEGID ht hht _ _ c 0 hc'
    (hfuel' c hc') (by have := hlen c hc'; omega)

/-- C21 (the hand-inlined top level is the recursive step).  One iteration of the
top-level loop of `RefreshData` for a category `R` leaves in `data_` exactly what the
call `AppendData(R, groupID = R.CATEGID, level = 0)` leaves there, rows and order;
`RefreshData` is "clear the buffer and call the recursive step on every top-level
category in iteration order"; and on a forest both return the same sequence. -/
theorem top_level_is_recursive_step (cats : List Category) (type_ : TYPE)
    (categoryStats : CategoryStats) (fuel : Nat) (data_ : List data_holder)
    (hf : Forest cats) (hfuel : cats.length ≤ fuel) :
    (∀ (n : Nat) (R : Category) (rest : List Category) (d : List data_holder),
      refreshLoop n cats type_ categoryStats (R :: rest) d =
        (AppendData (n + 1) cats type_ d categoryStats R R.CATEGID 0).bind
          (fun r => refreshLoop n cats type_ categoryStats rest r.2)) ∧
    (∀ (n : Nat) (d : List data_holder),
      RefreshData n cats type_ d categoryStats =
        RefreshDataRecursive (n + 1) cats type_ d categoryStats) ∧
    (∃ out, RefreshData fuel cats type_ data_ categoryStats = some out ∧
      RefreshDataRecursive fuel cats type_ data_ categoryStats = some out) ∧
    ∀ R, TopLevel cats R → ∀ d : List data_holder,
      ∃ amount rows,
        AppendData fuel cats type_ d categoryStats R R.CATEGID 0 =
          some (amount, rows ++ d) ∧
        refreshLoop fuel cats type_ categoryStats [R] d = some (rows ++ d) := by
  obtain ⟨ht, hlen, hht⟩ := hf.exists_height
  have hfuel' : ∀ c ∈ cats, ht c < fuel := fun c hc => lt_of_lt_of_le (hlen c hc) hfuel
  refine ⟨fun n R rest d => refreshLoop_cons_eq_AppendData n cats type_ categoryStats R rest d,
    ?_, ⟨_, RefreshData_eq hf type_ categoryStats fuel hfuel data_,
      RefreshDataRecursive_eq hf type_ categoryStats fuel hfuel data_⟩, ?_⟩
  · intro n d
    unfold RefreshData RefreshDataRecursive
    exact refreshLoop_eq_recursiveLoop n cats type_ categoryStats _ _
  · intro R hR d
    refine ⟨_, rowsOf cats type_ categoryStats R.CATEGID fuel R 0,
      AppendData_eq type_ categoryStats R.CATEGID ht hht fuel R 0 d hR.1 (hfuel' R hR.1), ?_⟩
    rw [refreshLoop_cons type_ categoryStats ht hht fuel hfuel' R [] d, refreshLoop]
    congr 2
    exact rowsOf_fuel type_ categoryStats R.CATEGID ht hht _ _ R 0 hR.1
      (by have := hfuel' R hR.1; omega) (hfuel' R hR.1)

/-! ## The pre-order layout of the report -/

theorem infix_flatMap_of_mem {α β : Type} (f : α → List β) {l : List α} {a : α}
    (ha : a ∈ l) : List.IsInfix (f a) (l.flatMap f) := by
  obtain ⟨s, t, rfl⟩ := List.append_of_mem ha
  simp only [List.flatMap_append, List.flatMap_cons]
  exact List.infix_append' _ _ _

/-- The rows of a descendant are a run of consecutive rows of its ancestor. -/
theorem rowsOf_infix {cats : List Category} (type_ : TYPE)
    (categoryStats : CategoryStats) (groupID : Int) (ht : Category → Nat)
    (hlen : ∀ c ∈ cats, ht c < cats.length)
    (hht : ∀ c ∈ cats, ∀ s ∈ sub_category cats c, ht s < ht c) :
    ∀ (n : Nat) (c : Category) (level : Nat) (x : Category) (k : Nat), c ∈ cats →
      ht c < n → Path cats c x k →
      List.IsInfix
        (rowsOf cats type_ categoryStats groupID cats.length x (level + k))
        (rowsOf cats type_ categoryStats groupID n c level) := by
  intro n
  induction n with
  | zero => intro c _ _ _ _ h; omega
  | succ n ih =>
    intro c level x k hc hn hpath
    cases k with
    | zero =>
      have := hpath.zero
      subst this
      rw [Nat.add_zero,
        rowsOf_fuel type_ categoryStats groupID ht hht _ _ x level hc (hlen x hc) hn]
    | succ k =>
      obtain ⟨s, hs, hsp⟩ := hpath.uncons
      have := hht c hc s hs
      have h1 := ih s (level + 1) x k (mem_sub_category.1 hs).1 (by omega) hsp
      rw [show level + 1 + k = level + (k + 1) by omega] at h1
      rw [rowsOf_succ type_ categoryStats groupID ht hlen hht n c level hc hn]
      refine (h1.trans ?_).trans (List.suffix_append _ _).isInfix
      exact (List.suffix_append _ _).isInfix.trans
        (infix_flatMap_of_mem
          (fun s => (if subtreeTotal cats type_ categoryStats s ≠ 0
            then [contributionRow c s (subtreeTotal cats type_ categoryStats s) groupID level]
            else []) ++ rowsOf cats type_ categoryStats groupID n s (level + 1))
          (mem_stable_sort.2 hs))

/-- The rows of a top-level category are a run of consecutive rows of the report. -/
theorem rowsOf_root_infix_report {cats : List Category} (hf : Forest cats) (type_ : TYPE)
    (categoryStats : CategoryStats) {root : Category} (hroot : TopLevel cats root) :
    List.IsInfix (rowsOf cats type_ categoryStats root.CATEGID cats.length root 0)
      (report cats type_ categoryStats) := by
  obtain ⟨ht, hlen, hht⟩ := hf.exists_height
  rw [rowsOf_fuel type_ categoryStats root.CATEGID ht hht _ (cats.length + 1) root 0 hroot.1
    (hlen root hroot.1) (by have := hlen root hroot.1; omega)]
  exact infix_flatMap_of_mem
    (fun c => rowsOf cats type_ categoryStats c.CATEGID (cats.length + 1) c 0)
    (mem_stable_sort.2 (mem_find_PARENTID.2 hroot))

/-- A row with the `catID` of a category of the subtree of `N` is among the rows of
`N`. -/
theorem row_mem_rowsOf_of_descends {cats : List Category} (hf : Forest cats)
    {type_ : TYPE} {categoryStats : CategoryStats} {r : data_holder}
    {root N x : Category} {k j : Nat} (hroot : TopLevel cats root)
    (hN : Path cats root N k) (hx : Path cats N x j)
    (hr : r ∈ report cats type_ categoryStats) (hcat : r.catID = x.CATEGID) :
    r ∈ rowsOf cats type_ categoryStats root.CATEGID cats.length N k := by
  obtain ⟨ht, hlen, hht⟩ := hf.exists_height
  have hNc : N ∈ cats := hN.mem hroot.1
  obtain ⟨root', y, k', hroot', hpath', hy, hid, hline⟩ := report_row_category hf hr
  have hyx : y = x := hf.id_inj hy (hx.mem hNc) (hid.trans hcat)
  subst hyx
  obtain ⟨hr', hk'⟩ :=
    hf.ancestor_unique (Depth.top hroot') (Depth.top hroot) hpath' (hN.trans hx)
  subst hr' hk'
  exact (mem_rowsOf type_ categoryStats root'.CATEGID ht hlen hht r _ N k hNc
    (hlen N hNc)).2 ⟨y, j, hx, hline⟩

/-- The rows of a category whose own row is emitted start with that own row. -/
theorem rowsOf_head {cats : List Category} (hf : Forest cats) (type_ : TYPE)
    (categoryStats : CategoryStats) (groupID : Int) {c : Category} (level : Nat)
    (hc : c ∈ cats)
    (hcond : ownAmount type_ categoryStats c ≠ 0 ∨
      subcategoriesTotal cats type_ categoryStats c ≠ 0) :
    ∃ tail, rowsOf cats type_ categoryStats groupID cats.length c level =
      ownRow type_ categoryStats c groupID level :: tail := by
  obtain ⟨ht, hlen, hht⟩ := hf.exists_height
  rw [rowsOf_fuel type_ categoryStats groupID ht hht _ (cats.length + 1) c level hc
      (hlen c hc) (by have := hlen c hc; omega),
    rowsOf_succ type_ categoryStats groupID ht hlen hht _ c level hc
      (by have := hlen c hc; omega), if_pos hcond]
  exact ⟨_, rfl⟩

/-- The own row of a category appears before every other row of its subtree. -/
theorem own_row_before {cats : List Category} (hf : Forest cats) {type_ : TYPE}
    {categoryStats : CategoryStats} {N x : Category} {j : Nat} {rN r : data_holder}
    (hN : N ∈ cats) (hrN : rN ∈ report cats type_ categoryStats)
    (hcat : rN.catID = N.CATEGID) (hsub : rN.subCatID = -1)
    (hr : r ∈ report cats type_ categoryStats) (hx : Path cats N x j)
    (hrx : r.catID = x.CATEGID) (hne : r ≠ rN) :
    List.Sublist [rN, r] (report cats type_ categoryStats) := by
  obtain ⟨ht, hlen, hht⟩ := hf.exists_height
  obtain ⟨root, k, hroot, hpath⟩ := hf.exists_root hN
  obtain ⟨root', k', hroot', hpath', hown, hcond⟩ := report_own_row hf hN hrN hcat hsub
  obtain ⟨hr', hk'⟩ := hf.ancestor_unique (Depth.top hroot') (Depth.top hroot) hpath' hpath
  subst hr' hk'
  have hmem := row_mem_rowsOf_of_descends hf hroot' hpath hx hr hrx
  obtain ⟨tail, htail⟩ := rowsOf_head hf type_ categoryStats root'.CATEGID k' hN hcond
  rw [htail, ← hown] at hmem
  have htl : r ∈ tail := by
    rcases List.mem_cons.1 hmem with h | h
    · exact absurd h hne
    · exact h
  have hblock : List.Sublist [rN, r]
      (rowsOf cats type_ categoryStats root'.CATEGID cats.length N k') := by
    rw [htail, ← hown]
    exact (List.singleton_sublist.2 htl).cons₂ rN
  have hnest := rowsOf_sublist type_ categoryStats root'.CATEGID ht hlen hht
    cats.length root' 0 N k' hroot'.1 (hlen root' hroot'.1) hpath
  rw [Nat.zero_add] at hnest
  exact (hblock.trans hnest).trans (rowsOf_root_sublist_report hf type_ categoryStats hroot')

/-- C22 (pre-order layout).  On a forest, in the sequence `RefreshData` returns, the own
row of a category `N` appears before (and not after) every contribution row attributed to
`N` and every row whose `catID` is a proper descendant of `N`; and every contribution row
(`catID = P`, `subCatID = C`) is directly followed by the own row of `C`. -/
theorem pre_order_layout (cats : List Category) (type_ : TYPE)
    (categoryStats : CategoryStats) (fuel : Nat) (data_ : List data_holder)
    (hf : Forest cats) (hfuel : cats.length ≤ fuel) :
    ∃ out, RefreshData fuel cats type_ data_ categoryStats = some out ∧
      (∀ N ∈ cats, ∀ rN ∈ out, rN.catID = N.CATEGID → rN.subCatID = -1 →
        (∀ r ∈ out, r.catID = N.CATEGID → r.subCatID ≠ -1 →
          appearsBefore rN r out ∧ ¬ appearsBefore r rN out) ∧
        (∀ r ∈ out, ∀ x k, Path cats N x (k + 1) → r.catID = x.CATEGID →
          appearsBefore rN r out ∧ ¬ appearsBefore r rN out)) ∧
      (∀ rc ∈ out, rc.subCatID ≠ -1 →
        ∃ ro ∈ out, ro.catID = rc.subCatID ∧ ro.subCatID = -1 ∧
          directlyFollowedBy rc ro out) := by
  refine ⟨_, RefreshData_eq hf type_ categoryStats fuel hfuel data_, ?_, ?_⟩
  · intro N hN rN hrN hcat hsub
    refine ⟨?_, ?_⟩
    · intro r hr hrcat hrsub
      have hne : r ≠ rN := fun h => hrsub (h ▸ hsub)
      have h := own_row_before hf hN hrN hcat hsub hr (Path.self N) hrcat hne
      exact ⟨h, not_sublist_swap _ (report_nodup hf type_ categoryStats) h⟩
    · intro r hr x k hx hrcat
      have hne : r ≠ rN := by
        intro h
        have hid : x.CATEGID = N.CATEGID := by rw [← hrcat, h, hcat]
        have hxN := hf.id_inj (hx.mem hN) hN hid
        subst hxN
        have := hf.path_self hN hx
        omega
      have h := own_row_before hf hN hrN hcat hsub hr hx hrcat hne
      exact ⟨h, not_sublist_swap _ (report_nodup hf type_ categoryStats) h⟩
  · intro rc hrc hsub
    obtain ⟨ht, hlen, hht⟩ := hf.exists_height
    obtain ⟨root, x, k, hroot, hpath, hx, h⟩ := report_row_cases hf hrc
    rcases h with ⟨h, _⟩ | ⟨s, hs, h0, h⟩
    · exact absurd (by rw [h]; rfl) hsub
    · have hsc : s ∈ cats := (mem_sub_category.1 hs).1
      have hcond : ownAmount type_ categoryStats s ≠ 0 ∨
          subcategoriesTotal cats type_ categoryStats s ≠ 0 := by
        by_contra hno
        apply h0
        rw [subtreeTotal_eq hf type_ categoryStats s hsc]
        have h1 : ownAmount type_ categoryStats s = 0 := by
          by_contra h'
          exact hno (Or.inl h')
        have h2 : subcategoriesTotal cats type_ categoryStats s = 0 := by
          by_contra h'
          exact hno (Or.inr h')
        rw [h1, h2]
        rfl
      obtain ⟨tail, htail⟩ := rowsOf_head hf type_ categoryStats root.CATEGID (k + 1) hsc hcond
      have hblock : List.IsInfix [rc, ownRow type_ categoryStats s root.CATEGID (k + 1)]
          (rowsOf cats type_ categoryStats root.CATEGID (cats.length + 1) x k) := by
        rw [rowsOf_succ type_ categoryStats root.CATEGID ht hlen hht _ x k hx
          (by have := hlen x hx; omega)]
        refine List.IsInfix.trans ?_ (List.suffix_append _ _).isInfix
        refine List.IsInfix.trans ?_ (infix_flatMap_of_mem
          (fun s => (if subtreeTotal cats type_ categoryStats s ≠ 0
            then [contributionRow x s (subtreeTotal cats type_ categoryStats s)
              root.CATEGID k]
            else []) ++ rowsOf cats type_ categoryStats root.CATEGID cats.length s (k + 1))
          (mem_stable_sort.2 hs))
        simp only []
        rw [if_pos h0, htail, ← h]
        exact (List.prefix_append [rc, ownRow type_ categoryStats s root.CATEGID (k + 1)]
          tail).isInfix
      rw [← rowsOf_fuel type_ categoryStats root.CATEGID ht hht cats.length _ x k hx
        (hlen x hx) (by have := hlen x hx; omega)] at hblock
      have hnest := rowsOf_infix type_ categoryStats root.CATEGID ht hlen hht
        cats.length root 0 x k hroot.1 (hlen root hroot.1) hpath
      rw [Nat.zero_add] at hnest
      have hinfix := (hblock.trans hnest).trans
        (rowsOf_root_infix_report hf type_ categoryStats hroot)
      refine ⟨ownRow type_ categoryStats s root.CATEGID (k + 1), ?_, ?_, rfl, hinfix⟩
      · exact hinfix.sublist.subset (List.mem_cons_of_mem _ (List.mem_singleton.2 rfl))
      · rw [h]
        rfl

/-! ## No orphan rows in the single-sign modes -/

/-- In a single-sign mode all subtree amounts have the same sign. -/
theorem single_sign (cats : List Category) {type_ : TYPE} (categoryStats : CategoryStats)
    (hmode : type_ = TYPE.GOES ∨ type_ = TYPE.COME) :
    (∀ c, ownAmount type_ categoryStats c ≤ 0 ∧
      ∀ n, subtreeAmount cats type_ categoryStats n c ≤ 0) ∨
    (∀ c, 0 ≤ ownAmount type_ categoryStats c ∧
      ∀ n, 0 ≤ subtreeAmount cats type_ categoryStats n c) := by
  rcases hmode with h | h
  · subst h
    exact Or.inl (fun c => ⟨ownAmount_nonpos categoryStats c,
      fun n => subtreeAmount_nonpos cats categoryStats n c⟩)
  · subst h
    exact Or.inr (fun c => ⟨ownAmount_nonneg categoryStats c,
      fun n => subtreeAmount_nonneg cats categoryStats n c⟩)

/-- In a single-sign mode a subcategory with a non-zero subtree amount makes the total of
the subcategories non-zero. -/
theorem subcategoriesTotal_ne_zero {cats : List Category} {type_ : TYPE}
    (categoryStats : CategoryStats) (hmode : type_ = TYPE.GOES ∨ type_ = TYPE.COME)
    {c s : Category} (hs : s ∈ sub_category cats c)
    (h0 : subtreeTotal cats type_ categoryStats s ≠ 0) :
    subcategoriesTotal cats type_ categoryStats c ≠ 0 := by
  intro hsum
  apply h0
  have hmem : subtreeTotal cats type_ categoryStats s ∈
      (sub_category cats c).map (subtreeTotal cats type_ categoryStats) :=
    List.mem_map.2 ⟨s, hs, rfl⟩
  rcases single_sign cats categoryStats hmode with hsign | hsign
  · exact list_sum_zero_of_nonpos _ (by
      intro y hy
      obtain ⟨x, _, rfl⟩ := List.mem_map.1 hy
      exact (hsign x).2 _) hsum _ hmem
  · exact list_sum_zero_of_nonneg _ (by
      intro y hy
      obtain ⟨x, _, rfl⟩ := List.mem_map.1 hy
      exact (hsign x).2 _) hsum _ hmem

/-- In a single-sign mode a category whose own row is emitted has a non-zero subtree
amount. -/
theorem subtreeTotal_ne_zero_of_cond {cats : List Category} (hf : Forest cats)
    {type_ : TYPE} (categoryStats : CategoryStats)
    (hmode : type_ = TYPE.GOES ∨ type_ = TYPE.COME) {c : Category} (hc : c ∈ cats)
    (hcond : ownAmount type_ categoryStats c ≠ 0 ∨
      subcategoriesTotal cats type_ categoryStats c ≠ 0) :
    subtreeTotal cats type_ categoryStats c ≠ 0 := by
  rw [subtreeTotal_eq hf type_ categoryStats c hc]
  rcases single_sign cats categoryStats hmode with hsign | hsign
  · have h1 := (hsign c).1
    have h2 : subcategoriesTotal cats type_ categoryStats c ≤ 0 := by
      apply list_sum_nonpos
      intro y hy
      obtain ⟨x, _, rfl⟩ := List.mem_map.1 hy
      exact (hsign x).2 _
    rcases hcond with h | h <;> omega
  · have h1 := (hsign c).1
    have h2 : 0 ≤ subcategoriesTotal cats type_ categoryStats c := by
      apply List.sum_nonneg
      intro y hy
      obtain ⟨x, _, rfl⟩ := List.mem_map.1 hy
      exact (hsign x).2 _
    rcases hcond with h | h <;> omega

/-- In a single-sign mode a non-zero subtree amount of a category makes the subtree
amounts of all its ancestors non-zero. -/
theorem subtreeTotal_ne_zero_up {cats : List Category} (hf : Forest cats)
    {type_ : TYPE} (categoryStats : CategoryStats)
    (hmode : type_ = TYPE.GOES ∨ type_ = TYPE.COME) {A x : Category} {k : Nat}
    (hA : A ∈ cats) (hpath : Path cats A x k)
    (h0 : subtreeTotal cats type_ categoryStats x ≠ 0) :
    subtreeTotal cats type_ categoryStats A ≠ 0 := by
  induction hpath with
  | self => exact h0
  | @child p c j hp hc hpar ih =>
    apply ih
    exact subtreeTotal_ne_zero_of_cond hf categoryStats hmode (hp.mem hA)
      (Or.inr (subcategoriesTotal_ne_zero categoryStats hmode
        (mem_sub_category.2 ⟨hc, hpar⟩) h0))

/-- In a single-sign mode the own row of every proper ancestor of a category with an
emitted row is emitted, before that row. -/
theorem ancestor_row_emitted {cats : List Category} (hf : Forest cats) {type_ : TYPE}
    {categoryStats : CategoryStats} (hmode : type_ = TYPE.GOES ∨ type_ = TYPE.COME)
    {r : data_holder} {N A : Category} {k : Nat}
    (hr : r ∈ report cats type_ categoryStats) (hN : N ∈ cats)
    (hcat : r.catID = N.CATEGID) (hA : A ∈ cats) (hpath : Path cats A N (k + 1)) :
    ∃ ra ∈ report cats type_ categoryStats, ra.catID = A.CATEGID ∧ ra.subCatID = -1 ∧
      List.Sublist [ra, r] (report cats type_ categoryStats) := by
  have hNtot : subtreeTotal cats type_ categoryStats N ≠ 0 := by
    obtain ⟨root, y, j, _, _, hy, h⟩ := report_row_cases hf hr
    have hyN : y = N := by
      apply hf.id_inj hy hN
      rcases h with ⟨h, _⟩ | ⟨s, _, _, h⟩ <;> rw [← hcat, h] <;> rfl
    subst hyN
    rcases h with ⟨_, hcond⟩ | ⟨s, hs, h0, _⟩
    · exact subtreeTotal_ne_zero_of_cond hf categoryStats hmode hN hcond
    · exact subtreeTotal_ne_zero_of_cond hf categoryStats hmode hN
        (Or.inr (subcategoriesTotal_ne_zero categoryStats hmode hs h0))
  obtain ⟨s, hs, hsp⟩ := hpath.uncons
  have hstot := subtreeTotal_ne_zero_up hf categoryStats hmode (mem_sub_category.1 hs).1
    hsp hNtot
  have hcond : ownAmount type_ categoryStats A ≠ 0 ∨
      subcategoriesTotal cats type_ categoryStats A ≠ 0 :=
    Or.inr (subcategoriesTotal_ne_zero categoryStats hmode hs hstot)
  obtain ⟨root, j, _, _, hsubset⟩ := lineRows_subset_report hf type_ categoryStats hA
  have hra := hsubset _ (mem_lineRows.2 (Or.inl ⟨rfl, hcond⟩))
  refine ⟨ownRow type_ categoryStats A root.CATEGID j, hra, rfl, rfl, ?_⟩
  apply own_row_before hf hA hra rfl rfl hr hpath hcat
  intro h
  have hid : N.CATEGID = A.CATEGID := by
    rw [← hcat, h]
    rfl
  have hNA := hf.id_inj hN hA hid
  subst hNA
  have := hf.path_self hN hpath
  omega

/-- C23 (no orphan rows in the single-sign modes).  On a forest, under `GOES` or `COME`,
for every row of the sequence `RefreshData` returns whose `catID` is a category `N`, the
own row of every ancestor of `N` is in the sequence, before that row; so every row at a
level above `0` has the own row of the parent of its category earlier in the sequence. -/
theorem no_orphan_rows (cats : List Category) (type_ : TYPE)
    (categoryStats : CategoryStats) (fuel : Nat) (data_ : List data_holder)
    (hf : Forest cats) (hfuel : cats.length ≤ fuel)
    (hmode : type_ = TYPE.GOES ∨ type_ = TYPE.COME) :
    ∃ out, RefreshData fuel cats type_ data_ categoryStats = some out ∧
      (∀ r ∈ out, ∀ N ∈ cats, r.catID = N.CATEGID →
        ∀ A ∈ cats, ∀ k, Path cats A N (k + 1) →
          ∃ ra ∈ out, ra.catID = A.CATEGID ∧ ra.subCatID = -1 ∧ appearsBefore ra r out) ∧
      (∀ r ∈ out, 0 < r.level →
        ∃ N ∈ cats, ∃ P ∈ cats, r.catID = N.CATEGID ∧ N.PARENTID = P.CATEGID ∧
          ∃ rp ∈ out, rp.catID = P.CATEGID ∧ rp.subCatID = -1 ∧
            appearsBefore rp r out) := by
  refine ⟨_, RefreshData_eq hf type_ categoryStats fuel hfuel data_, ?_, ?_⟩
  · intro r hr N hN hcat A hA k hpath
    exact ancestor_row_emitted hf hmode hr hN hcat hA hpath
  · intro r hr hlevel
    obtain ⟨root, x, k, hroot, hpath, hx, hid, hline⟩ := report_row_category hf hr
    have hk : r.level = k := lineRows_level hline
    cases hpath with
    | self => omega
    | @child p c j hp hc hpar =>
      have hpc : p ∈ cats := hp.mem hroot.1
      exact ⟨x, hx, p, hpc, hid.symm, hpar,
        ancestor_row_emitted hf hmode hr hx hid.symm hpc
          (Path.child (Path.self p) hc hpar)⟩

/-! ## The number of rows -/

/-- Two rows of the report with the same `catID` and the same `subCatID` are the same
row. -/
theorem report_row_ext {cats : List Category} (hf : Forest cats) {type_ : TYPE}
    {categoryStats : CategoryStats} {r₁ r₂ : data_holder}
    (h₁ : r₁ ∈ report cats type_ categoryStats) (h₂ : r₂ ∈ report cats type_ categoryStats)
    (hcat : r₁.catID = r₂.catID) (hsub : r₁.subCatID = r₂.subCatID) : r₁ = r₂ := by
  obtain ⟨root₁, x₁, k₁, hroot₁, hpath₁, hx₁, hid₁, _⟩ := report_row_category hf h₁
  obtain ⟨root₂, x₂, k₂, hroot₂, hpath₂, hx₂, hc₂⟩ := report_row_cases hf h₂
  have hid₂ : x₂.CATEGID = r₂.catID := by
    rcases hc₂ with ⟨h, _⟩ | ⟨s, _, _, h⟩ <;> rw [h] <;> rfl
  have hx : x₁ = x₂ := hf.id_inj hx₁ hx₂ (by rw [hid₁, hid₂, hcat])
  subst hx
  by_cases hown : r₁.subCatID = -1
  · obtain ⟨ra, ka, hra, hpa, ha, _⟩ := report_own_row hf hx₁ h₁ hid₁.symm hown
    obtain ⟨rb, kb, hrb, hpb, hb, _⟩ :=
      report_own_row hf hx₁ h₂ hid₂.symm (hsub ▸ hown)
    obtain ⟨e1, e2⟩ := hf.ancestor_unique (Depth.top hra) (Depth.top hrb) hpa hpb
    subst e1 e2
    rw [ha, hb]
  · rcases hc₂ with ⟨h, _⟩ | ⟨s, hs, _, h⟩
    · exact absurd (by rw [hsub, h]; rfl) hown
    · have hsc : s ∈ cats := (mem_sub_category.1 hs).1
      have hs2 : r₂.subCatID = s.CATEGID := by rw [h]; rfl
      obtain ⟨ra, ka, hra, hpa, _, _, ha⟩ :=
        report_contribution_row hf hx₁ hsc h₁ hid₁.symm (hsub.trans hs2)
      obtain ⟨e1, e2⟩ := hf.ancestor_unique (Depth.top hra) (Depth.top hroot₂) hpa hpath₂
      subst e1 e2
      rw [ha, h]

theorem length_le_one_of_all_eq {α : Type} :
    ∀ l : List α, l.Nodup → (∀ a ∈ l, ∀ b ∈ l, a = b) → l.length ≤ 1
  | [], _, _ => Nat.zero_le 1
  | [_], _, _ => Nat.le_refl 1
  | a :: b :: l, hnd, h => by
    exfalso
    have hab := h a (List.mem_cons_self _ _) b
      (List.mem_cons_of_mem _ (List.mem_cons_self _ _))
    exact (List.nodup_cons.1 hnd).1 (hab ▸ List.mem_cons_self _ _)

/-- The report has at most one row for every category and for every subcategory. -/
theorem report_length_le {cats : List Category} (hf : Forest cats) (type_ : TYPE)
    (categoryStats : CategoryStats) :
    (report cats type_ categoryStats).length + (find_PARENTID cats (-1)).length ≤
      2 * cats.length := by
  have hkeys : ((report cats type_ categoryStats).map
      (fun r => (r.catID, r.subCatID))).Nodup := by
    apply List.Nodup.map_on _ (report_nodup hf type_ categoryStats)
    intro r₁ h₁ r₂ h₂ hkey
    exact report_row_ext hf h₁ h₂ (congrArg Prod.fst hkey) (congrArg Prod.snd hkey)
  have hsub : (report cats type_ categoryStats).map (fun r => (r.catID, r.subCatID)) ⊆
      cats.map (fun c => (c.CATEGID, (-1 : Int))) ++
        (cats.filter (fun c => !(c.PARENTID == -1))).map
          (fun c => (c.PARENTID, c.CATEGID)) := by
    intro key hkey
    obtain ⟨r, hr, rfl⟩ := List.mem_map.1 hkey
    obtain ⟨root, x, k, _, _, hx, h⟩ := report_row_cases hf hr
    rcases h with ⟨h, _⟩ | ⟨s, hs, _, h⟩
    · apply List.mem_append_left
      exact List.mem_map.2 ⟨x, hx, by rw [h]; rfl⟩
    · apply List.mem_append_right
      obtain ⟨hsc, hpar⟩ := mem_sub_category.1 hs
      refine List.mem_map.2 ⟨s, List.mem_filter.2 ⟨hsc, ?_⟩, by rw [h, hpar]; rfl⟩
      have : s.PARENTID ≠ -1 := hpar ▸ hf.ids_ne x hx
      simpa using this
  have hlen := (hkeys.subperm hsub).length_le
  simp only [List.length_map, List.length_append] at hlen
  have hsplit := List.length_eq_length_filter_add (l := cats)
    (fun c : Category => c.PARENTID == -1)
  unfold find_PARENTID
  omega

/-- C24 (row uniqueness and size bound).  On a forest, the sequence `RefreshData`
returns has no row twice, has at most one row for every pair of `catID` and `subCatID`
(at most one own row per category, at most one contribution row per parent and
subcategory), and has at most `2 * n - r` rows for `n` categories of which `r` are
top-level. -/
theorem rows_unique_and_bounded (cats : List Category) (type_ : TYPE)
    (categoryStats : CategoryStats) (fuel : Nat) (data_ : List data_holder)
    (hf : Forest cats) (hfuel : cats.length ≤ fuel) :
    ∃ out, RefreshData fuel cats type_ data_ categoryStats = some out ∧
      out.Nodup ∧
      (∀ id sub : Int,
        (out.filter (fun r => r.catID == id && r.subCatID == sub)).length ≤ 1) ∧
      out.length + (find_PARENTID cats (-1)).length ≤ 2 * cats.length ∧
      out.length ≤ 2 * cats.length - (find_PARENTID cats (-1)).length := by
  have hnd := report_nodup hf type_ categoryStats
  have hlen := report_length_le hf type_ categoryStats
  refine ⟨_, RefreshData_eq hf type_ categoryStats fuel hfuel data_, hnd, ?_, hlen, by omega⟩
  intro id sub
  apply length_le_one_of_all_eq _ (hnd.sublist (List.filter_sublist _))
  intro a ha b hb
  obtain ⟨ha1, ha2⟩ := List.mem_filter.1 ha
  obtain ⟨hb1, hb2⟩ := List.mem_filter.1 hb
  simp only [Bool.and_eq_true, beq_iff_eq] at ha2 hb2
  exact report_row_ext hf ha1 hb1 (ha2.1.trans hb2.1.symm) (ha2.2.trans hb2.2.symm)

/-! ## The subtrees of the top-level categories -/

/-- The subtrees of the top-level categories of a forest hold every category once. -/
theorem roots_subtrees_perm {cats : List Category} (hf : Forest cats) :
    ((stable_sort SorterByCATEGNAME (find_PARENTID cats (-1))).flatMap
      (subtree cats (cats.length + 1))).Perm cats := by
  obtain ⟨ht, hlen, hht⟩ := hf.exists_height
  have hroot : ∀ c, c ∈ stable_sort SorterByCATEGNAME (find_PARENTID cats (-1)) →
      TopLevel cats c := fun c hc => mem_find_PARENTID.1 (mem_stable_sort.1 hc)
  have hmem : ∀ c x, c ∈ cats → (x ∈ subtree cats (cats.length + 1) c ↔ Descends cats c x) :=
    fun c x hc => mem_subtree_fuel ht hht x _ c hc (Nat.lt_succ_of_lt (hlen c hc))
  rw [List.perm_ext_iff_of_nodup _ hf.nodup]
  · intro x
    rw [List.mem_flatMap]
    constructor
    · rintro ⟨c, hc, hx⟩
      obtain ⟨k, hk⟩ := (hmem c x (hroot c hc).1).1 hx
      exact hk.mem (hroot c hc).1
    · intro hx
      obtain ⟨root, k, hr, hpath⟩ := hf.exists_root hx
      exact ⟨root, mem_stable_sort.2 (mem_find_PARENTID.2 hr), (hmem root x hr.1).2 ⟨k, hpath⟩⟩
  · rw [List.nodup_flatMap]
    refine ⟨fun c hc => subtree_nodup_fuel hf ht hht _ c (hroot c hc).1
      (Nat.lt_succ_of_lt (hlen c (hroot c hc).1)), ?_⟩
    apply hf.nodup_roots.pairwise_of_forall_ne
    intro a ha b hb hab
    intro x hxa hxb
    obtain ⟨k, hk⟩ := (hmem a x (hroot a ha).1).1 hxa
    obtain ⟨k', hk'⟩ := (hmem b x (hroot b hb).1).1 hxb
    exact hab (hf.ancestor_unique (Depth.top (hroot a ha)) (Depth.top (hroot b hb)) hk hk').1

/-! ## The theorems of the last part at the worked example -/

/-- The top level and the recursive step at the worked example. -/
theorem top_level_is_recursive_step_witness :
    Forest foodTable ∧ foodTable.length ≤ 3 ∧
    ((∀ (n : Nat) (R : Category) (rest : List Category) (d : List data_holder),
      refreshLoop n foodTable TYPE.SUMMARY foodStats (R :: rest) d =
        (AppendData (n + 1) foodTable TYPE.SUMMARY d foodStats R R.CATEGID 0).bind
          (fun r => refreshLoop n foodTable TYPE.SUMMARY foodStats rest r.2)) ∧
    (∀ (n : Nat) (d : List data_holder),
      RefreshData n foodTable TYPE.SUMMARY d foodStats =
        RefreshDataRecursive (n + 1) foodTable TYPE.SUMMARY d foodStats) ∧
    (∃ out, RefreshData 3 foodTable TYPE.SUMMARY [] foodStats = some out ∧
      RefreshDataRecursive 3 foodTable TYPE.SUMMARY [] foodStats = some out) ∧
    ∀ R, TopLevel foodTable R → ∀ d : List data_holder,
      ∃ amount rows,
        AppendData 3 foodTable TYPE.SUMMARY d foodStats R R.CATEGID 0 =
          some (amount, rows ++ d) ∧
        refreshLoop 3 foodTable TYPE.SUMMARY foodStats [R] d = some (rows ++ d)) :=
  ⟨⟨by decide, by decide, by decide, ⟨fun i => if i = 1 then 1 else 0, by decide⟩⟩, by decide,
    top_level_is_recursive_step foodTable TYPE.SUMMARY foodStats 3 [] ⟨by decide, by decide, by decide, ⟨fun i => if i = 1 then 1 else 0, by decide⟩⟩ (by decide)⟩

/-- The pre-order layout at the worked example. -/
theorem pre_order_layout_witness :
    Forest foodTable ∧ foodTable.length ≤ 3 ∧
    ∃ out, RefreshData 3 foodTable TYPE.SUMMARY [] foodStats = some out ∧
      (∀ N ∈ foodTable, ∀ rN ∈ out, rN.catID = N.CATEGID → rN.subCatID = -1 →
        (∀ r ∈ out, r.catID = N.CATEGID → r.subCatID ≠ -1 →
          appearsBefore rN r out ∧ ¬ appearsBefore r rN out) ∧
        (∀ r ∈ out, ∀ x k, Path foodTable N x (k + 1) → r.catID = x.CATEGID →
          appearsBefore rN r out ∧ ¬ appearsBefore r rN out)) ∧
      (∀ rc ∈ out, rc.subCatID ≠ -1 →
        ∃ ro ∈ out, ro.catID = rc.subCatID ∧ ro.subCatID = -1 ∧
          directlyFollowedBy rc ro out) :=
  ⟨⟨by decide, by decide, by decide, ⟨fun i => if i = 1 then 1 else 0, by decide⟩⟩, by decide,
    pre_order_layout foodTable TYPE.SUMMARY foodStats 3 [] ⟨by decide, by decide, by decide, ⟨fun i => if i = 1 then 1 else 0, by decide⟩⟩ (by decide)⟩

/-- The rows of the worked example in the mode `GOES`: none is an orphan. -/
theorem no_orphan_rows_witness :
    Forest foodTable ∧ foodTable.length ≤ 3 ∧
    (TYPE.GOES = TYPE.GOES ∨ TYPE.GOES = TYPE.COME) ∧
    ∃ out, RefreshData 3 foodTable TYPE.GOES [] foodStats = some out ∧
      (∀ r ∈ out, ∀ N ∈ foodTable, r.catID = N.CATEGID →
        ∀ A ∈ foodTable, ∀ k, Path foodTable A N (k + 1) →
          ∃ ra ∈ out, ra.catID = A.CATEGID ∧ ra.subCatID = -1 ∧ appearsBefore ra r out) ∧
      (∀ r ∈ out, 0 < r.level →
        ∃ N ∈ foodTable, ∃ P ∈ foodTable, r.catID = N.CATEGID ∧ N.PARENTID = P.CATEGID ∧
          ∃ rp ∈ out, rp.catID = P.CATEGID ∧ rp.subCatID = -1 ∧
            appearsBefore rp r out) :=
  ⟨⟨by decide, by decide, by decide, ⟨fun i => if i = 1 then 1 else 0, by decide⟩⟩, by decide, Or.inl rfl,
    no_orphan_rows foodTable TYPE.GOES foodStats 3 [] ⟨by decide, by decide, by decide, ⟨fun i => if i = 1 then 1 else 0, by decide⟩⟩ (by decide) (Or.inl rfl)⟩

/-- The number of rows of the worked example: five, for three categories of which one is
top-level. -/
theorem rows_unique_and_bounded_witness :
    Forest foodTable ∧ foodTable.length ≤ 3 ∧
    ∃ out, RefreshData 3 foodTable TYPE.SUMMARY [] foodStats = some out ∧
      out.Nodup ∧
      (∀ id sub : Int,
        (out.filter (fun r => r.catID == id && r.subCatID == sub)).length ≤ 1) ∧
      out.length + (find_PARENTID foodTable (-1)).length ≤ 2 * foodTable.length ∧
      out.length ≤ 2 * foodTable.length - (find_PARENTID foodTable (-1)).length :=
  ⟨⟨by decide, by decide, by decide, ⟨fun i => if i = 1 then 1 else 0, by decide⟩⟩, by decide,
    rows_unique_and_bounded foodTable TYPE.SUMMARY foodStats 3 [] ⟨by decide, by decide, by decide, ⟨fun i => if i = 1 then 1 else 0, by decide⟩⟩ (by decide)⟩

/-! ## Two more examples with exact amounts -/

/-- The worked example with an amount index that has no entry for `Dining`, a category
of the table, and with the index extended by the entry `3 -> 0`: the same sequence, in
which `Dining` has no row. -/
theorem absent_amount_is_zero_witness :
    (foodStatsWithoutDining ++ []).lookup 3 = none ∧
    dining ∈ foodTable ∧ dining.CATEGID = 3 ∧
    Forest foodTable ∧ foodTable.length ≤ 3 ∧
    RefreshData 3 foodTable TYPE.SUMMARY [] (foodStatsWithoutDining ++ []) =
      some [⟨1, -1, "Food", -10, 1, 0⟩, ⟨1, 2, "Food", -50, 1, 0⟩,
        ⟨2, -1, "Groceries", -50, 1, 1⟩] ∧
    RefreshData 3 foodTable TYPE.SUMMARY [] (foodStatsWithoutDining ++ (3, [(0, 0)]) :: []) =
      RefreshData 3 foodTable TYPE.SUMMARY [] (foodStatsWithoutDining ++ []) ∧
    (Forest foodTable → foodTable.length ≤ 3 →
      ∃ out, RefreshData 3 foodTable TYPE.SUMMARY [] (foodStatsWithoutDining ++ []) =
          some out ∧
        RefreshData 3 foodTable TYPE.SUMMARY []
          (foodStatsWithoutDining ++ (3, [(0, 0)]) :: []) = some out) :=
  ⟨by decide, by decide, rfl,
    ⟨by decide, by decide, by decide, ⟨fun i => if i = 1 then 1 else 0, by decide⟩⟩,
    by decide, by decide,
    absent_amount_is_zero foodTable TYPE.SUMMARY foodStatsWithoutDining [] 3 [] 3 (by decide)⟩

/-- The order of the top-level rows for a table whose three top-level categories are
not in the order of their names: the own rows at level `0` are those of `Auto`, `Bills`
and `Food`, in this order. -/
theorem presorted_by_name_witness :
    Forest householdTable ∧ householdTable.length ≤ 4 ∧
    (householdTable.filter (fun c => c.PARENTID == -1)).map (fun c => c.CATEGNAME) =
      ["Food", "Auto", "Bills"] ∧
    (RefreshData 4 householdTable TYPE.SUMMARY [] householdStats).map
      (fun out => (out.filter (fun r => r.level == 0 && r.subCatID == -1)).map
        (fun r => r.name)) = some ["Auto", "Bills", "Food"] ∧
    ∃ out, RefreshData 4 householdTable TYPE.SUMMARY [] householdStats = some out ∧
      ((out.filter (fun r => r.level == 0 && r.subCatID == -1)).map
        (fun r => r.name)).Pairwise (fun a b => a ≤ b) :=
  ⟨⟨by decide, by decide, by decide, ⟨fun i => if i = 1 then 1 else 0, by decide⟩⟩,
    by decide, by decide, by decide,
    presorted_by_name householdTable TYPE.SUMMARY householdStats 4 []
      ⟨by decide, by decide, by decide, ⟨fun i => if i = 1 then 1 else 0, by decide⟩⟩
      (by decide)⟩

/-! # The roll-up and the totals with `double` amounts -/

namespace Binary64

/-! ## The roll-up with `double` amounts: what the loops compute -/

theorem foldl_add_congr {A B : Category → double} :
    ∀ (l : List Category), (∀ s ∈ l, A s = B s) → ∀ acc : double,
      l.foldl (fun subamount s => subamount + A s) acc =
        l.foldl (fun subamount s => subamount + B s) acc
  | [], _, _ => rfl
  | s :: l, h, acc => by
    rw [List.foldl_cons, List.foldl_cons, h s (List.mem_cons_self _ _)]
    exact foldl_add_congr l (fun x hx => h x (List.mem_cons_of_mem _ hx)) _

theorem sumInOrder_congr {A B : Category → double} {l : List Category}
    (h : ∀ s ∈ l, A s = B s) : sumInOrder l A = sumInOrder l B :=
  foldl_add_congr l h 0

theorem mem_subcategories {cats : List Category} {c s : Category} :
    s ∈ subcategories cats c ↔ s ∈ sub_category cats c := by
  unfold subcategories
  rw [List.mem_reverse, mem_stable_sort]

theorem subtreeAmount_fuel_double {cats : List Category} (type_ : TYPE)
    (categoryStats : CategoryStats) (ht : Category → Nat)
    (hht : ∀ c ∈ cats, ∀ s ∈ sub_category cats c, ht s < ht c) :
    ∀ (n m : Nat) (c : Category), c ∈ cats → ht c < n → ht c < m →
      subtreeAmount cats type_ categoryStats n c = subtreeAmount cats type_ categoryStats m c := by
  intro n
  induction n with
  | zero => intro m c _ h; omega
  | succ n ih =>
    intro m c hc hn hm
    cases m with
    | zero => omega
    | succ m =>
      simp only [subtreeAmount]
      congr 1
      apply sumInOrder_congr
      intro s hs
      have hs' := mem_subcategories.1 hs
      have := hht c hc s hs'
      exact ih m s (mem_sub_category.1 hs').1 (by omega) (by omega)

theorem rowsOf_fuel_double {cats : List Category} (type_ : TYPE)
    (categoryStats : CategoryStats) (groupID : Int) (ht : Category → Nat)
    (hht : ∀ c ∈ cats, ∀ s ∈ sub_category cats c, ht s < ht c) :
    ∀ (n m : Nat) (c : Category) (level : Nat), c ∈ cats → ht c < n → ht c < m →
      rowsOf cats type_ categoryStats groupID n c level =
        rowsOf cats type_ categoryStats groupID m c level := by
  intro n
  induction n with
  | zero => intro m c _ _ h; omega
  | succ n ih =>
    intro m c level hc hn hm
    cases m with
    | zero => omega
    | succ m =>
      have hamt : ∀ s ∈ sub_category cats c,
          subtreeAmount cats type_ categoryStats n s =
            subtreeAmount cats type_ categoryStats m s := by
        intro s hs
        have := hht c hc s hs
        exact subtreeAmount_fuel_double type_ categoryStats ht hht n m s
          (mem_sub_category.1 hs).1 (by omega) (by omega)
      have hsum : sumInOrder (subcategories cats c) (subtreeAmount cats type_ categoryStats n) =
          sumInOrder (subcategories cats c) (subtreeAmount cats type_ categoryStats m) :=
        sumInOrder_congr (fun s hs => hamt s (mem_subcategories.1 hs))
      simp only [rowsOf]
      rw [hsum]
      congr 1
      apply List.flatMap_congr
      intro s hs
      have hs' : s ∈ sub_category cats c := mem_stable_sort.1 hs
      have := hht c hc s hs'
      rw [hamt s hs', ih m s (level + 1) (mem_sub_category.1 hs').1 (by omega) (by omega)]

/-- The loop of `AppendData`, when every recursive call returns the amount `A s` and
puts the rows `R s` in front of `data_`. -/
theorem appendLoop_eq_double
    (call : List data_holder → Category → Option (double × List data_holder))
    (category : Category) (groupID : Int) (level : Nat)
    (A : Category → double) (R : Category → List data_holder) :
    ∀ (l : List Category) (subamount : double) (data_ : List data_holder),
      (∀ s ∈ l, ∀ d, call d s = some (A s, R s ++ d)) →
      appendLoop call category groupID level l (subamount, data_) =
        some (l.foldl (fun subamount s => subamount + A s) subamount,
          l.reverse.flatMap (fun s =>
            (if A s ≠ 0 then [contributionRow category s (A s) groupID level] else []) ++ R s)
          ++ data_)
  | [], subamount, data_, _ => by simp [appendLoop]
  | s :: rest, subamount, data_, h => by
    have hs := h s (List.mem_cons_self _ _) data_
    have ih := appendLoop_eq_double call category groupID level A R rest
      (subamount + A s)
      ((if A s ≠ 0 then [contributionRow category s (A s) groupID level] else []) ++ R s ++ data_)
      (fun x hx d => h x (List.mem_cons_of_mem _ hx) d)
    simp only [appendLoop, hs]
    have hd : (if A s ≠ 0 then
          ({ catID := category.CATEGID, subCatID := s.CATEGID,
             name := category.CATEGNAME, amount := A s, categs := groupID,
             level := level } : data_holder) :: (R s ++ data_)
        else R s ++ data_) =
        (if A s ≠ 0 then [contributionRow category s (A s) groupID level] else []) ++ R s
          ++ data_ := by
      by_cases h0 : A s = 0 <;> simp [h0, contributionRow]
    rw [hd, ih]
    simp [List.flatMap_append]

/-- The inner loop of `RefreshData` is the loop of `AppendData` at `groupID =
category.CATEGID` and `level = 0`. -/
theorem refreshSubLoop_eq_appendLoop_double (fuel : Nat) (cats : List Category)
    (type_ : TYPE) (categoryStats : CategoryStats) (category : Category) :
    ∀ (l : List Category) (st : double × List data_holder),
      refreshSubLoop fuel cats type_ categoryStats category l st =
        appendLoop
          (fun d s => AppendData fuel cats type_ d categoryStats s category.CATEGID (0 + 1))
          category category.CATEGID 0 l st
  | [], st => by simp [refreshSubLoop, appendLoop]
  | s :: rest, (subamount, data_) => by
    simp only [refreshSubLoop, appendLoop]
    cases AppendData fuel cats type_ data_ categoryStats s category.CATEGID 1 with
    | none => rfl
    | some r =>
      obtain ⟨amount, d⟩ := r
      exact refreshSubLoop_eq_appendLoop_double fuel cats type_ categoryStats category rest _

/-- With a budget above the height of `c`, `AppendData` returns the subtree amount of
`c` and puts the rows of `c` in front of `data_`. -/
theorem AppendData_eq_double {cats : List Category} (type_ : TYPE)
    (categoryStats : CategoryStats) (groupID : Int) (ht : Category → Nat)
    (hht : ∀ c ∈ cats, ∀ s ∈ sub_category cats c, ht s < ht c) :
    ∀ (n : Nat) (c : Category) (level : Nat) (data_ : List data_holder),
      c ∈ cats → ht c < n →
      AppendData n cats type_ data_ categoryStats c groupID level =
        some (subtreeAmount cats type_ categoryStats n c,
          rowsOf cats type_ categoryStats groupID n c level ++ data_) := by
  intro n
  induction n with
  | zero => intro c _ _ _ h; omega
  | succ n ih =>
    intro c level data_ hc hn
    have hcall : ∀ s ∈ (stable_sort SorterByCATEGNAME (sub_category cats c)).reverse,
        ∀ d, (fun d s => AppendData n cats type_ d categoryStats s groupID (level + 1)) d s =
          some (subtreeAmount cats type_ categoryStats n s,
            rowsOf cats type_ categoryStats groupID n s (level + 1) ++ d) := by
      intro s hs d
      have hs' : s ∈ sub_category cats c := mem_stable_sort.1 (List.mem_reverse.1 hs)
      have := hht c hc s hs'
      exact ih s (level + 1) d (mem_sub_category.1 hs').1 (by omega)
    rw [AppendData]
    simp only []
    rw [appendLoop_eq_double _ c groupID level _ _ _ 0 data_ hcall]
    simp only [List.reverse_reverse, subtreeAmount, rowsOf, ownRow, sumInOrder, subcategories]
    by_cases h0 : ownAmount type_ categoryStats c ≠ 0 ∨
        List.foldl (fun subamount s => subamount + subtreeAmount cats type_ categoryStats n s) 0
          (stable_sort SorterByCATEGNAME (sub_category cats c)).reverse ≠ 0
    · simp only [h0, if_true, List.singleton_append, List.cons_append, List.append_assoc,
      List.nil_append]
    · simp only [h0, if_false, List.nil_append, List.append_assoc]

/-- One iteration of the outer loop of `RefreshData` puts the rows of the top-level
category in front of `data_`. -/
theorem refreshLoop_cons_double {cats : List Category} (type_ : TYPE)
    (categoryStats : CategoryStats) (ht : Category → Nat)
    (hht : ∀ c ∈ cats, ∀ s ∈ sub_category cats c, ht s < ht c)
    (fuel : Nat) (hfuel : ∀ c ∈ cats, ht c < fuel)
    (c : Category) (rest : List Category) (data_ : List data_holder) :
    refreshLoop fuel cats type_ categoryStats (c :: rest) data_ =
      refreshLoop fuel cats type_ categoryStats rest
        (rowsOf cats type_ categoryStats c.CATEGID (fuel + 1) c 0 ++ data_) := by
  have hcall : ∀ s ∈ (stable_sort SorterByCATEGNAME (sub_category cats c)).reverse,
      ∀ d, (fun d s => AppendData fuel cats type_ d categoryStats s c.CATEGID (0 + 1)) d s =
        some (subtreeAmount cats type_ categoryStats fuel s,
          rowsOf cats type_ categoryStats c.CATEGID fuel s (0 + 1) ++ d) := by
    intro s hs d
    have hs' : s ∈ sub_category cats c := mem_stable_sort.1 (List.mem_reverse.1 hs)
    exact AppendData_eq_double type_ categoryStats c.CATEGID ht hht fuel s (0 + 1) d
      (mem_sub_category.1 hs').1 (hfuel s (mem_sub_category.1 hs').1)
  rw [refreshLoop]
  simp only []
  rw [refreshSubLoop_eq_appendLoop_double,
    appendLoop_eq_double _ c c.CATEGID 0 _ _ _ 0 data_ hcall]
  simp only [List.reverse_reverse, rowsOf, ownRow, sumInOrder, subcategories]
  by_cases h0 : ownAmount type_ categoryStats c ≠ 0 ∨
      List.foldl (fun subamount s => subamount + subtreeAmount cats type_ categoryStats fuel s)
        0 (stable_sort SorterByCATEGNAME (sub_category cats c)).reverse ≠ 0
  · simp only [h0, if_true, List.singleton_append, List.cons_append, List.append_assoc,
      List.nil_append]
  · simp only [h0, if_false, List.nil_append, List.append_assoc]

theorem refreshLoop_eq_double {cats : List Category} (type_ : TYPE)
    (categoryStats : CategoryStats) (ht : Category → Nat)
    (hht : ∀ c ∈ cats, ∀ s ∈ sub_category cats c, ht s < ht c)
    (fuel : Nat) (hfuel : ∀ c ∈ cats, ht c < fuel) :
    ∀ (l : List Category) (data_ : List data_holder), (∀ c ∈ l, c ∈ cats) →
      refreshLoop fuel cats type_ categoryStats l data_ =
        some (l.reverse.flatMap
            (fun c => rowsOf cats type_ categoryStats c.CATEGID (fuel + 1) c 0) ++ data_)
  | [], data_, _ => by simp [refreshLoop]
  | c :: rest, data_, h => by
    rw [refreshLoop_cons_double type_ categoryStats ht hht fuel hfuel c,
      refreshLoop_eq_double type_ categoryStats ht hht fuel hfuel rest _
        (fun x hx => h x (List.mem_cons_of_mem _ hx))]
    simp [List.flatMap_append]

/-- On a forest, with a recursion budget of at least the number of categories,
`RefreshData` returns, and what it leaves in `data_` is `report`, whatever `data_` held
before. -/
theorem RefreshData_eq_double {cats : List Category} (hf : Forest cats) (type_ : TYPE)
    (categoryStats : CategoryStats) (fuel : Nat) (hfuel : cats.length ≤ fuel)
    (data_ : List data_holder) :
    RefreshData fuel cats type_ data_ categoryStats =
      some (report cats type_ categoryStats) := by
  obtain ⟨ht, hlen, hht⟩ := hf.exists_height
  have hfuel' : ∀ c ∈ cats, ht c < fuel := fun c hc => lt_of_lt_of_le (hlen c hc) hfuel
  unfold RefreshData
  simp only [clear]
  rw [refreshLoop_eq_double type_ categoryStats ht hht fuel hfuel' _ []
    (fun c hc => (mem_find_PARENTID.1 (mem_stable_sort.1 (List.mem_reverse.1 hc))).1)]
  simp only [List.reverse_reverse, List.append_nil, report]
  congr 1
  apply List.flatMap_congr
  intro c hc
  have hc' : c ∈ cats := (mem_find_PARENTID.1 (mem_stable_sort.1 hc)).1
  exact rowsOf_fuel_double type_ categoryStats c.CATEGID ht hht _ _ c 0 hc'
    (by have := hfuel' c hc'; omega) (by have := hlen c hc'; omega)

/-- On a forest, with a recursion budget above the number of categories, `AppendData`
returns the subtree amount of the category. -/
theorem AppendData_returns_subtreeTotal {cats : List Category} (hf : Forest cats)
    (type_ : TYPE) (categoryStats : CategoryStats) (fuel : Nat) (hfuel : cats.length ≤ fuel)
    (c : Category) (hc : c ∈ cats) (groupID : Int) (level : Nat) (data_ : List data_holder) :
    ∃ rows, AppendData fuel cats type_ data_ categoryStats c groupID level =
      some (subtreeTotal cats type_ categoryStats c, rows) := by
  obtain ⟨ht, hlen, hht⟩ := hf.exists_height
  have h := AppendData_eq_double type_ categoryStats groupID ht hht fuel c level data_ hc
    (lt_of_lt_of_le (hlen c hc) hfuel)
  rw [subtreeAmount_fuel_double type_ categoryStats ht hht fuel cats.length c hc
    (lt_of_lt_of_le (hlen c hc) hfuel) (hlen c hc)] at h
  exact ⟨_, h⟩

/-! ## The rows of the report with `double` amounts -/

theorem subtreeAmount_eq_subtreeTotal_double {cats : List Category} (type_ : TYPE)
    (categoryStats : CategoryStats) (ht : Category → Nat)
    (hlen : ∀ c ∈ cats, ht c < cats.length)
    (hht : ∀ c ∈ cats, ∀ s ∈ sub_category cats c, ht s < ht c)
    (n : Nat) (c : Category) (hc : c ∈ cats) (hn : ht c < n) :
    subtreeAmount cats type_ categoryStats n c = subtreeTotal cats type_ categoryStats c :=
  subtreeAmount_fuel_double type_ categoryStats ht hht n cats.length c hc hn (hlen c hc)

theorem sumInOrder_subtreeAmount {cats : List Category} (type_ : TYPE)
    (categoryStats : CategoryStats) (ht : Category → Nat)
    (hlen : ∀ c ∈ cats, ht c < cats.length)
    (hht : ∀ c ∈ cats, ∀ s ∈ sub_category cats c, ht s < ht c)
    (n : Nat) (c : Category) (hc : c ∈ cats) (hn : ht c < n + 1) :
    sumInOrder (subcategories cats c) (subtreeAmount cats type_ categoryStats n) =
      subcategoriesTotal cats type_ categoryStats c := by
  unfold subcategoriesTotal
  apply sumInOrder_congr
  intro s hs
  have hs' := mem_subcategories.1 hs
  have := hht c hc s hs'
  exact subtreeAmount_eq_subtreeTotal_double type_ categoryStats ht hlen hht n s
    (mem_sub_category.1 hs').1 (by omega)

/-- The recursion equation of the rows of a category, with the subtree amounts of the
subcategories. -/
theorem rowsOf_succ_double {cats : List Category} (type_ : TYPE)
    (categoryStats : CategoryStats) (groupID : Int) (ht : Category → Nat)
    (hlen : ∀ c ∈ cats, ht c < cats.length)
    (hht : ∀ c ∈ cats, ∀ s ∈ sub_category cats c, ht s < ht c)
    (n : Nat) (c : Category) (level : Nat) (hc : c ∈ cats) (hn : ht c < n + 1) :
    rowsOf cats type_ categoryStats groupID (n + 1) c level =
      (if ownAmount type_ categoryStats c ≠ 0 ∨
          subcategoriesTotal cats type_ categoryStats c ≠ 0
        then [ownRow type_ categoryStats c groupID level] else []) ++
      (stable_sort SorterByCATEGNAME (sub_category cats c)).flatMap (fun s =>
        (if subtreeTotal cats type_ categoryStats s ≠ 0
          then [contributionRow c s (subtreeTotal cats type_ categoryStats s) groupID level]
          else []) ++
        rowsOf cats type_ categoryStats groupID n s (level + 1)) := by
  have hamt : ∀ s ∈ sub_category cats c,
      subtreeAmount cats type_ categoryStats n s = subtreeTotal cats type_ categoryStats s := by
    intro s hs
    have := hht c hc s hs
    exact subtreeAmount_eq_subtreeTotal_double type_ categoryStats ht hlen hht n s
      (mem_sub_category.1 hs).1 (by omega)
  simp only [rowsOf]
  rw [sumInOrder_subtreeAmount type_ categoryStats ht hlen hht n c hc hn]
  congr 1
  apply List.flatMap_congr
  intro s hs
  rw [hamt s (mem_stable_sort.1 hs)]

/-- The recursion equation of the subtree amount: the value `AppendData` returns is
`amt + subamount`. -/
theorem subtreeTotal_eq_double {cats : List Category} (hf : Forest cats) (type_ : TYPE)
    (categoryStats : CategoryStats) (c : Category) (hc : c ∈ cats) :
    subtreeTotal cats type_ categoryStats c =
      ownAmount type_ categoryStats c + subcategoriesTotal cats type_ categoryStats c := by
  obtain ⟨ht, hlen, hht⟩ := hf.exists_height
  have h1 : subtreeTotal cats type_ categoryStats c =
      subtreeAmount cats type_ categoryStats (cats.length + 1) c :=
    subtreeAmount_fuel_double type_ categoryStats ht hht _ _ c hc (hlen c hc)
      (by have := hlen c hc; omega)
  rw [h1]
  simp only [subtreeAmount]
  rw [sumInOrder_subtreeAmount type_ categoryStats ht hlen hht cats.length c hc
    (by have := hlen c hc; omega)]

theorem mem_rowsOf_succ_double {cats : List Category} (type_ : TYPE)
    (categoryStats : CategoryStats) (groupID : Int) (ht : Category → Nat)
    (hlen : ∀ c ∈ cats, ht c < cats.length)
    (hht : ∀ c ∈ cats, ∀ s ∈ sub_category cats c, ht s < ht c)
    (n : Nat) (c : Category) (level : Nat) (hc : c ∈ cats) (hn : ht c < n + 1)
    (r : data_holder) :
    r ∈ rowsOf cats type_ categoryStats groupID (n + 1) c level ↔
      r ∈ lineRows cats type_ categoryStats groupID c level ∨
      ∃ s ∈ sub_category cats c,
        r ∈ rowsOf cats type_ categoryStats groupID n s (level + 1) := by
  rw [rowsOf_succ_double type_ categoryStats groupID ht hlen hht n c level hc hn]
  simp only [lineRows, List.mem_append, List.mem_flatMap, mem_stable_sort]
  constructor
  · rintro (h | ⟨s, hs, h | h⟩)
    · exact Or.inl (Or.inl h)
    · exact Or.inl (Or.inr ⟨s, hs, h⟩)
    · exact Or.inr ⟨s, hs, h⟩
  · rintro ((h | ⟨s, hs, h⟩) | ⟨s, hs, h⟩)
    · exact Or.inl h
    · exact Or.inr ⟨s, hs, Or.inl h⟩
    · exact Or.inr ⟨s, hs, Or.inr h⟩

/-- A row is among the rows of `c` exactly when it is on the line of `c` or of a
descendant of `c`, at that category's level. -/
theorem mem_rowsOf_double {cats : List Category} (type_ : TYPE)
    (categoryStats : CategoryStats) (groupID : Int) (ht : Category → Nat)
    (hlen : ∀ c ∈ cats, ht c < cats.length)
    (hht : ∀ c ∈ cats, ∀ s ∈ sub_category cats c, ht s < ht c) (r : data_holder) :
    ∀ (n : Nat) (c : Category) (level : Nat), c ∈ cats → ht c < n →
      (r ∈ rowsOf cats type_ categoryStats groupID n c level ↔
        ∃ x k, Path cats c x k ∧
          r ∈ lineRows cats type_ categoryStats groupID x (level + k)) := by
  intro n
  induction n with
  | zero => intro c _ _ h; omega
  | succ n ih =>
    intro c level hc hn
    rw [mem_rowsOf_succ_double type_ categoryStats groupID ht hlen hht n c level hc hn]
    constructor
    · rintro (h | ⟨s, hs, h⟩)
      · exact ⟨c, 0, Path.self c, h⟩
      · have := hht c hc s hs
        obtain ⟨x, k, hpath, hx⟩ :=
          (ih s (level + 1) (mem_sub_category.1 hs).1 (by omega)).1 h
        refine ⟨x, k + 1, Path.cons hs hpath, ?_⟩
        rwa [show level + (k + 1) = level + 1 + k by omega]
    · rintro ⟨x, k, hpath, hx⟩
      cases k with
      | zero =>
        have := hpath.zero
        subst this
        exact Or.inl hx
      | succ k =>
        obtain ⟨s, hs, hsp⟩ := hpath.uncons
        have := hht c hc s hs
        refine Or.inr ⟨s, hs, (ih s (level + 1) (mem_sub_category.1 hs).1 (by omega)).2
          ⟨x, k, hsp, ?_⟩⟩
        rwa [show level + 1 + k = level + (k + 1) by omega]

/-- A row is in the report exactly when it is on the line of some category, with the
identifier of the top-level ancestor of that category and at the depth of that
category. -/
theorem mem_report_double {cats : List Category} (hf : Forest cats) (type_ : TYPE)
    (categoryStats : CategoryStats) (r : data_holder) :
    r ∈ report cats type_ categoryStats ↔
      ∃ root x k, TopLevel cats root ∧ Path cats root x k ∧
        r ∈ lineRows cats type_ categoryStats root.CATEGID x k := by
  obtain ⟨ht, hlen, hht⟩ := hf.exists_height
  simp only [report, List.mem_flatMap, mem_stable_sort, mem_find_PARENTID]
  constructor
  · rintro ⟨root, hroot, h⟩
    obtain ⟨x, k, hpath, hx⟩ :=
      (mem_rowsOf_double type_ categoryStats root.CATEGID ht hlen hht r _ root 0 hroot.1
        (by have := hlen root hroot.1; omega)).1 h
    exact ⟨root, x, k, hroot, hpath, by simpa using hx⟩
  · rintro ⟨root, x, k, hroot, hpath, hx⟩
    exact ⟨root, hroot,
      (mem_rowsOf_double type_ categoryStats root.CATEGID ht hlen hht r _ root 0 hroot.1
        (by have := hlen root hroot.1; omega)).2 ⟨x, k, hpath, by simpa using hx⟩⟩

theorem mem_lineRows_double {cats : List Category} {type_ : TYPE}
    {categoryStats : CategoryStats} {groupID : Int} {c : Category} {level : Nat}
    {r : data_holder} :
    r ∈ lineRows cats type_ categoryStats groupID c level ↔
      (r = ownRow type_ categoryStats c groupID level ∧
        (ownAmount type_ categoryStats c ≠ 0 ∨
          subcategoriesTotal cats type_ categoryStats c ≠ 0)) ∨
      ∃ s ∈ sub_category cats c, subtreeTotal cats type_ categoryStats s ≠ 0 ∧
        r = contributionRow c s (subtreeTotal cats type_ categoryStats s) groupID level := by
  simp only [lineRows, List.mem_append, List.mem_flatMap, mem_stable_sort]
  constructor
  · rintro (h | ⟨s, hs, h⟩)
    · by_cases h0 : ownAmount type_ categoryStats c ≠ 0 ∨
          subcategoriesTotal cats type_ categoryStats c ≠ 0
      · rw [if_pos h0] at h
        exact Or.inl ⟨List.mem_singleton.1 h, h0⟩
      · rw [if_neg h0] at h
        cases h
    · by_cases h0 : subtreeTotal cats type_ categoryStats s ≠ 0
      · rw [if_pos h0] at h
        exact Or.inr ⟨s, hs, h0, List.mem_singleton.1 h⟩
      · rw [if_neg h0] at h
        cases h
  · rintro (⟨h, h0⟩ | ⟨s, hs, h0, h⟩)
    · left
      rw [if_pos h0]
      exact List.mem_singleton.2 h
    · right
      refine ⟨s, hs, ?_⟩
      rw [if_pos h0]
      exact List.mem_singleton.2 h

/-- The line of every category of a forest is in the report. -/
theorem lineRows_subset_report_double {cats : List Category} (hf : Forest cats)
    (type_ : TYPE) (categoryStats : CategoryStats) {c : Category} (hc : c ∈ cats) :
    ∃ root k, TopLevel cats root ∧ Path cats root c k ∧
      ∀ r ∈ lineRows cats type_ categoryStats root.CATEGID c k,
        r ∈ report cats type_ categoryStats := by
  obtain ⟨root, k, hroot, hpath⟩ := hf.exists_root hc
  exact ⟨root, k, hroot, hpath, fun r hr =>
    (mem_report_double hf type_ categoryStats r).2 ⟨root, c, k, hroot, hpath, hr⟩⟩

/-- Every row of the report is the own row of a category or the contribution row of a
subcategory, with the identifier of the top-level ancestor and the depth of the
category the row is attributed to. -/
theorem report_row_cases_double {cats : List Category} (hf : Forest cats) {type_ : TYPE}
    {categoryStats : CategoryStats} {r : data_holder}
    (hr : r ∈ report cats type_ categoryStats) :
    ∃ root x k, TopLevel cats root ∧ Path cats root x k ∧ x ∈ cats ∧
      ((r = ownRow type_ categoryStats x root.CATEGID k ∧
          (ownAmount type_ categoryStats x ≠ 0 ∨
            subcategoriesTotal cats type_ categoryStats x ≠ 0)) ∨
        ∃ s ∈ sub_category cats x, subtreeTotal cats type_ categoryStats s ≠ 0 ∧
          r = contributionRow x s (subtreeTotal cats type_ categoryStats s) root.CATEGID k) := by
  obtain ⟨root, x, k, hroot, hpath, hx⟩ := (mem_report_double hf type_ categoryStats r).1 hr
  exact ⟨root, x, k, hroot, hpath, hpath.mem hroot.1, mem_lineRows_double.1 hx⟩

/-- A row of the report with the `catID` of `N` and `subCatID = -1` is the own row of
`N`. -/
theorem report_own_row_double {cats : List Category} (hf : Forest cats) {type_ : TYPE}
    {categoryStats : CategoryStats} {r : data_holder} {N : Category} (hN : N ∈ cats)
    (hr : r ∈ report cats type_ categoryStats) (hcat : r.catID = N.CATEGID)
    (hsub : r.subCatID = -1) :
    ∃ root k, TopLevel cats root ∧ Path cats root N k ∧
      r = ownRow type_ categoryStats N root.CATEGID k ∧
      (ownAmount type_ categoryStats N ≠ 0 ∨
        subcategoriesTotal cats type_ categoryStats N ≠ 0) := by
  obtain ⟨root, x, k, hroot, hpath, hx, h⟩ := report_row_cases_double hf hr
  rcases h with ⟨h, h0⟩ | ⟨s, hs, _, h⟩
  · have hxN : x = N := hf.id_inj hx hN (by rw [← hcat, h]; rfl)
    subst hxN
    exact ⟨root, k, hroot, hpath, h, h0⟩
  · exfalso
    apply hf.ids_ne s (mem_sub_category.1 hs).1
    rw [← hsub, h]
    rfl

/-- A row of the report with the `catID` of `P` and the `subCatID` of `C` is the
contribution row of the subcategory `C` of `P`. -/
theorem report_contribution_row_double {cats : List Category} (hf : Forest cats)
    {type_ : TYPE} {categoryStats : CategoryStats} {r : data_holder} {P C : Category}
    (hP : P ∈ cats) (hC : C ∈ cats) (hr : r ∈ report cats type_ categoryStats)
    (hcat : r.catID = P.CATEGID) (hsub : r.subCatID = C.CATEGID) :
    ∃ root k, TopLevel cats root ∧ Path cats root P k ∧ C ∈ sub_category cats P ∧
      subtreeTotal cats type_ categoryStats C ≠ 0 ∧
      r = contributionRow P C (subtreeTotal cats type_ categoryStats C) root.CATEGID k := by
  obtain ⟨root, x, k, hroot, hpath, hx, h⟩ := report_row_cases_double hf hr
  rcases h with ⟨h, _⟩ | ⟨s, hs, h0, h⟩
  · exfalso
    apply hf.ids_ne C hC
    rw [← hsub, h]
    rfl
  · have hxP : x = P := hf.id_inj hx hP (by rw [← hcat, h]; rfl)
    subst hxP
    have hsC : s = C := hf.id_inj (mem_sub_category.1 hs).1 hC (by rw [← hsub, h]; rfl)
    subst hsC
    exact ⟨root, k, hroot, hpath, hs, h0, h⟩

theorem lineRows_catID_double {cats : List Category} {type_ : TYPE}
    {categoryStats : CategoryStats} {groupID : Int} {c : Category} {level : Nat}
    {r : data_holder} (h : r ∈ lineRows cats type_ categoryStats groupID c level) :
    r.catID = c.CATEGID := by
  rcases mem_lineRows_double.1 h with ⟨h, _⟩ | ⟨s, _, _, h⟩ <;> rw [h] <;> rfl

theorem lineRows_categs_double {cats : List Category} {type_ : TYPE}
    {categoryStats : CategoryStats} {groupID : Int} {c : Category} {level : Nat}
    {r : data_holder} (h : r ∈ lineRows cats type_ categoryStats groupID c level) :
    r.categs = groupID := by
  rcases mem_lineRows_double.1 h with ⟨h, _⟩ | ⟨s, _, _, h⟩ <;> rw [h] <;> rfl

/-- The rows of `c` that have the `catID` of a category outside the subtree of `c`:
none. -/
theorem filter_rowsOf_nil_double {cats : List Category} (hf : Forest cats) (type_ : TYPE)
    (categoryStats : CategoryStats) (groupID : Int) (ht : Category → Nat)
    (hlen : ∀ c ∈ cats, ht c < cats.length)
    (hht : ∀ c ∈ cats, ∀ s ∈ sub_category cats c, ht s < ht c)
    (n : Nat) (c : Category) (level : Nat) (x : Category) (hc : c ∈ cats) (hn : ht c < n)
    (hx : x ∈ cats) (hnot : ¬ Descends cats c x) :
    (rowsOf cats type_ categoryStats groupID n c level).filter
      (fun r => r.catID == x.CATEGID) = [] := by
  rw [List.filter_eq_nil_iff]
  intro r hr hp
  obtain ⟨y, k, hpath, hy⟩ :=
    (mem_rowsOf_double type_ categoryStats groupID ht hlen hht r n c level hc hn).1 hr
  have hid : y.CATEGID = x.CATEGID := by
    rw [← lineRows_catID_double hy]
    simpa using hp
  have := hf.id_inj (hpath.mem hc) hx hid
  subst this
  exact hnot ⟨k, hpath⟩

/-- The rows of `c` that have the `catID` of a category `x` of the subtree of `c`: the
line of `x`. -/
theorem filter_rowsOf_double {cats : List Category} (hf : Forest cats) (type_ : TYPE)
    (categoryStats : CategoryStats) (groupID : Int) (ht : Category → Nat)
    (hlen : ∀ c ∈ cats, ht c < cats.length)
    (hht : ∀ c ∈ cats, ∀ s ∈ sub_category cats c, ht s < ht c) :
    ∀ (n : Nat) (c : Category) (level : Nat) (x : Category) (k : Nat), c ∈ cats →
      ht c < n → Path cats c x k →
      (rowsOf cats type_ categoryStats groupID n c level).filter
        (fun r => r.catID == x.CATEGID) =
      lineRows cats type_ categoryStats groupID x (level + k) := by
  intro n
  induction n with
  | zero => intro c _ _ _ _ h; omega
  | succ n ih =>
    intro c level x k hc hn hpath
    rw [rowsOf_succ_double type_ categoryStats groupID ht hlen hht n c level hc hn,
      List.filter_append, List.filter_flatMap]
    cases k with
    | zero =>
      have := hpath.zero
      subst this
      unfold lineRows
      congr 1
      · by_cases h0 : ownAmount type_ categoryStats x ≠ 0 ∨
            subcategoriesTotal cats type_ categoryStats x ≠ 0
        · simp [h0, ownRow]
        · simp [h0]
      · apply List.flatMap_congr
        intro s hs
        have hs' : s ∈ sub_category cats x := mem_stable_sort.1 hs
        have hlt := hht x hc s hs'
        have hnil := filter_rowsOf_nil_double hf type_ categoryStats groupID ht hlen hht n s
          (level + 1) x (mem_sub_category.1 hs').1 (by omega) hc (by
            rintro ⟨j, hj⟩
            have := hf.path_self hc (Path.cons hs' hj)
            omega)
        rw [List.filter_append, hnil, List.append_nil]
        by_cases h0 : subtreeTotal cats type_ categoryStats s ≠ 0
        · simp [h0, contributionRow]
        · simp [h0]
    | succ k =>
      obtain ⟨s₀, hs₀, hsp⟩ := hpath.uncons
      have hxc : x ∈ cats := hpath.mem hc
      have hne : c.CATEGID ≠ x.CATEGID := by
        intro hid
        have := hf.id_inj hc hxc hid
        subst this
        have := hf.path_self hc hpath
        omega
      have hown : List.filter (fun r => r.catID == x.CATEGID)
          (if ownAmount type_ categoryStats c ≠ 0 ∨
              subcategoriesTotal cats type_ categoryStats c ≠ 0
            then [ownRow type_ categoryStats c groupID level] else []) = [] := by
        by_cases h0 : ownAmount type_ categoryStats c ≠ 0 ∨
            subcategoriesTotal cats type_ categoryStats c ≠ 0
        · simp [h0, ownRow, hne]
        · simp [h0]
      have hcontrib : ∀ s, List.filter (fun r => r.catID == x.CATEGID)
          (if subtreeTotal cats type_ categoryStats s ≠ 0
            then [contributionRow c s (subtreeTotal cats type_ categoryStats s) groupID level]
            else []) = [] := by
        intro s
        by_cases h0 : subtreeTotal cats type_ categoryStats s ≠ 0
        · simp [h0, contributionRow, hne]
        · simp [h0]
      obtain ⟨d, hd⟩ := hf.exists_depth c hc
      rw [hown, List.nil_append,
        flatMap_eq_of_unique _ _ (hf.nodup_sub_category c) (mem_stable_sort.2 hs₀)]
      · have hlt := hht c hc s₀ hs₀
        rw [List.filter_append, hcontrib, List.nil_append,
          ih s₀ (level + 1) x k (mem_sub_category.1 hs₀).1 (by omega) hsp]
        rw [show level + 1 + k = level + (k + 1) by omega]
      · intro s hs hss
        have hs' : s ∈ sub_category cats c := mem_stable_sort.1 hs
        have hlt := hht c hc s hs'
        rw [List.filter_append, hcontrib, List.nil_append]
        apply filter_rowsOf_nil_double hf type_ categoryStats groupID ht hlen hht n s
          (level + 1) x (mem_sub_category.1 hs').1 (by omega) hxc
        rintro ⟨j, hj⟩
        apply hss
        exact (hf.ancestor_unique
          (Depth.child hd (mem_sub_category.1 hs').1 (mem_sub_category.1 hs').2)
          (Depth.child hd (mem_sub_category.1 hs₀).1 (mem_sub_category.1 hs₀).2)
          hj hsp).1

/-- The rows of the report that have the `catID` of a category `x`: the line of `x`,
with the identifier of its top-level ancestor and at its depth. -/
theorem filter_report_double {cats : List Category} (hf : Forest cats) (type_ : TYPE)
    (categoryStats : CategoryStats) {root x : Category} {k : Nat}
    (hroot : TopLevel cats root) (hpath : Path cats root x k) :
    (report cats type_ categoryStats).filter (fun r => r.catID == x.CATEGID) =
      lineRows cats type_ categoryStats root.CATEGID x k := by
  obtain ⟨ht, hlen, hht⟩ := hf.exists_height
  unfold report
  rw [List.filter_flatMap,
    flatMap_eq_of_unique _ _ hf.nodup_roots (mem_stable_sort.2 (mem_find_PARENTID.2 hroot))]
  · have := filter_rowsOf_double hf type_ categoryStats root.CATEGID ht hlen hht
      (cats.length + 1) root 0 x k hroot.1 (by have := hlen root hroot.1; omega) hpath
    rwa [Nat.zero_add] at this
  · intro r hr hne
    have hr' : TopLevel cats r := mem_find_PARENTID.1 (mem_stable_sort.1 hr)
    apply filter_rowsOf_nil_double hf type_ categoryStats r.CATEGID ht hlen hht _ r 0 x hr'.1
      (by have := hlen r hr'.1; omega) (hpath.mem hroot.1)
    rintro ⟨j, hj⟩
    exact hne (hf.ancestor_unique (Depth.top hr') (Depth.top hroot) hj hpath).1

/-! ## Arithmetic of `double` -/

theorem shiftOf_le : ∀ (fuel m t : Nat), m / 2 ^ t < 2 ^ 53 → shiftOf fuel m ≤ t
  | 0, _, _, _ => Nat.zero_le _
  | fuel + 1, m, t, h => by
    unfold shiftOf
    by_cases hm : m < 2 ^ 53
    · rw [if_pos hm]
      exact Nat.zero_le _
    · rw [if_neg hm]
      cases t with
      | zero =>
        rw [pow_zero, Nat.div_one] at h
        exact absurd h hm
      | succ t =>
        have h' : m / 2 / 2 ^ t < 2 ^ 53 := by
          rw [Nat.div_div_eq_div_mul, ← pow_succ']
          exact h
        have := shiftOf_le fuel (m / 2) t h'
        omega

/-- A magnitude that has at most 53 significant bits is not changed by the rounding. -/
theorem roundMagnitude_exact {m e : Nat} (hdvd : 2 ^ e ∣ m) (hlt : m < 2 ^ (53 + e)) :
    roundMagnitude m = m := by
  have hq : m / 2 ^ e < 2 ^ 53 := by
    apply Nat.div_lt_of_lt_mul
    rw [← pow_add, Nat.add_comm]
    exact hlt
  have hs : shiftOf 2100 m ≤ e := shiftOf_le 2100 m e hq
  have hdvd' : 2 ^ shiftOf 2100 m ∣ m := (pow_dvd_pow 2 hs).trans hdvd
  have hr : m % 2 ^ shiftOf 2100 m = 0 := Nat.mod_eq_zero_of_dvd hdvd'
  have hpos : 0 < 2 ^ shiftOf 2100 m := Nat.pow_pos (by decide)
  unfold roundMagnitude
  simp only [hr, Nat.mul_zero]
  rw [if_pos (Or.inl hpos)]
  exact Nat.div_mul_cancel hdvd'

/-- The sum of two finite numbers that needs at most 53 significant bits is exact. -/
theorem roundToNearestEven_exact {n : Int} {e : Nat} (he : 53 + e ≤ 2098)
    (hdvd : ((2 ^ e : Nat) : Int) ∣ n) (hlt : n.natAbs < 2 ^ (53 + e)) :
    roundToNearestEven n = double.finite n := by
  have hdvd' : 2 ^ e ∣ n.natAbs := Int.natCast_dvd.1 hdvd
  have hm := roundMagnitude_exact hdvd' hlt
  have hbig : ¬ 2 ^ 2098 ≤ n.natAbs := by
    have : (2 : Nat) ^ (53 + e) ≤ 2 ^ 2098 := Nat.pow_le_pow_right (by decide) he
    omega
  unfold roundToNearestEven
  simp only [hm]
  rw [if_neg hbig]
  congr 1
  split_ifs with hn
  · omega
  · omega

theorem add_finite (a b : Int) :
    double.finite a + double.finite b = roundToNearestEven (a + b) := rfl

theorem zero_def : (0 : double) = double.finite 0 := rfl

/-- The sum of zeros is zero. -/
theorem zero_add_zero : (0 : double) + 0 = 0 := by decide

theorem shiftOf_div_pos : ∀ (fuel m : Nat), 0 < m → 0 < m / 2 ^ shiftOf fuel m
  | 0, m, h => by
    unfold shiftOf
    rw [pow_zero, Nat.div_one]
    exact h
  | fuel + 1, m, h => by
    unfold shiftOf
    by_cases hm : m < 2 ^ 53
    · rw [if_pos hm, pow_zero, Nat.div_one]
      exact h
    · rw [if_neg hm, pow_succ', ← Nat.div_div_eq_div_mul]
      apply shiftOf_div_pos fuel (m / 2)
      have : (2 : Nat) ^ 53 = 9007199254740992 := by norm_num
      omega

theorem roundMagnitude_eq_zero {m : Nat} (h : roundMagnitude m = 0) : m = 0 := by
  by_contra hm
  have hq := shiftOf_div_pos 2100 m (Nat.pos_of_ne_zero hm)
  have hpos : 0 < 2 ^ shiftOf 2100 m := Nat.pow_pos (by decide)
  unfold roundMagnitude at h
  simp only [] at h
  split_ifs at h
  · exact absurd h (Nat.ne_of_gt (Nat.mul_pos hq hpos))
  · exact absurd h (Nat.ne_of_gt (Nat.mul_pos (Nat.succ_pos _) hpos))

theorem roundMagnitude_zero : roundMagnitude 0 = 0 := by decide

/-- A sum that rounds to zero is zero: an addition does not underflow. -/
theorem roundToNearestEven_eq_zero {n : Int} (h : roundToNearestEven n = 0) : n = 0 := by
  rw [zero_def] at h
  unfold roundToNearestEven at h
  simp only [] at h
  by_cases h1 : 2 ^ 2098 ≤ roundMagnitude n.natAbs
  · rw [if_pos h1] at h
    cases h
  · rw [if_neg h1] at h
    have h3 := double.finite.inj h
    have h4 : roundMagnitude n.natAbs = 0 := by
      by_cases h2 : n < 0
      · rw [if_pos h2] at h3
        omega
      · rw [if_neg h2] at h3
        omega
    have := roundMagnitude_eq_zero h4
    omega

theorem roundToNearestEven_sign (negative : Bool) {n : Int}
    (h : if negative then n ≤ 0 else 0 ≤ n) :
    SingleSign negative (roundToNearestEven n) := by
  unfold roundToNearestEven
  simp only []
  by_cases h1 : 2 ^ 2098 ≤ roundMagnitude n.natAbs
  · rw [if_pos h1]
    have hn0 : n ≠ 0 := by
      intro h0
      rw [h0] at h1
      have : roundMagnitude (0 : Int).natAbs = 0 := roundMagnitude_zero
      rw [this] at h1
      exact absurd h1 (by norm_num)
    cases negative
    · simp only [Bool.false_eq_true, if_false] at h
      have hn : ¬ n < 0 := by omega
      simp [SingleSign, hn]
    · simp only [if_true] at h
      have hn : n < 0 := by omega
      simp [SingleSign, hn]
  · rw [if_neg h1]
    cases negative
    · simp only [Bool.false_eq_true, if_false] at h
      have hn : ¬ n < 0 := by omega
      rw [if_neg hn]
      simp [SingleSign]
    · simp only [if_true] at h
      by_cases hn : n < 0
      · rw [if_pos hn]
        simp [SingleSign]
      · rw [if_neg hn]
        have h0 : n = 0 := by omega
        subst h0
        simp [SingleSign, roundMagnitude_zero]

theorem SingleSign_zero (negative : Bool) : SingleSign negative 0 := by
  cases negative <;> simp [SingleSign, zero_def]

/-- The sum of two values of one sign has that sign. -/
theorem SingleSign_add (negative : Bool) {a b : double}
    (ha : SingleSign negative a) (hb : SingleSign negative b) :
    SingleSign negative (a + b) := by
  cases a with
  | nan => cases b <;> trivial
  | inf x =>
    cases b with
    | nan => trivial
    | inf y =>
      have hx : x = negative := ha
      have hy : y = negative := hb
      rw [hx, hy]
      show SingleSign negative (add (double.inf negative) (double.inf negative))
      simp [add, SingleSign]
    | finite k => exact ha
  | finite j =>
    cases b with
    | nan => trivial
    | inf y => exact hb
    | finite k =>
      rw [add_finite]
      apply roundToNearestEven_sign
      cases negative
      · simp only [SingleSign, Bool.false_eq_true, if_false] at ha hb ⊢
        omega
      · simp only [SingleSign, if_true] at ha hb ⊢
        omega

/-- Two values of one sign that add up to zero are zero: there is no cancellation. -/
theorem add_eq_zero_of_SingleSign (negative : Bool) {a b : double}
    (ha : SingleSign negative a) (hb : SingleSign negative b) (h : a + b = 0) :
    a = 0 ∧ b = 0 := by
  cases a with
  | nan => cases b <;> cases h
  | inf x =>
    cases b with
    | nan => cases h
    | inf y =>
      exfalso
      have h' : (if x = y then double.inf x else double.nan) = double.finite 0 := h
      split_ifs at h'
    | finite k => cases h
  | finite j =>
    cases b with
    | nan => cases h
    | inf y => cases h
    | finite k =>
      rw [add_finite] at h
      have hsum := roundToNearestEven_eq_zero h
      cases negative
      · simp only [SingleSign, Bool.false_eq_true, if_false] at ha hb
        have hj : j = 0 := by omega
        have hk : k = 0 := by omega
        subst hj hk
        exact ⟨rfl, rfl⟩
      · simp only [SingleSign, if_true] at ha hb
        have hj : j = 0 := by omega
        have hk : k = 0 := by omega
        subst hj hk
        exact ⟨rfl, rfl⟩

/-- A sum, in order, of values of one sign has that sign, and when it is zero every
term is zero. -/
theorem foldl_SingleSign (negative : Bool) {A : Category → double} :
    ∀ (l : List Category) (acc : double), SingleSign negative acc →
      (∀ s ∈ l, SingleSign negative (A s)) →
      SingleSign negative (l.foldl (fun subamount s => subamount + A s) acc) ∧
      (l.foldl (fun subamount s => subamount + A s) acc = 0 →
        acc = 0 ∧ ∀ s ∈ l, A s = 0)
  | [], acc, hacc, _ => ⟨hacc, fun h => ⟨h, fun _ hs => by cases hs⟩⟩
  | s :: l, acc, hacc, h => by
    have hs := h s (List.mem_cons_self _ _)
    have ih := foldl_SingleSign negative l (acc + A s) (SingleSign_add negative hacc hs)
      (fun x hx => h x (List.mem_cons_of_mem _ hx))
    rw [List.foldl_cons]
    refine ⟨ih.1, fun h0 => ?_⟩
    obtain ⟨h1, h2⟩ := ih.2 h0
    obtain ⟨h3, h4⟩ := add_eq_zero_of_SingleSign negative hacc hs h1
    refine ⟨h3, fun x hx => ?_⟩
    rcases List.mem_cons.1 hx with rfl | hx
    · exact h4
    · exact h2 x hx

theorem ownAmount_GOES (categoryStats : CategoryStats) (c : Category) :
    SingleSign true (ownAmount TYPE.GOES categoryStats c) := by
  unfold ownAmount
  simp only [reduceCtorEq, false_and, if_false, true_and]
  split_ifs with h
  · exact SingleSign_zero true
  · cases hv : statAt categoryStats c.CATEGID 0 with
    | nan => trivial
    | inf b =>
      rw [hv] at h
      cases b
      · exact absurd (show (0 : double) < double.inf false from rfl) h
      · rfl
    | finite k =>
      rw [hv] at h
      have hk : ¬ 0 < k := fun hk => h (by
        show lt (double.finite 0) (double.finite k) = true
        simp [lt, hk])
      simp only [SingleSign, if_true]
      omega

theorem ownAmount_COME (categoryStats : CategoryStats) (c : Category) :
    SingleSign false (ownAmount TYPE.COME categoryStats c) := by
  unfold ownAmount
  simp only [reduceCtorEq, false_and, if_false, true_and]
  split_ifs with h
  · exact SingleSign_zero false
  · cases hv : statAt categoryStats c.CATEGID 0 with
    | nan => trivial
    | inf b =>
      rw [hv] at h
      cases b
      · rfl
      · exact absurd (show double.inf true < (0 : double) from rfl) h
    | finite k =>
      rw [hv] at h
      have hk : ¬ k < 0 := fun hk => h (by
        show lt (double.finite k) (double.finite 0) = true
        simp [lt, hk])
      simp only [SingleSign, Bool.false_eq_true, if_false]
      omega

/-- In a single-sign mode every own amount has the sign of the mode. -/
theorem ownAmount_SingleSign {type_ : TYPE} (hmode : type_ = TYPE.GOES ∨ type_ = TYPE.COME)
    (categoryStats : CategoryStats) :
    ∃ negative, ∀ c, SingleSign negative (ownAmount type_ categoryStats c) := by
  rcases hmode with h | h
  · subst h
    exact ⟨true, ownAmount_GOES categoryStats⟩
  · subst h
    exact ⟨false, ownAmount_COME categoryStats⟩

theorem subtreeAmount_SingleSign {cats : List Category} {type_ : TYPE}
    {categoryStats : CategoryStats} {negative : Bool}
    (hown : ∀ c, SingleSign negative (ownAmount type_ categoryStats c)) :
    ∀ (n : Nat) (c : Category),
      SingleSign negative (subtreeAmount cats type_ categoryStats n c)
  | 0, _ => SingleSign_zero negative
  | n + 1, c => by
    simp only [subtreeAmount]
    apply SingleSign_add negative (hown c)
    exact (foldl_SingleSign negative _ 0 (SingleSign_zero negative)
      (fun s _ => subtreeAmount_SingleSign hown n s)).1

/-- In a single-sign mode, below a category whose subtree amount is zero every own
amount, every subcategory total and every subtree amount is zero. -/
theorem zero_subtree_single_sign {cats : List Category} (hf : Forest cats) {type_ : TYPE}
    (hmode : type_ = TYPE.GOES ∨ type_ = TYPE.COME) (categoryStats : CategoryStats)
    {N : Category} (hN : N ∈ cats) (hzero : subtreeTotal cats type_ categoryStats N = 0) :
    ∀ (k : Nat) (x : Category), Path cats N x k →
      subtreeTotal cats type_ categoryStats x = 0 ∧
      ownAmount type_ categoryStats x = 0 ∧
      subcategoriesTotal cats type_ categoryStats x = 0 := by
  obtain ⟨negative, hown⟩ := ownAmount_SingleSign hmode categoryStats
  have hsplit : ∀ x ∈ cats, subtreeTotal cats type_ categoryStats x = 0 →
      ownAmount type_ categoryStats x = 0 ∧
      subcategoriesTotal cats type_ categoryStats x = 0 := by
    intro x hx h0
    rw [subtreeTotal_eq_double hf type_ categoryStats x hx] at h0
    exact add_eq_zero_of_SingleSign negative (hown x)
      (foldl_SingleSign negative _ 0 (SingleSign_zero negative)
        (fun s _ => subtreeAmount_SingleSign hown _ s)).1 h0
  have htotal : ∀ (k : Nat) (x : Category), Path cats N x k →
      subtreeTotal cats type_ categoryStats x = 0 := by
    intro k
    induction k with
    | zero =>
      intro x hx
      have := hx.zero
      subst this
      exact hzero
    | succ k ih =>
      intro x hx
      cases hx with
      | @child p _ _ hp hc hpar =>
        have hpc : p ∈ cats := hp.mem hN
        have h0 := (hsplit p hpc (ih p hp)).2
        have hall := ((foldl_SingleSign negative (subcategories cats p) 0
          (SingleSign_zero negative)
          (fun s _ => subtreeAmount_SingleSign hown _ s)).2 h0).2
        exact hall x (mem_subcategories.2 (mem_sub_category.2 ⟨hc, hpar⟩))
  intro k x hx
  have h0 := htotal k x hx
  exact ⟨h0, hsplit x (hx.mem hN) h0⟩

/-! ## The rules of the rows, with `double` amounts -/

/-- C3 (own-row rule).  On a forest, for every category `N`, the sequence `RefreshData`
returns has an own row for `N` (`catID = N`, `subCatID = -1`) exactly when the
mode-filtered own amount of `N` is not zero or the sum of the subtree amounts of the
direct subcategories of `N` is not zero; such a row has the own amount of `N` (not its
subtree total) and the name of `N`.  The amounts are `double`s: the subtree amount of a
subcategory is the value `AppendData` returns for it, and the sum is the value of
`subamount`, accumulated in the order of the loop. -/
theorem own_row_rule (cats : List Category) (type_ : TYPE) (categoryStats : CategoryStats)
    (fuel : Nat) (data_ : List data_holder) (hf : Forest cats) (hfuel : cats.length ≤ fuel)
    (N : Category) (hN : N ∈ cats) :
    ∃ out, RefreshData fuel cats type_ data_ categoryStats = some out ∧
      ((∃ r ∈ out, r.catID = N.CATEGID ∧ r.subCatID = -1) ↔
        (ownAmount type_ categoryStats N ≠ 0 ∨
          sumInOrder (subcategories cats N) (subtreeTotal cats type_ categoryStats) ≠ 0)) ∧
      (∀ r ∈ out, r.catID = N.CATEGID → r.subCatID = -1 →
        r.amount = ownAmount type_ categoryStats N ∧ r.name = N.CATEGNAME) ∧
      ∀ s ∈ subcategories cats N, ∀ (d : List data_holder) (groupID : Int) (level : Nat),
        ∃ rows, AppendData fuel cats type_ d categoryStats s groupID level =
          some (subtreeTotal cats type_ categoryStats s, rows) := by
  refine ⟨_, RefreshData_eq_double hf type_ categoryStats fuel hfuel data_, ⟨?_, ?_⟩, ?_, ?_⟩
  · rintro ⟨r, hr, hcat, hsub⟩
    obtain ⟨_, _, _, _, _, h0⟩ := report_own_row_double hf hN hr hcat hsub
    exact h0
  · intro h0
    obtain ⟨root, k, _, _, hsubset⟩ := lineRows_subset_report_double hf type_ categoryStats hN
    exact ⟨ownRow type_ categoryStats N root.CATEGID k,
      hsubset _ (mem_lineRows_double.2 (Or.inl ⟨rfl, h0⟩)), rfl, rfl⟩
  · intro r hr hcat hsub
    obtain ⟨_, _, _, _, h, _⟩ := report_own_row_double hf hN hr hcat hsub
    rw [h]
    exact ⟨rfl, rfl⟩
  · intro s hs d groupID level
    exact AppendData_returns_subtreeTotal hf type_ categoryStats fuel hfuel s
      (mem_sub_category.1 (mem_subcategories.1 hs)).1 groupID level d

/-- C4 (contribution-row rule).  On a forest, for every category `C` with parent `P`, the
sequence `RefreshData` returns has a contribution row (`catID = P`, `subCatID = C`)
exactly when the subtree amount of `C` is not zero; such a row has the subtree amount of
`C`, the name of `P`, the depth of `P` as its level and the identifier of the top-level
ancestor of `P` as its group.  The subtree amount of `C` is the `double` that
`AppendData` returns for `C`: the own amount of `C` plus the sum, accumulated in the
order of the loop, of the subtree amounts of its subcategories. -/
theorem contribution_row_rule (cats : List Category) (type_ : TYPE)
    (categoryStats : CategoryStats) (fuel : Nat) (data_ : List data_holder)
    (hf : Forest cats) (hfuel : cats.length ≤ fuel)
    (C P : Category) (hC : C ∈ cats) (hP : P ∈ cats) (hpar : C.PARENTID = P.CATEGID) :
    ∃ out, RefreshData fuel cats type_ data_ categoryStats = some out ∧
      ((∃ r ∈ out, r.catID = P.CATEGID ∧ r.subCatID = C.CATEGID) ↔
        subtreeTotal cats type_ categoryStats C ≠ 0) ∧
      (∀ r ∈ out, r.catID = P.CATEGID → r.subCatID = C.CATEGID →
        r.amount = subtreeTotal cats type_ categoryStats C ∧ r.name = P.CATEGNAME ∧
        Depth cats P r.level ∧
        ∃ root k, TopLevel cats root ∧ Path cats root P k ∧ r.categs = root.CATEGID) ∧
      (∀ (d : List data_holder) (groupID : Int) (level : Nat),
        ∃ rows, AppendData fuel cats type_ d categoryStats C groupID level =
          some (subtreeTotal cats type_ categoryStats C, rows)) ∧
      subtreeTotal cats type_ categoryStats C =
        ownAmount type_ categoryStats C +
          sumInOrder (subcategories cats C) (subtreeTotal cats type_ categoryStats) := by
  refine ⟨_, RefreshData_eq_double hf type_ categoryStats fuel hfuel data_, ⟨?_, ?_⟩, ?_, ?_,
    subtreeTotal_eq_double hf type_ categoryStats C hC⟩
  · rintro ⟨r, hr, hcat, hsub⟩
    obtain ⟨_, _, _, _, _, h0, _⟩ := report_contribution_row_double hf hP hC hr hcat hsub
    exact h0
  · intro h0
    obtain ⟨root, k, _, _, hsubset⟩ := lineRows_subset_report_double hf type_ categoryStats hP
    exact ⟨contributionRow P C (subtreeTotal cats type_ categoryStats C) root.CATEGID k,
      hsubset _ (mem_lineRows_double.2 (Or.inr ⟨C, mem_sub_category.2 ⟨hC, hpar⟩, h0, rfl⟩)),
      rfl, rfl⟩
  · intro r hr hcat hsub
    obtain ⟨root, k, hroot, hpath, _, _, h⟩ :=
      report_contribution_row_double hf hP hC hr hcat hsub
    rw [h]
    exact ⟨rfl, rfl, Depth.of_root hroot hpath, root, k, hroot, hpath, rfl⟩
  · intro d groupID level
    exact AppendData_returns_subtreeTotal hf type_ categoryStats fuel hfuel C hC groupID level d

/-- C12 (zero-valued branches), as the code has it.  On a forest, for every category `N`
whose subtree amount, as the code computes it in `double` arithmetic (the value
`AppendData` returns for `N`), is zero, the sequence `RefreshData` returns has no
contribution row for `N` (no row whose `subCatID` is `N`); under `GOES` or `COME` it
has, moreover, no row whose `catID` or `subCatID` is `N` or a descendant of `N`, and
the own amounts of `N` and of all its descendants are zero. -/
theorem zero_subtree_rows (cats : List Category) (type_ : TYPE)
    (categoryStats : CategoryStats) (fuel : Nat) (data_ : List data_holder)
    (hf : Forest cats) (hfuel : cats.length ≤ fuel) (N : Category) (hN : N ∈ cats)
    (hzero : subtreeTotal cats type_ categoryStats N = 0) :
    ∃ out, RefreshData fuel cats type_ data_ categoryStats = some out ∧
      (∀ (d : List data_holder) (groupID : Int) (level : Nat),
        ∃ rows, AppendData fuel cats type_ d categoryStats N groupID level =
          some (0, rows)) ∧
      (∀ r ∈ out, r.subCatID ≠ N.CATEGID) ∧
      (type_ = TYPE.GOES ∨ type_ = TYPE.COME →
        ∀ x, Descends cats N x →
          ownAmount type_ categoryStats x = 0 ∧
          ∀ r ∈ out, r.catID ≠ x.CATEGID ∧ r.subCatID ≠ x.CATEGID) := by
  refine ⟨_, RefreshData_eq_double hf type_ categoryStats fuel hfuel data_, ?_, ?_, ?_⟩
  · intro d groupID level
    have h := AppendData_returns_subtreeTotal hf type_ categoryStats fuel hfuel N hN
      groupID level d
    rwa [hzero] at h
  · intro r hr hsub
    obtain ⟨root, y, k, _, _, _, h⟩ := report_row_cases_double hf hr
    rcases h with ⟨h, _⟩ | ⟨s, hs, h0, h⟩
    · apply hf.ids_ne N hN
      rw [← hsub, h]
      rfl
    · have hsN : s = N := hf.id_inj (mem_sub_category.1 hs).1 hN (by rw [← hsub, h]; rfl)
      subst hsN
      exact h0 hzero
  · intro hmode x hx
    obtain ⟨j, hj⟩ := hx
    have hall := zero_subtree_single_sign hf hmode categoryStats hN hzero
    obtain ⟨hxt, hxo, hxs⟩ := hall j x hj
    have hxc : x ∈ cats := hj.mem hN
    refine ⟨hxo, fun r hr => ?_⟩
    obtain ⟨root, y, k, _, _, hy, h⟩ := report_row_cases_double hf hr
    constructor
    · intro hcat
      have hyx : y = x := by
        apply hf.id_inj hy hxc
        rcases h with ⟨h, _⟩ | ⟨s, _, _, h⟩ <;> rw [← hcat, h] <;> rfl
      subst hyx
      rcases h with ⟨_, h0⟩ | ⟨s, hs, h0, _⟩
      · rcases h0 with h0 | h0
        · exact h0 hxo
        · exact h0 hxs
      · exact h0 (hall (j + 1) s
          (Path.child hj (mem_sub_category.1 hs).1 (mem_sub_category.1 hs).2)).1
    · intro hsub
      rcases h with ⟨h, _⟩ | ⟨s, hs, h0, h⟩
      · apply hf.ids_ne x hxc
        rw [← hsub, h]
        rfl
      · have hsx : s = x := hf.id_inj (mem_sub_category.1 hs).1 hxc (by rw [← hsub, h]; rfl)
        subst hsx
        exact h0 hxt

/-! ## The totals of `getHTMLText`, with `double` amounts -/

theorem accumulateEntry_category (m : GroupTotal) (e : data_holder) (g k : Int)
    (h1 : ¬ (g = -1 ∧ k = 0)) (h2 : ¬ (g = -2 ∧ k = 0)) :
    accumulateEntry m e g k =
      if g = e.categs ∧ k = e.catID then m g k + e.amount else m g k := by
  unfold accumulateEntry addTo
  by_cases hsub : e.subCatID = -1
  · rw [if_pos hsub]
    simp only [h1, h2, if_false]
  · rw [if_neg hsub]

theorem accumulateEntry_expenses (m : GroupTotal) (e : data_holder)
    (h1 : e.categs ≠ -1) :
    accumulateEntry m e (-1) 0 =
      if e.subCatID = -1 then m (-1) 0 + expensePart e.amount else m (-1) 0 := by
  have hk : ¬ ((-1 : Int) = e.categs ∧ (0 : Int) = e.catID) := fun h => h1 h.1.symm
  unfold accumulateEntry addTo expensePart
  by_cases hsub : e.subCatID = -1
  · rw [if_pos hsub, if_pos hsub]
    simp only [hk, if_false, and_self, if_true]
    rw [if_neg (by decide)]
  · rw [if_neg hsub, if_neg hsub]
    simp only [hk, if_false]

theorem accumulateEntry_income (m : GroupTotal) (e : data_holder)
    (h1 : ¬ (e.categs = -2 ∧ e.catID = 0)) :
    accumulateEntry m e (-2) 0 =
      if e.subCatID = -1 then m (-2) 0 + incomePart e.amount else m (-2) 0 := by
  have hk : ¬ ((-2 : Int) = e.categs ∧ (0 : Int) = e.catID) :=
    fun h => h1 ⟨h.1.symm, h.2.symm⟩
  unfold accumulateEntry addTo incomePart
  by_cases hsub : e.subCatID = -1
  · rw [if_pos hsub, if_pos hsub]
    simp only [hk, if_false, and_self, if_true]
    rw [if_neg (by decide)]
  · rw [if_neg hsub, if_neg hsub]
    simp only [hk, if_false]

/-- The value of one entry of `group_total` after the loop, when every row either adds
its `f` to the entry (the rows with `p`) or leaves it as it is. -/
theorem foldl_accumulateEntry_double (g k : Int) (p : data_holder → Bool)
    (f : data_holder → double) :
    ∀ (l : List data_holder) (m : GroupTotal),
      (∀ e ∈ l, ∀ m : GroupTotal,
        accumulateEntry m e g k = if p e = true then m g k + f e else m g k) →
      l.foldl accumulateEntry m g k =
        ((l.filter p).map f).foldl (fun total x => total + x) (m g k)
  | [], _, _ => rfl
  | e :: l, m, h => by
    have he := h e (List.mem_cons_self _ _) m
    have ih := foldl_accumulateEntry_double g k p f l (accumulateEntry m e)
      (fun x hx => h x (List.mem_cons_of_mem _ hx))
    rw [List.foldl_cons, ih, he]
    by_cases hp : p e = true
    · rw [if_pos hp, List.filter_cons, if_pos hp, List.map_cons, List.foldl_cons]
    · rw [if_neg hp, List.filter_cons, if_neg hp]

theorem report_row_ids_double {cats : List Category} (hf : Forest cats) {type_ : TYPE}
    {categoryStats : CategoryStats} {r : data_holder}
    (hr : r ∈ report cats type_ categoryStats) :
    (∃ root ∈ cats, r.categs = root.CATEGID) ∧ ∃ x ∈ cats, r.catID = x.CATEGID := by
  obtain ⟨root, x, k, hroot, hpath, hx⟩ := (mem_report_double hf type_ categoryStats r).1 hr
  exact ⟨⟨root, hroot.1, lineRows_categs_double hx⟩,
    ⟨x, hpath.mem hroot.1, lineRows_catID_double hx⟩⟩

/-- The entry `group_total[root][X]` after the loop over the report: the `double` sum, in
the order of the rows, of the amounts of the rows of `X`. -/
theorem group_total_category_double {cats : List Category} (hf : Forest cats) (type_ : TYPE)
    (categoryStats : CategoryStats) {root X : Category} {k : Nat}
    (hroot : TopLevel cats root) (hpath : Path cats root X k)
    (hkey : ¬ (root.CATEGID = -2 ∧ X.CATEGID = 0)) :
    group_total (report cats type_ categoryStats) root.CATEGID X.CATEGID =
      sumOf ((lineRows cats type_ categoryStats root.CATEGID X k).map (fun r => r.amount)) := by
  have hfilter := filter_report_double hf type_ categoryStats hroot hpath
  have hg1 : ¬ (root.CATEGID = -1 ∧ X.CATEGID = 0) := fun h => hf.ids_ne root hroot.1 h.1
  unfold group_total sumOf
  rw [foldl_accumulateEntry_double root.CATEGID X.CATEGID
    (fun r => r.catID == X.CATEGID) (fun r => r.amount), hfilter]
  intro e he m
  rw [accumulateEntry_category m e _ _ hg1 hkey]
  by_cases hcat : e.catID = X.CATEGID
  · have hmem : e ∈ (report cats type_ categoryStats).filter
        (fun r => r.catID == X.CATEGID) :=
      List.mem_filter.2 ⟨he, by simpa using hcat⟩
    rw [hfilter] at hmem
    have hcg := lineRows_categs_double hmem
    rw [if_pos ⟨hcg.symm, hcat.symm⟩, if_pos (by simpa using hcat)]
  · rw [if_neg (fun h => hcat h.2.symm), if_neg (by simpa using hcat)]

/-- The two footer entries of `group_total` after the loop over the report of a forest
with positive identifiers: the `double` sums, in the order of the rows, of the negative
and of the positive amounts of the own rows. -/
theorem group_total_footer_double {cats : List Category} (hf : Forest cats)
    (hpos : ∀ c ∈ cats, 0 < c.CATEGID) (type_ : TYPE) (categoryStats : CategoryStats) :
    group_total (report cats type_ categoryStats) (-1) 0 =
      sumOf (((report cats type_ categoryStats).filter (fun r => r.subCatID == -1)).map
        (fun r => expensePart r.amount)) ∧
    group_total (report cats type_ categoryStats) (-2) 0 =
      sumOf (((report cats type_ categoryStats).filter (fun r => r.subCatID == -1)).map
        (fun r => incomePart r.amount)) := by
  have hcat : ∀ e ∈ report cats type_ categoryStats, e.catID ≠ 0 := by
    intro e he h0
    obtain ⟨x, hx, hid⟩ := (report_row_ids_double hf he).2
    have := hpos x hx
    omega
  have hcategs : ∀ e ∈ report cats type_ categoryStats, e.categs ≠ -1 := by
    intro e he h0
    obtain ⟨x, hx, hid⟩ := (report_row_ids_double hf he).1
    have := hpos x hx
    omega
  unfold group_total sumOf
  constructor
  · apply foldl_accumulateEntry_double (-1) 0 (fun r => r.subCatID == -1)
      (fun r => expensePart r.amount)
    intro e he m
    rw [accumulateEntry_expenses m e (hcategs e he)]
    by_cases hsub : e.subCatID = -1
    · rw [if_pos hsub, if_pos (by simpa using hsub)]
    · rw [if_neg hsub, if_neg (by simpa using hsub)]
  · apply foldl_accumulateEntry_double (-2) 0 (fun r => r.subCatID == -1)
      (fun r => incomePart r.amount)
    intro e he m
    rw [accumulateEntry_income m e (fun h => hcat e he h.2)]
    by_cases hsub : e.subCatID = -1
    · rw [if_pos hsub, if_pos (by simpa using hsub)]
    · rw [if_neg hsub, if_neg (by simpa using hsub)]

/-! ## Amounts for which no addition rounds -/

theorem sum_flatMap_map {α β M : Type} [AddMonoid M] (f : α → List β) (g : β → M) :
    ∀ l : List α, ((l.flatMap f).map g).sum = (l.map (fun a => ((f a).map g).sum)).sum
  | [] => rfl
  | a :: l => by
    simp only [List.flatMap_cons, List.map_append, List.sum_append, List.map_cons,
      List.sum_cons, sum_flatMap_map f g l]

theorem sum_filter_map {α M : Type} [AddMonoid M] (p : α → Bool) (f : α → M) :
    ∀ l : List α, ((l.filter p).map f).sum =
      (l.map (fun a => if p a = true then f a else 0)).sum
  | [] => rfl
  | a :: l => by
    have ih := sum_filter_map p f l
    by_cases h : p a = true
    · rw [List.filter_cons, if_pos h, List.map_cons, List.map_cons, List.sum_cons,
        List.sum_cons, if_pos h, ih]
    · rw [List.filter_cons, if_neg h, List.map_cons, List.sum_cons, if_neg h, ih, zero_add]

theorem natAbs_sum_map_le {α : Type} (u : α → Int) :
    ∀ l : List α, ((l.map u).sum).natAbs ≤ (l.map (fun x => (u x).natAbs)).sum
  | [] => by simp
  | a :: l => by
    have ih := natAbs_sum_map_le u l
    simp only [List.map_cons, List.sum_cons]
    have := Int.natAbs_add_le (u a) (l.map u).sum
    omega

theorem dvd_sum_map {α : Type} (u : α → Int) (d : Int) :
    ∀ l : List α, (∀ x ∈ l, d ∣ u x) → d ∣ (l.map u).sum
  | [], _ => by simp
  | a :: l, h => by
    simp only [List.map_cons, List.sum_cons]
    exact dvd_add (h a (List.mem_cons_self _ _))
      (dvd_sum_map u d l (fun x hx => h x (List.mem_cons_of_mem _ hx)))

/-- A sum, in order, of finite multiples of `2^e` units whose absolute values add up to
less than `2^53` multiples is exact. -/
theorem foldl_add_exact {e : Nat} (he : 53 + e ≤ 2098) :
    ∀ (l : List double) (z : Int), ((2 ^ e : Nat) : Int) ∣ z →
      (∀ d ∈ l, d = double.finite (units d) ∧ ((2 ^ e : Nat) : Int) ∣ units d) →
      z.natAbs + (l.map (fun d => (units d).natAbs)).sum < 2 ^ (53 + e) →
      l.foldl (fun total x => total + x) (double.finite z) =
        double.finite (z + (l.map units).sum)
  | [], z, _, _, _ => by simp
  | d :: l, z, hz, h, hb => by
    obtain ⟨hd, hdvd⟩ := h d (List.mem_cons_self _ _)
    simp only [List.map_cons, List.sum_cons] at hb
    have hle := Int.natAbs_add_le z (units d)
    have hstep : double.finite z + d = double.finite (z + units d) :=
      calc double.finite z + d = double.finite z + double.finite (units d) := by rw [← hd]
        _ = double.finite (z + units d) :=
          roundToNearestEven_exact he (dvd_add hz hdvd) (by omega)
    rw [List.foldl_cons, hstep,
      foldl_add_exact he l (z + units d) (dvd_add hz hdvd)
        (fun x hx => h x (List.mem_cons_of_mem _ hx)) (by omega)]
    simp only [List.map_cons, List.sum_cons, add_assoc]

theorem sumOf_exact {e : Nat} (he : 53 + e ≤ 2098) (l : List double)
    (h : ∀ d ∈ l, d = double.finite (units d) ∧ ((2 ^ e : Nat) : Int) ∣ units d)
    (hb : (l.map (fun d => (units d).natAbs)).sum < 2 ^ (53 + e)) :
    sumOf l = double.finite ((l.map units).sum) := by
  have := foldl_add_exact he l 0 (dvd_zero _) h (by simpa using hb)
  rw [zero_add] at this
  exact this

theorem sumInOrder_eq_sumOf (l : List Category) (A : Category → double) :
    sumInOrder l A = sumOf (l.map A) := by
  unfold sumInOrder sumOf
  rw [List.foldl_map]

/-- The categories of a subtree are categories of the table, each once: a sum over a
subtree is at most the sum over the table. -/
theorem subtree_sum_le {cats : List Category} (hf : Forest cats) (ht : Category → Nat)
    (hht : ∀ c ∈ cats, ∀ s ∈ sub_category cats c, ht s < ht c) (a : Category → Nat)
    (n : Nat) (c : Category) (hc : c ∈ cats) (hn : ht c < n) :
    ((subtree cats n c).map a).sum ≤ (cats.map a).sum := by
  have hnd := subtree_nodup_fuel hf ht hht n c hc hn
  have hsub : subtree cats n c ⊆ cats := by
    intro x hx
    obtain ⟨k, hk⟩ := (mem_subtree_fuel ht hht x n c hc hn).1 hx
    exact hk.mem hc
  obtain ⟨l', hperm, hsl⟩ := hnd.subperm hsub
  rw [← (hperm.map a).sum_eq]
  exact (hsl.map a).sum_le_sum (fun x _ => Nat.zero_le x)

/-- With amounts for which no addition rounds, the subtree amount the code computes is
the exact sum of the own amounts over the subtree. -/
theorem subtreeAmount_exact {cats : List Category} (hf : Forest cats) {type_ : TYPE}
    {categoryStats : CategoryStats} {e : Nat} (hex : ExactAmounts cats type_ categoryStats e)
    (ht : Category → Nat)
    (hht : ∀ c ∈ cats, ∀ s ∈ sub_category cats c, ht s < ht c) :
    ∀ (n : Nat) (c : Category), c ∈ cats → ht c < n →
      subtreeAmount cats type_ categoryStats n c =
        double.finite (((subtree cats n c).map
          (fun x => units (ownAmount type_ categoryStats x))).sum) := by
  obtain ⟨he, hown, hbound⟩ := hex
  intro n
  induction n with
  | zero => intro c _ h; omega
  | succ n ih =>
    intro c hc hn
    have hmemc : ∀ s ∈ subcategories cats c, s ∈ cats ∧ ht s < n := by
      intro s hs
      have hs' := mem_subcategories.1 hs
      have := hht c hc s hs'
      exact ⟨(mem_sub_category.1 hs').1, by omega⟩
    have hdvdU : ∀ s ∈ subcategories cats c, ((2 ^ e : Nat) : Int) ∣
        ((subtree cats n s).map (fun x => units (ownAmount type_ categoryStats x))).sum := by
      intro s hs
      apply dvd_sum_map
      intro x hx
      obtain ⟨k, hk⟩ := (mem_subtree_fuel ht hht x n s (hmemc s hs).1 (hmemc s hs).2).1 hx
      exact (hown x (hk.mem (hmemc s hs).1)).2
    have hperm : (subcategories cats c).Perm (sub_category cats c) :=
      (List.reverse_perm _).trans (stable_sort_perm _)
    have hle := subtree_sum_le hf ht hht
      (fun x => (units (ownAmount type_ categoryStats x)).natAbs) (n + 1) c hc hn
    simp only [subtree, List.map_cons, List.sum_cons, sum_flatMap_map] at hle
    rw [← (hperm.map _).sum_eq] at hle
    have habs : ((subcategories cats c).map (fun s => (((subtree cats n s).map
          (fun x => units (ownAmount type_ categoryStats x))).sum).natAbs)).sum ≤
        ((subcategories cats c).map (fun s => ((subtree cats n s).map
          (fun x => (units (ownAmount type_ categoryStats x)).natAbs)).sum)).sum := by
      apply List.sum_le_sum
      intro s _
      exact natAbs_sum_map_le _ _
    have hsum : sumInOrder (subcategories cats c) (subtreeAmount cats type_ categoryStats n) =
        double.finite (((subcategories cats c).map (fun s => ((subtree cats n s).map
          (fun x => units (ownAmount type_ categoryStats x))).sum)).sum) := by
      rw [sumInOrder_congr (fun s hs => ih s (hmemc s hs).1 (hmemc s hs).2),
        sumInOrder_eq_sumOf, sumOf_exact he]
      · rw [List.map_map]
        rfl
      · intro d hd
        obtain ⟨s, hs, rfl⟩ := List.mem_map.1 hd
        exact ⟨rfl, hdvdU s hs⟩
      · rw [List.map_map]
        show ((subcategories cats c).map (fun s => (((subtree cats n s).map
          (fun x => units (ownAmount type_ categoryStats x))).sum).natAbs)).sum < _
        omega
    simp only [subtreeAmount, subtree, List.map_cons, List.sum_cons, sum_flatMap_map]
    rw [hsum, ← (hperm.map _).sum_eq]
    conv_lhs => rw [(hown c hc).1]
    rw [add_finite]
    apply roundToNearestEven_exact he
    · exact dvd_add (hown c hc).2 (dvd_sum_map _ _ _ (fun s hs => hdvdU s hs))
    · have h1 := Int.natAbs_add_le (units (ownAmount type_ categoryStats c))
        ((subcategories cats c).map (fun s => ((subtree cats n s).map
          (fun x => units (ownAmount type_ categoryStats x))).sum)).sum
      have h2 := natAbs_sum_map_le (fun s => ((subtree cats n s).map
          (fun x => units (ownAmount type_ categoryStats x))).sum) (subcategories cats c)
      omega

/-- A sum over the rows on the line of a category, of a function of the amounts that is
zero at zero: the function at the own amount plus its sum over the subtree amounts of
the subcategories. -/
theorem lineRows_sum_map {M : Type} [AddCommMonoid M] (φ : double → M) (h0 : φ 0 = 0)
    (cats : List Category) (type_ : TYPE) (categoryStats : CategoryStats) (groupID : Int)
    (c : Category) (level : Nat) :
    ((lineRows cats type_ categoryStats groupID c level).map (fun r => φ r.amount)).sum =
      φ (ownAmount type_ categoryStats c) +
        ((sub_category cats c).map
          (fun s => φ (subtreeTotal cats type_ categoryStats s))).sum := by
  unfold lineRows
  rw [List.map_append, List.sum_append, sum_flatMap_map,
    ← ((stable_sort_perm (sub_category cats c)).map _).sum_eq]
  congr 1
  · by_cases hc : ownAmount type_ categoryStats c ≠ 0 ∨
        subcategoriesTotal cats type_ categoryStats c ≠ 0
    · rw [if_pos hc]
      simp [ownRow]
    · rw [if_neg hc]
      have h1 : ownAmount type_ categoryStats c = 0 := by
        by_contra h
        exact hc (Or.inl h)
      simp [h1, h0]
  · congr 1
    apply List.map_congr_left
    intro s _
    by_cases hs : subtreeTotal cats type_ categoryStats s ≠ 0
    · rw [if_pos hs]
      simp [contributionRow]
    · rw [if_neg hs]
      have h1 : subtreeTotal cats type_ categoryStats s = 0 := by
        by_contra h
        exact hs h
      simp [h1, h0]

/-- Over the rows of a subtree, a function of the amounts of the own rows that is zero
at zero adds up to its sum over the own amounts of the categories of the subtree. -/
theorem rowsOf_own_sum_double {M : Type} [AddCommMonoid M] {cats : List Category}
    (hne : ∀ c ∈ cats, c.CATEGID ≠ -1)
    (type_ : TYPE) (categoryStats : CategoryStats) (groupID : Int)
    (f : double → M) (hf0 : f 0 = 0) :
    ∀ (n : Nat) (c : Category) (level : Nat),
      ((rowsOf cats type_ categoryStats groupID n c level).map
        (fun r => if (r.subCatID == -1) = true then f r.amount else 0)).sum =
      ((subtree cats n c).map (fun x => f (ownAmount type_ categoryStats x))).sum
  | 0, _, _ => rfl
  | n + 1, c, level => by
    simp only [rowsOf, subtree, List.map_append, List.sum_append, List.map_cons,
      List.sum_cons, sum_flatMap_map]
    congr 1
    · by_cases h0 : ownAmount type_ categoryStats c ≠ 0 ∨
          sumInOrder (subcategories cats c) (subtreeAmount cats type_ categoryStats n) ≠ 0
      · rw [if_pos h0]
        simp [ownRow]
      · rw [if_neg h0]
        have h1 : ownAmount type_ categoryStats c = 0 := by
          by_contra h
          exact h0 (Or.inl h)
        simp [h1, hf0]
    · rw [((stable_sort_perm (sub_category cats c)).map _).sum_eq]
      congr 1
      apply List.map_congr_left
      intro s hs
      have hsne : s.CATEGID ≠ -1 := hne s (mem_sub_category.1 hs).1
      rw [rowsOf_own_sum_double hne type_ categoryStats groupID f hf0 n s (level + 1)]
      by_cases h0 : subtreeAmount cats type_ categoryStats n s ≠ 0
      · rw [if_pos h0]
        simp [contributionRow, hsne]
      · rw [if_neg h0]
        simp

/-- Over the report of a forest, a function of the amounts of the own rows that is zero
at zero adds up to its sum over the own amounts of all categories. -/
theorem report_own_sum_double {M : Type} [AddCommMonoid M] {cats : List Category}
    (hf : Forest cats) (type_ : TYPE) (categoryStats : CategoryStats)
    (f : double → M) (hf0 : f 0 = 0) :
    (((report cats type_ categoryStats).filter (fun r => r.subCatID == -1)).map
      (fun r => f r.amount)).sum =
    (cats.map (fun x => f (ownAmount type_ categoryStats x))).sum := by
  rw [sum_filter_map]
  unfold report
  rw [sum_flatMap_map, ← ((roots_subtrees_perm hf).map _).sum_eq, sum_flatMap_map]
  congr 1
  apply List.map_congr_left
  intro c _
  exact rowsOf_own_sum_double hf.ids_ne type_ categoryStats c.CATEGID f hf0 _ c 0

theorem expensePart_finite (k : Int) :
    expensePart (double.finite k) = double.finite (if k < 0 then k else 0) := by
  unfold expensePart
  by_cases h : k < 0
  · rw [if_pos h, if_pos (show double.finite k < 0 by
      show lt (double.finite k) (double.finite 0) = true
      simp [lt, h])]
  · rw [if_neg h, if_neg (show ¬ double.finite k < 0 by
      show ¬ lt (double.finite k) (double.finite 0) = true
      simp [lt, h])]
    rfl

theorem incomePart_finite (k : Int) :
    incomePart (double.finite k) = double.finite (if 0 < k then k else 0) := by
  unfold incomePart
  by_cases h : 0 < k
  · rw [if_pos h, if_pos (show double.finite k > 0 by
      show lt (double.finite 0) (double.finite k) = true
      simp [lt, h])]
  · rw [if_neg h, if_neg (show ¬ double.finite k > 0 by
      show ¬ lt (double.finite 0) (double.finite k) = true
      simp [lt, h])]
    rfl

theorem expensePart_units {d : double} (hd : d = double.finite (units d)) :
    expensePart d = double.finite (if units d < 0 then units d else 0) := by
  cases d with
  | finite k => exact expensePart_finite k
  | inf b => cases hd
  | nan => cases hd

theorem incomePart_units {d : double} (hd : d = double.finite (units d)) :
    incomePart d = double.finite (if 0 < units d then units d else 0) := by
  cases d with
  | finite k => exact incomePart_finite k
  | inf b => cases hd
  | nan => cases hd

theorem sum_map_le_sum_map {α : Type} (f g : α → Nat) :
    ∀ l : List α, (∀ x ∈ l, f x ≤ g x) → (l.map f).sum ≤ (l.map g).sum
  | [], _ => by simp
  | a :: l, h => by
    have h1 := h a (List.mem_cons_self _ _)
    have h2 := sum_map_le_sum_map f g l (fun x hx => h x (List.mem_cons_of_mem _ hx))
    simp only [List.map_cons, List.sum_cons]
    omega

/-- With amounts for which no addition rounds, the subtree amount of a category of a
forest, as the code computes it, is the exact sum of the own amounts of the category
and of all its descendants. -/
theorem subtreeTotal_exact {cats : List Category} (hf : Forest cats) {type_ : TYPE}
    {categoryStats : CategoryStats} {e : Nat} (hex : ExactAmounts cats type_ categoryStats e)
    (c : Category) (hc : c ∈ cats) :
    subtreeTotal cats type_ categoryStats c =
      double.finite (((subtree cats cats.length c).map
        (fun x => units (ownAmount type_ categoryStats x))).sum) := by
  obtain ⟨ht, hlen, hht⟩ := hf.exists_height
  exact subtreeAmount_exact hf hex ht hht cats.length c hc (hlen c hc)

/-- With amounts for which no addition rounds, the amounts of the rows on the line of a
category add up, in the order of the rows, to the exact sum of the own amounts over the
subtree of the category. -/
theorem lineRows_sumOf_exact {cats : List Category} (hf : Forest cats) {type_ : TYPE}
    {categoryStats : CategoryStats} {e : Nat} (hex : ExactAmounts cats type_ categoryStats e)
    (groupID : Int) (c : Category) (level : Nat) (hc : c ∈ cats) :
    sumOf ((lineRows cats type_ categoryStats groupID c level).map (fun r => r.amount)) =
      double.finite (((subtree cats cats.length c).map
        (fun x => units (ownAmount type_ categoryStats x))).sum) := by
  obtain ⟨ht, hlen, hht⟩ := hf.exists_height
  have hex' := hex
  obtain ⟨he, hown, hbound⟩ := hex
  have hsubc : ∀ s ∈ sub_category cats c, s ∈ cats := fun s hs => (mem_sub_category.1 hs).1
  have htot : ∀ s ∈ sub_category cats c, subtreeTotal cats type_ categoryStats s =
      double.finite (((subtree cats cats.length s).map
        (fun x => units (ownAmount type_ categoryStats x))).sum) :=
    fun s hs => subtreeTotal_exact hf hex' s (hsubc s hs)
  have hdvdU : ∀ s ∈ sub_category cats c, ((2 ^ e : Nat) : Int) ∣
      ((subtree cats cats.length s).map
        (fun x => units (ownAmount type_ categoryStats x))).sum := by
    intro s hs
    apply dvd_sum_map
    intro x hx
    obtain ⟨k, hk⟩ := (mem_subtree hf (hsubc s hs)).1 hx
    exact (hown x (hk.mem (hsubc s hs))).2
  have hfuel : subtree cats cats.length c = subtree cats (cats.length + 1) c :=
    subtree_fuel ht hht _ _ c hc (hlen c hc) (by have := hlen c hc; omega)
  have hle := subtree_sum_le hf ht hht
    (fun x => (units (ownAmount type_ categoryStats x)).natAbs) (cats.length + 1) c hc
    (by have := hlen c hc; omega)
  simp only [subtree, List.map_cons, List.sum_cons, sum_flatMap_map] at hle
  have hunits := lineRows_sum_map units rfl cats type_ categoryStats groupID c level
  have habs := lineRows_sum_map (fun d => (units d).natAbs) rfl cats type_ categoryStats
    groupID c level
  have hU : ((sub_category cats c).map
      (fun s => units (subtreeTotal cats type_ categoryStats s))).sum =
      ((sub_category cats c).map (fun s => ((subtree cats cats.length s).map
        (fun x => units (ownAmount type_ categoryStats x))).sum)).sum := by
    congr 1
    apply List.map_congr_left
    intro s hs
    rw [htot s hs]
    rfl
  have hA : ((sub_category cats c).map
      (fun s => (units (subtreeTotal cats type_ categoryStats s)).natAbs)).sum ≤
      ((sub_category cats c).map (fun s => ((subtree cats cats.length s).map
        (fun x => (units (ownAmount type_ categoryStats x)).natAbs)).sum)).sum := by
    apply sum_map_le_sum_map
    intro s hs
    rw [htot s hs]
    exact natAbs_sum_map_le _ _
  rw [sumOf_exact he, List.map_map]
  · have : (units ∘ fun r : data_holder => r.amount) = fun r => units r.amount := rfl
    rw [this, hunits, hU, hfuel]
    simp only [subtree, List.map_cons, List.sum_cons, sum_flatMap_map]
  · intro d hd
    obtain ⟨r, hr, rfl⟩ := List.mem_map.1 hd
    rcases mem_lineRows_double.1 hr with ⟨h, _⟩ | ⟨s, hs, _, h⟩
    · rw [h]
      exact hown c hc
    · rw [h]
      show subtreeTotal cats type_ categoryStats s = _ ∧ _
      rw [htot s hs]
      exact ⟨rfl, hdvdU s hs⟩
  · rw [List.map_map]
    have : ((fun d => (units d).natAbs) ∘ fun r : data_holder => r.amount) =
        fun r => (units r.amount).natAbs := rfl
    rw [this, habs]
    omega

theorem lineRows_own_rows_length {cats : List Category} (hf : Forest cats) (type_ : TYPE)
    (categoryStats : CategoryStats) (groupID : Int) (c : Category) (level : Nat) :
    ((lineRows cats type_ categoryStats groupID c level).filter
      (fun r => r.subCatID == -1)).length ≤ 1 := by
  unfold lineRows
  rw [List.filter_append, List.length_append]
  have h2 : List.filter (fun r : data_holder => r.subCatID == -1)
      ((stable_sort SorterByCATEGNAME (sub_category cats c)).flatMap (fun s =>
        if subtreeTotal cats type_ categoryStats s ≠ 0
          then [contributionRow c s (subtreeTotal cats type_ categoryStats s) groupID level]
          else [])) = [] := by
    rw [List.filter_eq_nil_iff]
    intro r hr hp
    obtain ⟨s, hs, hrs⟩ := List.mem_flatMap.1 hr
    have hsc : s ∈ cats := (mem_sub_category.1 (mem_stable_sort.1 hs)).1
    by_cases h0 : subtreeTotal cats type_ categoryStats s ≠ 0
    · rw [if_pos h0] at hrs
      rw [List.mem_singleton.1 hrs] at hp
      exact hf.ids_ne s hsc (by simpa [contributionRow] using hp)
    · rw [if_neg h0] at hrs
      cases hrs
  rw [h2, List.length_nil, Nat.add_zero]
  refine le_trans (List.length_filter_le _ _) ?_
  split_ifs <;> simp

/-- C25 (displayed per-category total), as the code has it.  On a forest, for every
category `X` at the depth `k` below the top-level category `root` (the pair of their
identifiers not being the key `[-2][0]` of the income total): every row of `X` that
`RefreshData` returns has `categs = root.CATEGID`, and the value
`group_total[root.CATEGID][X.CATEGID]` that `getHTMLText` accumulates is the `double` sum,
accumulated in the order of the rows, of the amounts of the rows of `X`.  For amounts
for which no addition rounds, it is the exact sum of the mode-filtered own amounts of
`X` and all of its descendants, which is then also the subtree amount `AppendData`
returns for `X`. -/
theorem displayed_category_total (cats : List Category) (type_ : TYPE)
    (categoryStats : CategoryStats) (fuel : Nat) (data_ : List data_holder)
    (hf : Forest cats) (hfuel : cats.length ≤ fuel)
    (root X : Category) (k : Nat)
    (hroot : TopLevel cats root) (hpath : Path cats root X k)
    (hkey : ¬ (root.CATEGID = -2 ∧ X.CATEGID = 0)) :
    ∃ out gt, RefreshData fuel cats type_ data_ categoryStats = some out ∧
      getHTMLText_group_total fuel cats type_ data_ categoryStats = some gt ∧
      (∀ r ∈ out, r.catID = X.CATEGID → r.categs = root.CATEGID) ∧
      gt root.CATEGID X.CATEGID =
        sumOf ((out.filter (fun r => r.catID == X.CATEGID)).map (fun r => r.amount)) ∧
      ∀ e, ExactAmounts cats type_ categoryStats e →
        gt root.CATEGID X.CATEGID =
          double.finite (((subtree cats cats.length X).map
            (fun x => units (ownAmount type_ categoryStats x))).sum) ∧
        ∀ (d : List data_holder) (groupID : Int) (level : Nat),
          ∃ rows, AppendData fuel cats type_ d categoryStats X groupID level =
            some (gt root.CATEGID X.CATEGID, rows) := by
  have hout := RefreshData_eq_double hf type_ categoryStats fuel hfuel data_
  have hXc : X ∈ cats := hpath.mem hroot.1
  have hfilter := filter_report_double hf type_ categoryStats hroot hpath
  have hgt := group_total_category_double hf type_ categoryStats hroot hpath hkey
  refine ⟨_, group_total (report cats type_ categoryStats), hout, ?_, ?_, ?_, ?_⟩
  · unfold getHTMLText_group_total
    rw [hout]
  · intro r hr hcat
    have hmem : r ∈ (report cats type_ categoryStats).filter
        (fun r => r.catID == X.CATEGID) :=
      List.mem_filter.2 ⟨hr, by simpa using hcat⟩
    rw [hfilter] at hmem
    exact lineRows_categs_double hmem
  · rw [hgt, hfilter]
  · intro e hex
    have hexact := lineRows_sumOf_exact hf hex root.CATEGID X k hXc
    refine ⟨hgt.trans hexact, fun d groupID level => ?_⟩
    rw [hgt, hexact, ← subtreeTotal_exact hf hex X hXc]
    exact AppendData_returns_subtreeTotal hf type_ categoryStats fuel hfuel X hXc
      groupID level d

/-- C26 (footer totals), as the code has it.  On a forest with positive category
identifiers, "Total Expenses" (`group_total[-1][0]`) is the `double` sum, accumulated in
the order of the rows, of the negative amounts of the own rows that `RefreshData`
returns, "Total Income" (`group_total[-2][0]`) is the sum so accumulated of the positive
ones, and "Grand Total" is the `double` sum of the two; a category has at most one own
row, which has its mode-filtered own amount, and a category without an own row has the
own amount zero; no contribution row is counted.  For amounts for which no addition
rounds, the three values are the exact sums over all categories of the negative, of the
positive and of all mode-filtered own amounts. -/
theorem footer_totals (cats : List Category) (type_ : TYPE)
    (categoryStats : CategoryStats) (fuel : Nat) (data_ : List data_holder)
    (hf : Forest cats) (hfuel : cats.length ≤ fuel)
    (hpos : ∀ c ∈ cats, 0 < c.CATEGID) :
    ∃ out gt, RefreshData fuel cats type_ data_ categoryStats = some out ∧
      getHTMLText_group_total fuel cats type_ data_ categoryStats = some gt ∧
      totalExpenses gt =
        sumOf ((out.filter (fun r => r.subCatID == -1)).map
          (fun r => expensePart r.amount)) ∧
      totalIncome gt =
        sumOf ((out.filter (fun r => r.subCatID == -1)).map
          (fun r => incomePart r.amount)) ∧
      grandTotal gt = totalExpenses gt + totalIncome gt ∧
      (∀ c ∈ cats,
        (out.filter (fun r => r.catID == c.CATEGID && r.subCatID == -1)).length ≤ 1 ∧
        (∀ r ∈ out, r.catID = c.CATEGID → r.subCatID = -1 →
          r.amount = ownAmount type_ categoryStats c) ∧
        ((∀ r ∈ out, ¬ (r.catID = c.CATEGID ∧ r.subCatID = -1)) →
          ownAmount type_ categoryStats c = 0)) ∧
      ∀ e, ExactAmounts cats type_ categoryStats e →
        totalExpenses gt = double.finite ((cats.map (fun c =>
          if units (ownAmount type_ categoryStats c) < 0
            then units (ownAmount type_ categoryStats c) else 0)).sum) ∧
        totalIncome gt = double.finite ((cats.map (fun c =>
          if 0 < units (ownAmount type_ categoryStats c)
            then units (ownAmount type_ categoryStats c) else 0)).sum) ∧
        grandTotal gt = double.finite ((cats.map (fun c =>
          units (ownAmount type_ categoryStats c))).sum) := by
  have hout := RefreshData_eq_double hf type_ categoryStats fuel hfuel data_
  obtain ⟨h1, h2⟩ := group_total_footer_double hf hpos type_ categoryStats
  refine ⟨_, group_total (report cats type_ categoryStats), hout, ?_, h1, h2, rfl, ?_, ?_⟩
  · unfold getHTMLText_group_total
    rw [hout]
  · intro c hc
    obtain ⟨root, k, hroot, hpath⟩ := hf.exists_root hc
    refine ⟨?_, ?_, ?_⟩
    · rw [filter_and (fun r : data_holder => r.catID == c.CATEGID)
        (fun r : data_holder => r.subCatID == -1),
        filter_report_double hf type_ categoryStats hroot hpath]
      exact lineRows_own_rows_length hf type_ categoryStats _ c k
    · intro r hr hcat hsub
      obtain ⟨_, _, _, _, h, _⟩ := report_own_row_double hf hc hr hcat hsub
      rw [h]
      rfl
    · intro hnone
      by_contra h0
      obtain ⟨root', k', _, _, hsubset⟩ :=
        lineRows_subset_report_double hf type_ categoryStats hc
      exact hnone _ (hsubset _ (mem_lineRows_double.2 (Or.inl ⟨rfl, Or.inl h0⟩)))
        ⟨rfl, rfl⟩
  · intro e hex
    obtain ⟨he, hown, hbound⟩ := hex
    have hrow : ∀ r ∈ (report cats type_ categoryStats).filter (fun r => r.subCatID == -1),
        ∃ c ∈ cats, r.amount = ownAmount type_ categoryStats c := by
      intro r hr
      obtain ⟨hr1, hr2⟩ := List.mem_filter.1 hr
      obtain ⟨root, x, k, _, _, hx, h⟩ := report_row_cases_double hf hr1
      rcases h with ⟨h, _⟩ | ⟨s, hs, _, h⟩
      · exact ⟨x, hx, by rw [h]; rfl⟩
      · exfalso
        apply hf.ids_ne s (mem_sub_category.1 hs).1
        have : r.subCatID = -1 := by simpa using hr2
        rw [← this, h]
        rfl
    have hE : totalExpenses (group_total (report cats type_ categoryStats)) =
        double.finite ((cats.map (fun c =>
          if units (ownAmount type_ categoryStats c) < 0
            then units (ownAmount type_ categoryStats c) else 0)).sum) := by
      show group_total (report cats type_ categoryStats) (-1) 0 = _
      rw [h1, sumOf_exact he, List.map_map]
      · have := report_own_sum_double hf type_ categoryStats
          (fun d => units (expensePart d)) rfl
        rw [show (units ∘ fun r : data_holder => expensePart r.amount) =
          fun r => units (expensePart r.amount) from rfl, this]
        congr 2
        apply List.map_congr_left
        intro c hc
        show units (expensePart (ownAmount type_ categoryStats c)) = _
        rw [expensePart_units (hown c hc).1]
        rfl
      · intro d hd
        obtain ⟨r, hr, rfl⟩ := List.mem_map.1 hd
        obtain ⟨c, hc, hamt⟩ := hrow r hr
        show expensePart r.amount = double.finite (units (expensePart r.amount)) ∧
          _ ∣ units (expensePart r.amount)
        rw [hamt, expensePart_units (hown c hc).1]
        refine ⟨rfl, ?_⟩
        show _ ∣ (if _ then _ else _)
        split_ifs
        · exact (hown c hc).2
        · exact dvd_zero _
      · rw [List.map_map]
        have := report_own_sum_double hf type_ categoryStats
          (fun d => (units (expensePart d)).natAbs) rfl
        rw [show ((fun d => (units d).natAbs) ∘ fun r : data_holder => expensePart r.amount) =
          fun r => (units (expensePart r.amount)).natAbs from rfl, this]
        refine lt_of_le_of_lt (sum_map_le_sum_map _ _ cats ?_) hbound
        intro c hc
        show (units (expensePart (ownAmount type_ categoryStats c))).natAbs ≤ _
        rw [expensePart_units (hown c hc).1]
        show (if _ then _ else _ : Int).natAbs ≤ _
        split_ifs
        · exact le_refl _
        · simp
    have hI : totalIncome (group_total (report cats type_ categoryStats)) =
        double.finite ((cats.map (fun c =>
          if 0 < units (ownAmount type_ categoryStats c)
            then units (ownAmount type_ categoryStats c) else 0)).sum) := by
      show group_total (report cats type_ categoryStats) (-2) 0 = _
      rw [h2, sumOf_exact he, List.map_map]
      · have := report_own_sum_double hf type_ categoryStats
          (fun d => units (incomePart d)) rfl
        rw [show (units ∘ fun r : data_holder => incomePart r.amount) =
          fun r => units (incomePart r.amount) from rfl, this]
        congr 2
        apply List.map_congr_left
        intro c hc
        show units (incomePart (ownAmount type_ categoryStats c)) = _
        rw [incomePart_units (hown c hc).1]
        rfl
      · intro d hd
        obtain ⟨r, hr, rfl⟩ := List.mem_map.1 hd
        obtain ⟨c, hc, hamt⟩ := hrow r hr
        show incomePart r.amount = double.finite (units (incomePart r.amount)) ∧
          _ ∣ units (incomePart r.amount)
        rw [hamt, incomePart_units (hown c hc).1]
        refine ⟨rfl, ?_⟩
        show _ ∣ (if _ then _ else _)
        split_ifs
        · exact (hown c hc).2
        · exact dvd_zero _
      · rw [List.map_map]
        have := report_own_sum_double hf type_ categoryStats
          (fun d => (units (incomePart d)).natAbs) rfl
        rw [show ((fun d => (units d).natAbs) ∘ fun r : data_holder => incomePart r.amount) =
          fun r => (units (incomePart r.amount)).natAbs from rfl, this]
        refine lt_of_le_of_lt (sum_map_le_sum_map _ _ cats ?_) hbound
        intro c hc
        show (units (incomePart (ownAmount type_ categoryStats c))).natAbs ≤ _
        rw [incomePart_units (hown c hc).1]
        show (if _ then _ else _ : Int).natAbs ≤ _
        split_ifs
        · exact le_refl _
        · simp
    refine ⟨hE, hI, ?_⟩
    have hsplit : (cats.map (fun c =>
          if units (ownAmount type_ categoryStats c) < 0
            then units (ownAmount type_ categoryStats c) else 0)).sum +
        (cats.map (fun c =>
          if 0 < units (ownAmount type_ categoryStats c)
            then units (ownAmount type_ categoryStats c) else 0)).sum =
        (cats.map (fun c => units (ownAmount type_ categoryStats c))).sum := by
      rw [← List.sum_map_add]
      congr 1
      apply List.map_congr_left
      intro c _
      split_ifs <;> omega
    show group_total (report cats type_ categoryStats) (-1) 0 +
      group_total (report cats type_ categoryStats) (-2) 0 = _
    have hE' : group_total (report cats type_ categoryStats) (-1) 0 = _ := hE
    have hI' : group_total (report cats type_ categoryStats) (-2) 0 = _ := hI
    rw [hE', hI', add_finite, hsplit]
    apply roundToNearestEven_exact he
    · exact dvd_sum_map _ _ _ (fun c hc => (hown c hc).2)
    · exact lt_of_le_of_lt (natAbs_sum_map_le _ _) hbound

/-! ## The rules at the examples -/

/-- The own-row rule at the rounding example, for the category `R`: its own row is
there, with the own amount of `R`. -/
theorem own_row_rule_witness :
    Forest roundingTable ∧ roundingTable.length ≤ 4 ∧
    (⟨2, "R", 1⟩ : Category) ∈ roundingTable ∧
    RefreshData 4 roundingTable TYPE.SUMMARY [] roundingStats =
      some [⟨2, -1, "R", ofInt (-10000000000000000), 1, 1⟩,
        ⟨2, 3, "R", ofInt 10000000000000000, 1, 1⟩,
        ⟨3, -1, "A", ofInt 10000000000000000, 1, 2⟩,
        ⟨2, 4, "R", ofInt 1, 1, 1⟩, ⟨4, -1, "B", ofInt 1, 1, 2⟩] ∧
    ∃ out, RefreshData 4 roundingTable TYPE.SUMMARY [] roundingStats = some out ∧
      ((∃ r ∈ out, r.catID = (⟨2, "R", 1⟩ : Category).CATEGID ∧ r.subCatID = -1) ↔
        (ownAmount TYPE.SUMMARY roundingStats ⟨2, "R", 1⟩ ≠ 0 ∨
          sumInOrder (subcategories roundingTable ⟨2, "R", 1⟩)
            (subtreeTotal roundingTable TYPE.SUMMARY roundingStats) ≠ 0)) ∧
      (∀ r ∈ out, r.catID = (⟨2, "R", 1⟩ : Category).CATEGID → r.subCatID = -1 →
        r.amount = ownAmount TYPE.SUMMARY roundingStats ⟨2, "R", 1⟩ ∧
        r.name = (⟨2, "R", 1⟩ : Category).CATEGNAME) ∧
      ∀ s ∈ subcategories roundingTable ⟨2, "R", 1⟩,
        ∀ (d : List data_holder) (groupID : Int) (level : Nat),
        ∃ rows, AppendData 4 roundingTable TYPE.SUMMARY d roundingStats s groupID level =
          some (subtreeTotal roundingTable TYPE.SUMMARY roundingStats s, rows) :=
  ⟨⟨by decide, by decide, by decide,
      ⟨fun i => if i = 1 then 2 else if i = 2 then 1 else 0, by decide⟩⟩,
    by decide, by decide, by decide,
    own_row_rule roundingTable TYPE.SUMMARY roundingStats 4 []
      ⟨by decide, by decide, by decide,
        ⟨fun i => if i = 1 then 2 else if i = 2 then 1 else 0, by decide⟩⟩
      (by decide) ⟨2, "R", 1⟩ (by decide)⟩

/-- The contribution-row rule at the rounding example, for the subcategory `A` of `R`:
the row is there, with the subtree amount of `A`.  (For the subcategory `R` of `Top` the
exact sum of the amounts is `1`, the subtree amount the code computes is `0`, and there
is no row.) -/
theorem contribution_row_rule_witness :
    Forest roundingTable ∧ roundingTable.length ≤ 4 ∧
    (⟨3, "A", 2⟩ : Category) ∈ roundingTable ∧ (⟨2, "R", 1⟩ : Category) ∈ roundingTable ∧
    (⟨3, "A", 2⟩ : Category).PARENTID = (⟨2, "R", 1⟩ : Category).CATEGID ∧
    subtreeTotal roundingTable TYPE.SUMMARY roundingStats ⟨2, "R", 1⟩ = 0 ∧
    ((subtree roundingTable roundingTable.length ⟨2, "R", 1⟩).map
      (fun x => units (ownAmount TYPE.SUMMARY roundingStats x))).sum = units (ofInt 1) ∧
    ∃ out, RefreshData 4 roundingTable TYPE.SUMMARY [] roundingStats = some out ∧
      ((∃ r ∈ out, r.catID = (⟨2, "R", 1⟩ : Category).CATEGID ∧
          r.subCatID = (⟨3, "A", 2⟩ : Category).CATEGID) ↔
        subtreeTotal roundingTable TYPE.SUMMARY roundingStats ⟨3, "A", 2⟩ ≠ 0) ∧
      (∀ r ∈ out, r.catID = (⟨2, "R", 1⟩ : Category).CATEGID →
        r.subCatID = (⟨3, "A", 2⟩ : Category).CATEGID →
        r.amount = subtreeTotal roundingTable TYPE.SUMMARY roundingStats ⟨3, "A", 2⟩ ∧
        r.name = (⟨2, "R", 1⟩ : Category).CATEGNAME ∧
        Depth roundingTable ⟨2, "R", 1⟩ r.level ∧
        ∃ root k, TopLevel roundingTable root ∧ Path roundingTable root ⟨2, "R", 1⟩ k ∧
          r.categs = root.CATEGID) ∧
      (∀ (d : List data_holder) (groupID : Int) (level : Nat),
        ∃ rows, AppendData 4 roundingTable TYPE.SUMMARY d roundingStats ⟨3, "A", 2⟩
            groupID level =
          some (subtreeTotal roundingTable TYPE.SUMMARY roundingStats ⟨3, "A", 2⟩, rows)) ∧
      subtreeTotal roundingTable TYPE.SUMMARY roundingStats ⟨3, "A", 2⟩ =
        ownAmount TYPE.SUMMARY roundingStats ⟨3, "A", 2⟩ +
          sumInOrder (subcategories roundingTable ⟨3, "A", 2⟩)
            (subtreeTotal roundingTable TYPE.SUMMARY roundingStats) :=
  ⟨⟨by decide, by decide, by decide,
      ⟨fun i => if i = 1 then 2 else if i = 2 then 1 else 0, by decide⟩⟩,
    by decide, by decide, by decide, rfl, by decide, by decide,
    contribution_row_rule roundingTable TYPE.SUMMARY roundingStats 4 []
      ⟨by decide, by decide, by decide,
        ⟨fun i => if i = 1 then 2 else if i = 2 then 1 else 0, by decide⟩⟩
      (by decide) ⟨3, "A", 2⟩ ⟨2, "R", 1⟩ (by decide) (by decide) rfl⟩

/-- The filter example in the mode `GOES`: the subtree amount of `Dining` is zero, the
sequence has the rows of `Food` and `Groceries` and no row of `Dining` or `Cafe`. -/
theorem zero_subtree_rows_witness :
    Forest cafeTable ∧ cafeTable.length ≤ 4 ∧ (⟨3, "Dining", 1⟩ : Category) ∈ cafeTable ∧
    subtreeTotal cafeTable TYPE.GOES cafeStats ⟨3, "Dining", 1⟩ = 0 ∧
    RefreshData 4 cafeTable TYPE.GOES [] cafeStats =
      some [⟨1, -1, "Food", ofInt (-10), 1, 0⟩, ⟨1, 2, "Food", ofInt (-50), 1, 0⟩,
        ⟨2, -1, "Groceries", ofInt (-50), 1, 1⟩] ∧
    ∃ out, RefreshData 4 cafeTable TYPE.GOES [] cafeStats = some out ∧
      (∀ (d : List data_holder) (groupID : Int) (level : Nat),
        ∃ rows, AppendData 4 cafeTable TYPE.GOES d cafeStats ⟨3, "Dining", 1⟩ groupID level =
          some (0, rows)) ∧
      (∀ r ∈ out, r.subCatID ≠ (⟨3, "Dining", 1⟩ : Category).CATEGID) ∧
      (TYPE.GOES = TYPE.GOES ∨ TYPE.GOES = TYPE.COME →
        ∀ x, Descends cafeTable ⟨3, "Dining", 1⟩ x →
          ownAmount TYPE.GOES cafeStats x = 0 ∧
          ∀ r ∈ out, r.catID ≠ x.CATEGID ∧ r.subCatID ≠ x.CATEGID) :=
  ⟨⟨by decide, by decide, by decide,
      ⟨fun i => if i = 1 then 2 else if i = 3 then 1 else 0, by decide⟩⟩,
    by decide, by decide, by decide, by decide,
    zero_subtree_rows cafeTable TYPE.GOES cafeStats 4 []
      ⟨by decide, by decide, by decide,
        ⟨fun i => if i = 1 then 2 else if i = 3 then 1 else 0, by decide⟩⟩
      (by decide) ⟨3, "Dining", 1⟩ (by decide) (by decide)⟩

/-- C12 as stated does not hold: in a pass-through mode the amounts of `Refund` (`5`) and
`Fee` (`-5`) under `Misc` (`0`) add up to a subtree amount of zero for `Misc`, exactly and
as the code computes it, and the sequence `RefreshData` returns has rows with the
`catID` of `Misc` and rows of its descendants. -/
theorem zero_subtree_with_rows :
    Forest miscTable ∧
    subtreeTotal miscTable TYPE.SUMMARY miscAmounts ⟨1, "Misc", -1⟩ = 0 ∧
    ((subtree miscTable miscTable.length ⟨1, "Misc", -1⟩).map
      (fun x => units (ownAmount TYPE.SUMMARY miscAmounts x))).sum = 0 ∧
    Descends miscTable ⟨1, "Misc", -1⟩ ⟨2, "Refund", 1⟩ ∧
    RefreshData 3 miscTable TYPE.SUMMARY [] miscAmounts =
      some [⟨1, 3, "Misc", ofInt (-5), 1, 0⟩, ⟨3, -1, "Fee", ofInt (-5), 1, 1⟩,
        ⟨1, 2, "Misc", ofInt 5, 1, 0⟩, ⟨2, -1, "Refund", ofInt 5, 1, 1⟩] ∧
    ∃ out, RefreshData 3 miscTable TYPE.SUMMARY [] miscAmounts = some out ∧
      (∃ r ∈ out, r.catID = 1) ∧ (∃ r ∈ out, r.catID = 2) ∧ (∃ r ∈ out, r.subCatID = 2) :=
  ⟨⟨by decide, by decide, by decide, ⟨fun i => if i = 1 then 1 else 0, by decide⟩⟩,
    by decide, by decide,
    ⟨1, Path.child (Path.self _) (by decide) rfl⟩,
    by decide,
    [⟨1, 3, "Misc", ofInt (-5), 1, 0⟩, ⟨3, -1, "Fee", ofInt (-5), 1, 1⟩,
      ⟨1, 2, "Misc", ofInt 5, 1, 0⟩, ⟨2, -1, "Refund", ofInt 5, 1, 1⟩],
    by decide, by decide, by decide, by decide⟩

/-- C25 as stated does not hold.  In the display example the rows of `Home` have the
amounts `9007199254740992`, `1` and `-9007199254740992`, in this order; their `double`
sum in this order, the value `group_total[1][1]`, is `0`, and the sum of the own
amounts of `Home` and its descendants is `1`, which is also what `AppendData` returns
for `Home`. -/
theorem displayed_total_differs :
    Forest homeTable ∧ (∀ c ∈ homeTable, 0 < c.CATEGID) ∧
    TopLevel homeTable ⟨1, "Home", -1⟩ ∧
    RefreshData 3 homeTable TYPE.SUMMARY [] homeStats =
      some [⟨1, -1, "Home", ofInt 9007199254740992, 1, 0⟩,
        ⟨1, 2, "Home", ofInt 1, 1, 0⟩, ⟨2, -1, "Bills", ofInt 1, 1, 1⟩,
        ⟨1, 3, "Home", ofInt (-9007199254740992), 1, 0⟩,
        ⟨3, -1, "Rent", ofInt (-9007199254740992), 1, 1⟩] ∧
    (getHTMLText_group_total 3 homeTable TYPE.SUMMARY [] homeStats).map
      (fun gt => gt 1 1) = some (ofInt 0) ∧
    ((subtree homeTable homeTable.length ⟨1, "Home", -1⟩).map
      (fun x => units (ownAmount TYPE.SUMMARY homeStats x))).sum = units (ofInt 1) ∧
    (AppendData 3 homeTable TYPE.SUMMARY [] homeStats ⟨1, "Home", -1⟩ 1 0).map
      (fun r => r.1) = some (ofInt 1) ∧
    ofInt 0 ≠ ofInt 1 :=
  ⟨⟨by decide, by decide, by decide, ⟨fun i => if i = 1 then 1 else 0, by decide⟩⟩,
    by decide, ⟨by decide, rfl⟩, by decide, by decide, by decide, by decide, by decide⟩

/-- The displayed total of `Dining`, at the depth `1` below `Food`, in the filter example
in the mode `SUMMARY`, whose whole amounts add up without rounding: the rows of
`Dining` have the amounts `20` and `5`, and the total is `25`. -/
theorem displayed_category_total_witness :
    Forest cafeTable ∧ cafeTable.length ≤ 4 ∧ TopLevel cafeTable ⟨1, "Food", -1⟩ ∧
    Path cafeTable ⟨1, "Food", -1⟩ ⟨3, "Dining", 1⟩ 1 ∧
    ¬ ((⟨1, "Food", -1⟩ : Category).CATEGID = -2 ∧ (⟨3, "Dining", 1⟩ : Category).CATEGID = 0) ∧
    ExactAmounts cafeTable TYPE.SUMMARY cafeStats 1074 ∧
    RefreshData 4 cafeTable TYPE.SUMMARY [] cafeStats =
      some [⟨1, -1, "Food", ofInt (-10), 1, 0⟩, ⟨1, 3, "Food", ofInt 25, 1, 0⟩,
        ⟨3, -1, "Dining", ofInt 20, 1, 1⟩, ⟨3, 4, "Dining", ofInt 5, 1, 1⟩,
        ⟨4, -1, "Cafe", ofInt 5, 1, 2⟩, ⟨1, 2, "Food", ofInt (-50), 1, 0⟩,
        ⟨2, -1, "Groceries", ofInt (-50), 1, 1⟩] ∧
    (getHTMLText_group_total 4 cafeTable TYPE.SUMMARY [] cafeStats).map
      (fun gt => gt 1 3) = some (ofInt 25) ∧
    ∃ out gt, RefreshData 4 cafeTable TYPE.SUMMARY [] cafeStats = some out ∧
      getHTMLText_group_total 4 cafeTable TYPE.SUMMARY [] cafeStats = some gt ∧
      (∀ r ∈ out, r.catID = (⟨3, "Dining", 1⟩ : Category).CATEGID →
        r.categs = (⟨1, "Food", -1⟩ : Category).CATEGID) ∧
      gt (⟨1, "Food", -1⟩ : Category).CATEGID (⟨3, "Dining", 1⟩ : Category).CATEGID =
        sumOf ((out.filter (fun r => r.catID == (⟨3, "Dining", 1⟩ : Category).CATEGID)).map
          (fun r => r.amount)) ∧
      ∀ e, ExactAmounts cafeTable TYPE.SUMMARY cafeStats e →
        gt (⟨1, "Food", -1⟩ : Category).CATEGID (⟨3, "Dining", 1⟩ : Category).CATEGID =
          double.finite (((subtree cafeTable cafeTable.length ⟨3, "Dining", 1⟩).map
            (fun x => units (ownAmount TYPE.SUMMARY cafeStats x))).sum) ∧
        ∀ (d : List data_holder) (groupID : Int) (level : Nat),
          ∃ rows, AppendData 4 cafeTable TYPE.SUMMARY d cafeStats ⟨3, "Dining", 1⟩
              groupID level =
            some (gt (⟨1, "Food", -1⟩ : Category).CATEGID
              (⟨3, "Dining", 1⟩ : Category).CATEGID, rows) :=
  ⟨⟨by decide, by decide, by decide,
      ⟨fun i => if i = 1 then 2 else if i = 3 then 1 else 0, by decide⟩⟩,
    by decide, ⟨by decide, rfl⟩, Path.child (Path.self _) (by decide) rfl, by decide,
    by decide, by decide, by decide,
    displayed_category_total cafeTable TYPE.SUMMARY cafeStats 4 []
      ⟨by decide, by decide, by decide,
        ⟨fun i => if i = 1 then 2 else if i = 3 then 1 else 0, by decide⟩⟩
      (by decide) ⟨1, "Food", -1⟩ ⟨3, "Dining", 1⟩ 1 ⟨by decide, rfl⟩
      (Path.child (Path.self _) (by decide) rfl) (by decide)⟩

/-- C26 as stated does not hold.  In the footer example the own rows have the amounts
`9007199254740992`, `1` and `1`, in this order; "Total Income" and "Grand Total" are
`9007199254740992`, and the sum of the own amounts is `9007199254740994`. -/
theorem footer_totals_differ :
    Forest incomeTable ∧ (∀ c ∈ incomeTable, 0 < c.CATEGID) ∧
    RefreshData 3 incomeTable TYPE.SUMMARY [] incomeStats =
      some [⟨1, -1, "Allowance", ofInt 9007199254740992, 1, 0⟩,
        ⟨2, -1, "Bonus", ofInt 1, 2, 0⟩, ⟨3, -1, "Gift", ofInt 1, 3, 0⟩] ∧
    (getHTMLText_group_total 3 incomeTable TYPE.SUMMARY [] incomeStats).map totalIncome =
      some (ofInt 9007199254740992) ∧
    (getHTMLText_group_total 3 incomeTable TYPE.SUMMARY [] incomeStats).map grandTotal =
      some (ofInt 9007199254740992) ∧
    (incomeTable.map (fun c => units (ownAmount TYPE.SUMMARY incomeStats c))).sum =
      units (ofInt 9007199254740994) ∧
    (incomeTable.map (fun c =>
      if 0 < units (ownAmount TYPE.SUMMARY incomeStats c)
        then units (ownAmount TYPE.SUMMARY incomeStats c) else 0)).sum =
      units (ofInt 9007199254740994) ∧
    ofInt 9007199254740992 ≠ ofInt 9007199254740994 ∧
    roundToNearestEven (units (ofInt 9007199254740994)) = ofInt 9007199254740994 :=
  ⟨⟨by decide, by decide, by decide, ⟨fun _ => 0, by decide⟩⟩,
    by decide, by decide, by decide, by decide, by decide, by decide, by decide, by decide⟩

/-- The footer totals in the filter example in the mode `SUMMARY`, whose identifiers are
`1` to `4` and whose whole amounts (`-10`, `-50`, `20`, `5`) add up without rounding:
`-60`, `25` and `-35`. -/
theorem footer_totals_witness :
    Forest cafeTable ∧ cafeTable.length ≤ 4 ∧ (∀ c ∈ cafeTable, 0 < c.CATEGID) ∧
    ExactAmounts cafeTable TYPE.SUMMARY cafeStats 1074 ∧
    (getHTMLText_group_total 4 cafeTable TYPE.SUMMARY [] cafeStats).map
      (fun gt => (totalExpenses gt, totalIncome gt, grandTotal gt)) =
      some (ofInt (-60), ofInt 25, ofInt (-35)) ∧
    ∃ out gt, RefreshData 4 cafeTable TYPE.SUMMARY [] cafeStats = some out ∧
      getHTMLText_group_total 4 cafeTable TYPE.SUMMARY [] cafeStats = some gt ∧
      totalExpenses gt =
        sumOf ((out.filter (fun r => r.subCatID == -1)).map
          (fun r => expensePart r.amount)) ∧
      totalIncome gt =
        sumOf ((out.filter (fun r => r.subCatID == -1)).map
          (fun r => incomePart r.amount)) ∧
      grandTotal gt = totalExpenses gt + totalIncome gt ∧
      (∀ c ∈ cafeTable,
        (out.filter (fun r => r.catID == c.CATEGID && r.subCatID == -1)).length ≤ 1 ∧
        (∀ r ∈ out, r.catID = c.CATEGID → r.subCatID = -1 →
          r.amount = ownAmount TYPE.SUMMARY cafeStats c) ∧
        ((∀ r ∈ out, ¬ (r.catID = c.CATEGID ∧ r.subCatID = -1)) →
          ownAmount TYPE.SUMMARY cafeStats c = 0)) ∧
      ∀ e, ExactAmounts cafeTable TYPE.SUMMARY cafeStats e →
        totalExpenses gt = double.finite ((cafeTable.map (fun c =>
          if units (ownAmount TYPE.SUMMARY cafeStats c) < 0
            then units (ownAmount TYPE.SUMMARY cafeStats c) else 0)).sum) ∧
        totalIncome gt = double.finite ((cafeTable.map (fun c =>
          if 0 < units (ownAmount TYPE.SUMMARY cafeStats c)
            then units (ownAmount TYPE.SUMMARY cafeStats c) else 0)).sum) ∧
        grandTotal gt = double.finite ((cafeTable.map (fun c =>
          units (ownAmount TYPE.SUMMARY cafeStats c))).sum) :=
  ⟨⟨by decide, by decide, by decide,
      ⟨fun i => if i = 1 then 2 else if i = 3 then 1 else 0, by decide⟩⟩,
    by decide, by decide, by decide, by decide,
    footer_totals cafeTable TYPE.SUMMARY cafeStats 4 []
      ⟨by decide, by decide, by decide,
        ⟨fun i => if i = 1 then 2 else if i = 3 then 1 else 0, by decide⟩⟩
      (by decide) (by decide)⟩

end Binary64

end MMEX
